import Mathlib

/-!
# A FAT-style file system in one image file

Shallow embedding of `main.c`: the superblock, the file allocation table,
directory entries, path resolution (`find_directory`, `find_file`), the
reports (`diskinfo`, `disklist`), extraction (`diskget`), free-block
allocation (`get_free_block`) and insertion (`diskput`).

Storage is byte addressed.  The image file and the heap buffers are maps
from an offset to a cell; a read takes the cell modulo 256, so every value
read is a byte.  The image holds a cell at every offset: a read that the C
code would end early at the end of the file is not modelled, statements are
about images that reach as far as the code reads.  Unsigned 32-bit and 16-bit
arithmetic of the C code is written with an explicit remainder.

A directory entry is read into a buffer of 64 bytes on the heap and its name
is compared with `strcmp`, from byte 27 of the buffer on and without a bound.
A comparison with a name of 37 bytes or more can therefore leave the buffer;
the memory it reads there is a parameter of the lookups (`heap_after`), taken
not to change while a lookup runs.  A comparison with a shorter name ends
inside the buffer.

Processes end in three ways: a result, an `exit(1)` with a message (a status
or `none` here), or a loop that never ends (`never_ends`).  A loop gets the
number of iterations after which its state repeats as fuel, so that running
out of fuel is exactly running for ever.
-/

namespace FatFs

/-! ## Bytes and big-endian fields -/

/-- A byte-addressed store: the image file, or a buffer on the heap. -/
abbrev Mem := Nat → Nat

/-- Arithmetic on `uint32_t`. -/
def u32 (x : Nat) : Nat := x % 4294967296

/-- The byte at offset `k`. -/
def rd8 (m : Mem) (k : Nat) : Nat := m k % 256

/-- The 16-bit field at offset `k` after `htons`: its big-endian value. -/
def be16 (m : Mem) (k : Nat) : Nat := rd8 m k * 256 + rd8 m (k + 1)

/-- The 32-bit field at offset `k` after `htonl` / `ntohl`: its big-endian value. -/
def be32 (m : Mem) (k : Nat) : Nat :=
  ((rd8 m k * 256 + rd8 m (k + 1)) * 256 + rd8 m (k + 2)) * 256 + rd8 m (k + 3)

/-- The `n` bytes from offset `k` on, as `fread` delivers them. -/
def rdBytes (m : Mem) (k n : Nat) : List Nat :=
  (List.range n).map (fun i => rd8 m (k + i))

/-- Copy `len` cells of the buffer `src` to offset `k` of `m` (`fwrite` of a buffer). -/
def blit (m : Mem) (k : Nat) (src : Mem) (len : Nat) : Mem :=
  fun j => if k ≤ j ∧ j < k + len then src (j - k) else m j

/-- Write the bytes `bs` at offset `k`. -/
def wrBytes (m : Mem) (k : Nat) (bs : List Nat) : Mem :=
  blit m k (fun i => bs.getD i 0) bs.length

/-- The two bytes `htons v` leaves in memory. -/
def enc16 (v : Nat) : List Nat := [v / 256 % 256, v % 256]

/-- The four bytes `htonl v` leaves in memory. -/
def enc32 (v : Nat) : List Nat :=
  [v / 16777216 % 256, v / 65536 % 256, v / 256 % 256, v % 256]

/-! ## Records -/

/-- The packed superblock record: 8 + 2 + 5 * 4 bytes at offset 0 of the image. -/
structure super_block where
  fs_id : List Nat
  block_size : Nat
  file_system_block_count : Nat
  fat_start_block : Nat
  fat_block_count : Nat
  root_dir_start_block : Nat
  root_dir_block_count : Nat
deriving DecidableEq

/-- The packed time stamp of a directory entry, 7 bytes. -/
structure dir_entry_timedate_t where
  year : Nat
  month : Nat
  day : Nat
  hour : Nat
  minute : Nat
  second : Nat
deriving DecidableEq

/-- The packed directory entry, 64 bytes: status at 0, start_block at 1,
block_count at 5, size at 9, the two time stamps at 13 and 20, the 31 bytes
of the file name at 27 and 6 unused bytes at 58.  Multi-byte fields hold
their value in host order, that is after the `htonl` / `htons` of the reader. -/
structure dir_entry_t where
  status : Nat
  start_block : Nat
  block_count : Nat
  size : Nat
  create_time : dir_entry_timedate_t
  modify_time : dir_entry_timedate_t
  filename : List Nat
  unused : List Nat
deriving DecidableEq

/-- The size `sizeof(dir_entry_t)` of an entry, in bytes. -/
def entry_size : Nat := 64

/-- The function `get_superblock`: the record at offset 0 with every multi-byte field converted. -/
def get_superblock (img : Mem) : super_block :=
  { fs_id := rdBytes img 0 8
    block_size := be16 img 8
    file_system_block_count := be32 img 10
    fat_start_block := be32 img 14
    fat_block_count := be32 img 18
    root_dir_start_block := be32 img 22
    root_dir_block_count := be32 img 26 }

/-- A time stamp read at offset `k`, its year converted with `htons`. -/
def read_time (m : Mem) (k : Nat) : dir_entry_timedate_t :=
  { year := be16 m k
    month := rd8 m (k + 2)
    day := rd8 m (k + 3)
    hour := rd8 m (k + 4)
    minute := rd8 m (k + 5)
    second := rd8 m (k + 6) }

/-- The entry of 64 bytes read at offset `off`, with start_block, block_count,
size and the two years converted as `find_directory`, `find_file` and
`disklist` do after `fread`. -/
def read_entry (img : Mem) (off : Nat) : dir_entry_t :=
  { status := rd8 img off
    start_block := be32 img (off + 1)
    block_count := be32 img (off + 5)
    size := be32 img (off + 9)
    create_time := read_time img (off + 13)
    modify_time := read_time img (off + 20)
    filename := rdBytes img (off + 27) 31
    unused := rdBytes img (off + 58) 6 }

/-- The bytes of a time stamp as stored. -/
def enc_time (t : dir_entry_timedate_t) : List Nat :=
  enc16 t.year ++ [t.month, t.day, t.hour, t.minute, t.second]

/-- The bytes `fwrite(entry, sizeof(dir_entry_t), 1, f)` stores for an entry
whose multi-byte fields were set through `htonl` / `htons`. -/
def encode_entry (e : dir_entry_t) : List Nat :=
  [e.status] ++ enc32 e.start_block ++ enc32 e.block_count ++ enc32 e.size
    ++ enc_time e.create_time ++ enc_time e.modify_time ++ e.filename ++ e.unused

/-! ## Geometry -/

/-- The offset `block * sb.block_size` passed to `fseek`: the product is taken
in `uint32_t`. -/
def block_off (sb : super_block) (block : Nat) : Nat := u32 (block * sb.block_size)

/-- The loop bound `sb.block_size / sizeof(dir_entry_t)`. -/
def slots (sb : super_block) : Nat := sb.block_size / entry_size

/-- The size `sb.fat_block_count * sb.block_size` of the table buffer, in `uint32_t`. -/
def fat_bytes (sb : super_block) : Nat := u32 (sb.fat_block_count * sb.block_size)

/-- The table buffer after `fseek` to the FAT region and `fread` of `fat_bytes`
bytes.  Cells past the end of the allocation are no part of the buffer; they
read as 0 here, and every statement about the table is made for tables that
hold the entries it speaks of. -/
def load_fat (img : Mem) (sb : super_block) : Mem :=
  fun k => if k < fat_bytes sb then img (block_off sb sb.fat_start_block + k) else 0

/-- The value `ntohl(fat[i])`. -/
def fat_entry (fat : Mem) (i : Nat) : Nat := be32 fat (4 * i)

/-- The assignment `fat[i] = htonl(v)`. -/
def fat_set (fat : Mem) (i v : Nat) : Mem := wrBytes fat (4 * i) (enc32 v)

/-! ## Strings and paths

A C string is the list of its bytes before the terminating NUL. -/

/-- The memory that follows the 64 bytes of an entry buffer on the heap, from
the first byte after the buffer on: for the buffer `find_directory` allocates
and for the one `find_file` allocates.  The program text does not fix these
bytes.  `strcmp` has no bound: it reads them when the 37 bytes from
`entry->filename` to the end of the buffer hold no NUL and agree with the name
it compares. -/
structure heap_after where
  dir_entry : Mem
  file_entry : Mem

/-- The comparison of `strcmp` once it has left the entry buffer: the bytes of
`beyond` from offset `k` on against the rest `s` of the C string. -/
def past_eq (beyond : Mem) : Nat → List Nat → Bool
  | k, [] => rd8 beyond k == 0
  | k, c :: cs => rd8 beyond k == c && past_eq beyond (k + 1) cs

/-- The test `strcmp(buf, s) == 0`, where `buf` is the memory from `entry->filename` to
the end of the entry buffer, `beyond` the memory that follows the buffer and
`s` a C string.  A comparison that reaches the end of `buf` (no NUL in the 37
bytes and `s` at least as long) goes on in `beyond`, as `strcmp` does. -/
def cstr_eq (beyond : Mem) : List Nat → List Nat → Bool
  | [], s => past_eq beyond 0 s
  | b :: _, [] => b == 0
  | b :: bs, c :: cs => b == c && cstr_eq beyond bs cs

/-- The entry read into the buffer from offset `off` has status `st` and its name
compares equal to `name`; `beyond` is the memory that follows the buffer. -/
def entry_matches (beyond : Mem) (img : Mem) (st : Nat) (name : List Nat) (off : Nat) : Bool :=
  rd8 img off == st && cstr_eq beyond (rdBytes img (off + 27) 37) name

/-- The tokens of `strtok(path, "/")` followed by `strtok(NULL, "/")` until NULL,
with `cur` the token being collected. -/
def strtok_aux : List Nat → List Nat → List (List Nat)
  | [], cur => if cur.isEmpty then [] else [cur]
  | c :: cs, cur =>
    if c = 47 then
      (if cur.isEmpty then strtok_aux cs [] else cur :: strtok_aux cs [])
    else strtok_aux cs (cur ++ [c])

/-- All tokens of a path split at `/`. -/
def strtok_all (path : List Nat) : List (List Nat) := strtok_aux path []

/-- The path after `if (strncmp(p, "./", 2) == 0) p += 2; else if
(strncmp(p, "/", 1) == 0) p += 1;`. -/
def skip_lead : List Nat → List Nat
  | 46 :: 47 :: rest => rest
  | 47 :: rest => rest
  | p => p

/-- The split at `strrchr(path, '/')`: the part before the last `/` and the part
after it, or `none` when the path has no `/`. -/
def split_last : List Nat → Option (List Nat × List Nat)
  | [] => none
  | c :: cs =>
    match split_last cs with
    | some (d, f) => some (c :: d, f)
    | none => if c = 47 then some ([], cs) else none

/-- The copy `strncpy(entry->filename, name, sizeof(entry->filename))`: at most 31 bytes
of the name, padded with NUL up to 31. -/
def strncpy31 (name : List Nat) : List Nat :=
  name.take 31 ++ List.replicate (31 - name.length) 0

/-! ## Searching -/

/-- The first index `j` with `i ≤ j < i + n` and `p j`: a `for` loop left by `break`
or `return` at the first hit. -/
def first_slot (p : Nat → Bool) : Nat → Nat → Option Nat
  | 0, _ => none
  | n + 1, i => if p i then some i else first_slot p n (i + 1)

/-- The directory scan shared by `find_directory` and `find_file`: up to `n`
blocks starting at `cur`, each block searched slot by slot for an entry of
status `st` named `name`, the next block taken from the table.  The result is
the file offset of the entry found; `beyond` is the memory that follows the
entry buffer. -/
def scan_chain (beyond : Mem) (img fat : Mem) (sb : super_block) (st : Nat) (name : List Nat) :
    Nat → Nat → Option Nat
  | 0, _ => none
  | n + 1, cur =>
    match first_slot
        (fun i => entry_matches beyond img st name (block_off sb cur + entry_size * i))
        (slots sb) 0 with
    | some i => some (block_off sb cur + entry_size * i)
    | none => scan_chain beyond img fat sb st name n (fat_entry fat cur)

/-- The outer loop of `find_directory` over the tokens of the path.  `entry` is
the content of the entry buffer: the last directory matched, or what `malloc`
returned when nothing was matched yet. -/
def find_dir_parts (beyond : Mem) (img fat : Mem) (sb : super_block) :
    List (List Nat) → Nat → Nat → dir_entry_t → Option dir_entry_t
  | [], _, _, entry => some entry
  | part :: rest, current_block, blocks_count, _ =>
    match scan_chain beyond img fat sb 5 part blocks_count current_block with
    | none => none
    | some off =>
      find_dir_parts beyond img fat sb rest (read_entry img off).start_block
        (read_entry img off).block_count (read_entry img off)

/-- The function `find_directory(filename, dir_path)`; `none` is the NULL result.  `uninit`
is the content of the freshly allocated entry buffer, returned as it is when
the path has no token, and `heap` the memory that follows the entry buffers. -/
def find_directory (heap : heap_after) (img : Mem) (uninit : dir_entry_t)
    (dir_path : List Nat) : Option dir_entry_t :=
  find_dir_parts heap.dir_entry img (load_fat img (get_superblock img)) (get_superblock img)
    (strtok_all dir_path) (get_superblock img).root_dir_start_block
    (get_superblock img).root_dir_block_count uninit

/-- The directory `find_file` searches and the name it looks for: the parent
resolved by `find_directory` when the path has a `/`, the root otherwise.
The result is (file_name, current_block, blocks_count). -/
def file_target (heap : heap_after) (img : Mem) (uninit : dir_entry_t)
    (file_path : List Nat) : Option (List Nat × Nat × Nat) :=
  match split_last (skip_lead file_path) with
  | some (dir_path, file_name) =>
    match find_directory heap img uninit dir_path with
    | none => none
    | some dir => some (file_name, dir.start_block, dir.block_count)
  | none =>
    some (skip_lead file_path, (get_superblock img).root_dir_start_block,
      (get_superblock img).root_dir_block_count)

/-- The function `find_file(filename, file_path)`; `none` is the NULL result. -/
def find_file (heap : heap_after) (img : Mem) (uninit : dir_entry_t)
    (file_path : List Nat) : Option dir_entry_t :=
  match file_target heap img uninit file_path with
  | none => none
  | some (file_name, current_block, blocks_count) =>
    match scan_chain heap.file_entry img (load_fat img (get_superblock img))
        (get_superblock img) 3 file_name blocks_count current_block with
    | none => none
    | some off => some (read_entry img off)

/-! ## diskinfo -/

/-- The three counters of `diskinfo`. -/
structure fat_summary where
  free_blocks : Nat
  reserved_blocks : Nat
  allocated_blocks : Nat
deriving DecidableEq

/-- The counters after the first `n` iterations of the counting loop. -/
def count_fat (fat : Mem) : Nat → fat_summary
  | 0 => { free_blocks := 0, reserved_blocks := 0, allocated_blocks := 0 }
  | n + 1 =>
    if fat_entry fat n = 0 then
      { count_fat fat n with free_blocks := u32 ((count_fat fat n).free_blocks + 1) }
    else if fat_entry fat n = 1 then
      { count_fat fat n with reserved_blocks := u32 ((count_fat fat n).reserved_blocks + 1) }
    else
      { count_fat fat n with allocated_blocks := u32 ((count_fat fat n).allocated_blocks + 1) }

/-- The condition of the `assert` in `diskinfo`, evaluated in `uint32_t`. -/
def summary_assert (s : fat_summary) (sb : super_block) : Bool :=
  u32 (u32 (s.free_blocks + s.reserved_blocks) + s.allocated_blocks)
    == sb.file_system_block_count

/-- The function `diskinfo`: the superblock and the counters it prints, or `none` when the
assertion fails. -/
def diskinfo (img : Mem) : Option (super_block × fat_summary) :=
  if summary_assert (count_fat (load_fat img (get_superblock img))
      (get_superblock img).file_system_block_count) (get_superblock img) then
    some (get_superblock img, count_fat (load_fat img (get_superblock img))
      (get_superblock img).file_system_block_count)
  else none

/-! ## disklist -/

/-- The directory `disklist` lists, as (current_block, blocks_count): the
superblock's root fields when the path is empty after the leading `./` or `/`,
the entry found by `find_directory` otherwise; `none` is the exit with
"Directory not found.". -/
def disklist_dir (heap : heap_after) (img : Mem) (uninit : dir_entry_t)
    (subdir : List Nat) : Option (Nat × Nat) :=
  if (skip_lead subdir).length > 0 then
    match find_directory heap img uninit (skip_lead subdir) with
    | none => none
    | some start_dir => some (start_dir.start_block, start_dir.block_count)
  else
    some ((get_superblock img).root_dir_start_block,
      (get_superblock img).root_dir_block_count)

/-- The entries `disklist` prints, in order.  The file is positioned once, at
the first block; every iteration then reads the next `slots` records from
the current position. -/
def disklist (heap : heap_after) (img : Mem) (uninit : dir_entry_t)
    (subdir : List Nat) : Option (List dir_entry_t) :=
  match disklist_dir heap img uninit subdir with
  | none => none
  | some (current_block, blocks_count) =>
    some (((List.range (blocks_count * slots (get_superblock img))).map
      (fun k => read_entry img
        (block_off (get_superblock img) current_block + entry_size * k))).filter
      (fun e => e.status != 0))

/-! ## diskget -/

/-- The copy loop of `diskget`: the bytes written to the destination, or `none`
when the terminator is not reached within `fuel` blocks. -/
def read_chain (img fat : Mem) (sb : super_block) : Nat → Nat → Option (List Nat)
  | 0, _ => none
  | fuel + 1, current_block =>
    if current_block = 4294967295 then some []
    else
      match read_chain img fat sb fuel (fat_entry fat current_block) with
      | none => none
      | some rest => some (rdBytes img (block_off sb current_block) sb.block_size ++ rest)

/-- How `diskget` ends. -/
inductive get_result where
  | file_not_found
  | never_ends
  | written (out : List Nat)
deriving DecidableEq

/-- The function `diskget`: the content of the destination file.  A chain that has not reached
the terminator after 2^32 blocks has visited a block twice and is walked for ever. -/
def diskget (heap : heap_after) (img : Mem) (uninit : dir_entry_t)
    (file_path : List Nat) : get_result :=
  match find_file heap img uninit file_path with
  | none => .file_not_found
  | some file =>
    match read_chain img (load_fat img (get_superblock img)) (get_superblock img)
        4294967296 file.start_block with
    | none => .never_ends
    | some out => .written out

/-! ## get_free_block and diskput -/

/-- The function `get_free_block(fat, fat_size)`: the index found and the table with that
entry set to 1; `none` is the exit with "No free blocks available.". -/
def get_free_block (fat : Mem) (fat_size : Nat) : Option (Nat × Mem) :=
  match first_slot (fun i => fat_entry fat i == 0) fat_size 0 with
  | some i => some (i, fat_set fat i 1)
  | none => none

/-- The name `diskput` stores and the directory it scans, as
(dest_file_name, start_block, block_count): the parent resolved by
`find_directory` when the path has a `/`, the root otherwise. -/
def put_target (heap : heap_after) (img : Mem) (uninit : dir_entry_t)
    (dest_file_path : List Nat) : Option (List Nat × Nat × Nat) :=
  match split_last (skip_lead dest_file_path) with
  | some (dest_dir_path, dest_file_name) =>
    match find_directory heap img uninit dest_dir_path with
    | none => none
    | some dir => some (dest_file_name, dir.start_block, dir.block_count)
  | none =>
    some (skip_lead dest_file_path, (get_superblock img).root_dir_start_block,
      (get_superblock img).root_dir_block_count)

/-- The bound `last_block = start_block + block_count - 1` of the scan, in `uint32_t`. -/
def last_block_of (start_block block_count : Nat) : Nat :=
  u32 (4294967295 + start_block + block_count)

/-- The search for a free slot in `diskput`: blocks `cur`, `cur + 1`, ... in
`uint32_t`, each searched slot by slot for status 0.  The result is the file
offset of the slot. -/
def scan_free (img : Mem) (sb : super_block) : Nat → Nat → Option Nat
  | 0, _ => none
  | n + 1, cur =>
    match first_slot (fun i => rd8 img (block_off sb cur + entry_size * i) == 0)
        (slots sb) 0 with
    | some i => some (block_off sb cur + entry_size * i)
    | none => scan_free img sb n (u32 (cur + 1))

/-- The number of blocks `while (current_block <= last_block)` visits when no
slot is found.  With `last_block = 0xFFFFFFFF` the condition never fails; after
2^32 blocks every block has been visited. -/
def scan_fuel (current_block last_block : Nat) : Nat :=
  if last_block = 4294967295 then 4294967296 else last_block + 1 - current_block

/-- The results of `fread(buffer, 1, block_size, src_file)` until it returns 0. -/
def fread_chunks (block_size : Nat) : Nat → List Nat → List (List Nat)
  | 0, _ => []
  | fuel + 1, src =>
    if block_size = 0 ∨ src = [] then []
    else src.take block_size :: fread_chunks block_size fuel (src.drop block_size)

/-- The variables of the copy loop of `diskput`, and the blocks handed out by
`get_free_block` so far, in order. -/
structure put_loop where
  img : Mem
  fat : Mem
  entry : dir_entry_t
  curr_block_index : Nat
  previous_block : Nat
  first_block : Bool
  allocated : List Nat

/-- The copy loop of `diskput` over the chunks read.  The flag is false when
`get_free_block` ended the process. -/
def put_chunks (sb : super_block) : List (List Nat) → put_loop → Bool × put_loop
  | [], s => (true, s)
  | bytes :: rest, s =>
    if s.first_block then
      put_chunks sb rest
        { s with
          entry := { s.entry with
            size := u32 (s.entry.size + bytes.length)
            block_count := u32 (s.entry.block_count + bytes.length) }
          first_block := false
          img := wrBytes s.img (block_off sb s.curr_block_index) bytes
          previous_block := s.curr_block_index }
    else
      match get_free_block s.fat sb.file_system_block_count with
      | none =>
        (false, { s with
          entry := { s.entry with
            size := u32 (s.entry.size + bytes.length)
            block_count := u32 (s.entry.block_count + bytes.length) } })
      | some (b, fat1) =>
        put_chunks sb rest
          { s with
            entry := { s.entry with
              size := u32 (s.entry.size + bytes.length)
              block_count := u32 (s.entry.block_count + bytes.length) }
            fat := fat_set fat1 s.previous_block b
            curr_block_index := b
            img := wrBytes s.img (block_off sb b) bytes
            previous_block := b
            allocated := s.allocated ++ [b] }

/-- How `diskput` ends. -/
inductive put_status where
  | done
  | src_not_found
  | dir_not_found
  | dir_full
  | no_free_blocks
  | never_ends
deriving DecidableEq

/-- The state `diskput` leaves: the image file, the table buffer, the entry
buffer, `entry_address` and the blocks handed out by `get_free_block`. -/
structure put_result where
  status : put_status
  img : Mem
  fat : Mem
  entry : dir_entry_t
  entry_address : Nat
  allocated : List Nat

/-- The time stamp stored by `diskput`: the year through `htons` into 16 bits,
the other fields into one byte each. -/
def stamp (now : dir_entry_timedate_t) : dir_entry_timedate_t :=
  { year := now.year % 65536
    month := now.month % 256
    day := now.day % 256
    hour := now.hour % 256
    minute := now.minute % 256
    second := now.second % 256 }

/-- The function `diskput(filename, src_file_path, dest_file_path)`.  `src` is the content of
the local file (`none` when it cannot be opened), `now` the local time as
(tm_year + 1900, tm_mon + 1, tm_mday, tm_hour, tm_min, tm_sec). -/
def diskput (heap : heap_after) (img : Mem) (uninit : dir_entry_t)
    (now : dir_entry_timedate_t) (src : Option (List Nat)) (dest_file_path : List Nat) :
    put_result :=
  let sb := get_superblock img
  let fat := load_fat img sb
  match src with
  | none => ⟨.src_not_found, img, fat, uninit, 0, []⟩
  | some data =>
    match put_target heap img uninit dest_file_path with
    | none => ⟨.dir_not_found, img, fat, uninit, 0, []⟩
    | some (dest_file_name, current_block, block_count) =>
      match scan_free img sb (scan_fuel current_block (last_block_of current_block block_count))
          current_block with
      | none =>
        ⟨if last_block_of current_block block_count = 4294967295 then .never_ends
          else .dir_full, img, fat, uninit, 0, []⟩
      | some pos =>
        match get_free_block fat sb.file_system_block_count with
        | none => ⟨.no_free_blocks, img, fat, uninit, 0, []⟩
        | some (b0, fat1) =>
          let entry : dir_entry_t :=
            { read_entry img pos with
              status := 3
              filename := strncpy31 dest_file_name
              start_block := b0
              block_count := 1
              size := 0
              create_time := stamp now
              modify_time := stamp now }
          match put_chunks sb (fread_chunks sb.block_size data.length data)
              ⟨wrBytes img pos (encode_entry entry), fat1, entry, b0, b0, true, [b0]⟩ with
          | (false, s) => ⟨.no_free_blocks, s.img, s.fat, s.entry, u32 pos, s.allocated⟩
          | (true, s) =>
            ⟨.done,
              wrBytes
                (blit s.img (block_off sb sb.fat_start_block)
                  (fat_set s.fat s.previous_block 4294967295) (fat_bytes sb))
                (u32 pos) (encode_entry s.entry),
              fat_set s.fat s.previous_block 4294967295, s.entry, u32 pos, s.allocated⟩

/-! ## Vocabulary of the statements -/

/-- The block reached from `cur` after following the table `j` times. -/
def chain_block (fat : Mem) : Nat → Nat → Nat
  | 0, cur => cur
  | j + 1, cur => chain_block fat j (fat_entry fat cur)

/-- The file offset of slot `i` of the `j`-th block of the directory that starts
at block `start`, its blocks taken along the table. -/
def dir_slot (fat : Mem) (sb : super_block) (start j i : Nat) : Nat :=
  block_off sb (chain_block fat j start) + entry_size * i

/-- From block `b` on, every block's entry holds the next block of the list, and
the entry of the last block holds `t`. -/
def chain_to (fat : Mem) (t : Nat) : Nat → List Nat → Prop
  | b, [] => fat_entry fat b = t
  | b, b2 :: rest => fat_entry fat b = b2 ∧ chain_to fat t b2 rest

/-- The table links the blocks of the list in order and ends the chain with `t`. -/
def linked (fat : Mem) (t : Nat) : List Nat → Prop
  | [] => True
  | b :: rest => chain_to fat t b rest

/-- Whether a list of blocks is chained in a table can be computed. -/
instance chain_to_decidable (fat : Mem) (t : Nat) :
    (b : Nat) → (l : List Nat) → Decidable (chain_to fat t b l)
  | b, [] => inferInstanceAs (Decidable (fat_entry fat b = t))
  | b, b2 :: rest =>
    @instDecidableAnd _ _ (inferInstanceAs (Decidable (fat_entry fat b = b2)))
      (chain_to_decidable fat t b2 rest)

/-- Whether a table links a list of blocks can be computed. -/
instance linked_decidable (fat : Mem) (t : Nat) : (l : List Nat) → Decidable (linked fat t l)
  | [] => inferInstanceAs (Decidable True)
  | b :: rest => chain_to_decidable fat t b rest

/-- The image after each chunk of the list was written at the start of its block. -/
def write_all (sb : super_block) : Mem → List (Nat × List Nat) → Mem
  | m, [] => m
  | m, (b, c) :: rest => write_all sb (wrBytes m (block_off sb b) c) rest

/-- The entry buffer of `diskput` for the slot at `pos`, with the given size and
block_count fields: everything but the 6 unused bytes is set by `diskput`. -/
def put_entry (img : Mem) (now : dir_entry_timedate_t) (name : List Nat)
    (pos b0 size block_count : Nat) : dir_entry_t :=
  { read_entry img pos with
    status := 3
    filename := strncpy31 name
    start_block := b0
    block_count := block_count
    size := size
    create_time := stamp now
    modify_time := stamp now }

/-- What a `diskput` that ran to its end leaves, for the source `data`, the
stored name `name`, the free slot at offset `pos`, the first block `b0` handed
out and the further blocks `nb`, in terms of the image and the table it
started from. -/
structure put_done (img : Mem) (now : dir_entry_timedate_t) (data name : List Nat)
    (pos b0 : Nat) (nb : List Nat) (r : put_result) : Prop where
  status : r.status = put_status.done
  address : r.entry_address = u32 pos
  blocks : r.allocated = b0 :: nb
  slots_pos : 0 < slots (get_superblock img)
  count : nb.length
    = (fread_chunks (get_superblock img).block_size data.length data).length - 1
  first_free : b0 < (get_superblock img).file_system_block_count ∧
    fat_entry (load_fat img (get_superblock img)) b0 = 0 ∧
    ∀ j, j < b0 → fat_entry (load_fat img (get_superblock img)) j ≠ 0
  increasing : List.Chain (fun x y => x < y) b0 nb
  rest_free : ∀ b ∈ nb, b < (get_superblock img).file_system_block_count ∧
    fat_entry (load_fat img (get_superblock img)) b = 0
  chain : chain_to r.fat 4294967295 b0 nb
  fat_frame : ∀ k, (∀ b ∈ b0 :: nb, k < 4 * b ∨ 4 * b + 4 ≤ k) →
    r.fat k = load_fat img (get_superblock img) k
  entry : r.entry = put_entry img now name pos b0 (u32 data.length) (u32 (1 + data.length))
  image : r.img = wrBytes
    (blit
      (write_all (get_superblock img)
        (wrBytes img pos (encode_entry (put_entry img now name pos b0 0 1)))
        ((b0 :: nb).zip (fread_chunks (get_superblock img).block_size data.length data)))
      (block_off (get_superblock img) (get_superblock img).fat_start_block) r.fat
      (fat_bytes (get_superblock img)))
    (u32 pos) (encode_entry r.entry)

/-- A well-formed image: a block holds the superblock, every block has an offset
below 2^32, the table has an entry for every block, the FAT region and the
root directory region lie inside the image after block 0 and apart from each
other, the table marks block 0 and the blocks of both regions as not free, and
it links the blocks of the root directory in their order. -/
structure well_formed (img : Mem) : Prop where
  super_fits : 30 ≤ (get_superblock img).block_size
  addressable : (get_superblock img).file_system_block_count * (get_superblock img).block_size
    ≤ 4294967296
  table_holds : 4 * (get_superblock img).file_system_block_count
    ≤ (get_superblock img).fat_block_count * (get_superblock img).block_size
  fat_start : 1 ≤ (get_superblock img).fat_start_block
  fat_inside : (get_superblock img).fat_start_block + (get_superblock img).fat_block_count
    ≤ (get_superblock img).file_system_block_count
  root_start : 1 ≤ (get_superblock img).root_dir_start_block
  root_inside : (get_superblock img).root_dir_start_block
    + (get_superblock img).root_dir_block_count ≤ (get_superblock img).file_system_block_count
  apart : (get_superblock img).fat_start_block + (get_superblock img).fat_block_count
      ≤ (get_superblock img).root_dir_start_block ∨
    (get_superblock img).root_dir_start_block + (get_superblock img).root_dir_block_count
      ≤ (get_superblock img).fat_start_block
  super_used : fat_entry (load_fat img (get_superblock img)) 0 ≠ 0
  fat_used : ∀ j, j < (get_superblock img).fat_block_count →
    fat_entry (load_fat img (get_superblock img)) ((get_superblock img).fat_start_block + j) ≠ 0
  root_used : ∀ j, j < (get_superblock img).root_dir_block_count →
    fat_entry (load_fat img (get_superblock img))
      ((get_superblock img).root_dir_start_block + j) ≠ 0
  root_chain : ∀ j, j + 1 < (get_superblock img).root_dir_block_count →
    fat_entry (load_fat img (get_superblock img)) ((get_superblock img).root_dir_start_block + j)
      = (get_superblock img).root_dir_start_block + j + 1

/-- The number of free entries among the first `n` of the table. -/
def free_count (fat : Mem) (n : Nat) : Nat :=
  (List.range n).countP (fun i => fat_entry fat i == 0)

/-- The image that holds the given byte runs, each at its offset, and 0 elsewhere. -/
def image_of : List (Nat × List Nat) → Mem
  | [] => fun _ => 0
  | (k, bs) :: rest => wrBytes (image_of rest) k bs

/-- A small table: entries 0 and 1 reserved, entry 2 a terminator, the rest free. -/
def table_a : Mem := image_of [(0, [0, 0, 0, 1, 0, 0, 0, 1, 255, 255, 255, 255])]

/-- An image of 8 blocks of 512 bytes: superblock in block 0, the table in block 1,
the root directory in block 2 with one file `old.txt`, blocks 3 to 7 free. -/
def image_a : Mem := image_of
  [ (0, [67, 83, 67, 51, 54, 48, 70, 83, 2, 0, 0, 0, 0, 8, 0, 0, 0, 1, 0, 0, 0, 1,
         0, 0, 0, 2, 0, 0, 0, 1]),
    (512, [0, 0, 0, 1, 0, 0, 0, 1, 255, 255, 255, 255]),
    (1024, [3, 0, 0, 0, 9, 0, 0, 0, 1, 0, 0, 0, 5, 7, 232, 1, 2, 3, 4, 5,
            7, 232, 1, 2, 3, 4, 5, 111, 108, 100, 46, 116, 120, 116, 0]) ]

/-- An image of 3 blocks of 512 bytes with no free block: superblock, table and
an empty root directory. -/
def image_b : Mem := image_of
  [ (0, [67, 83, 67, 51, 54, 48, 70, 83, 2, 0, 0, 0, 0, 3, 0, 0, 0, 1, 0, 0, 0, 1,
         0, 0, 0, 2, 0, 0, 0, 1]),
    (512, [0, 0, 0, 1, 0, 0, 0, 1, 255, 255, 255, 255]) ]

/-- An image of 8 blocks of 128 bytes whose root directory, the one block 2, has
both slots in use (files `a` and `b`); blocks 3 to 7 are free. -/
def image_d : Mem := image_of
  [ (0, [67, 83, 67, 51, 54, 48, 70, 83, 0, 128, 0, 0, 0, 8, 0, 0, 0, 1, 0, 0, 0, 1,
         0, 0, 0, 2, 0, 0, 0, 1]),
    (128, [0, 0, 0, 1, 0, 0, 0, 1, 255, 255, 255, 255]),
    (256, [3, 0, 0, 0, 6, 0, 0, 0, 1, 0, 0, 0, 9, 7, 232, 1, 2, 3, 4, 5,
           7, 232, 1, 2, 3, 4, 5, 97, 0]),
    (320, [3, 0, 0, 0, 7, 0, 0, 0, 1, 0, 0, 0, 9, 7, 232, 1, 2, 3, 4, 5,
           7, 232, 1, 2, 3, 4, 5, 98, 0]) ]

/-- A source file of 600 bytes. -/
def data_600 : List Nat := List.replicate 600 7

/-- A source file of 1300 bytes. -/
def data_1300 : List Nat := List.replicate 1300 7

/-- The file name `new.txt`. -/
def name_new : List Nat := [110, 101, 119, 46, 116, 120, 116]

/-- The file name `hello.txt`. -/
def name_hello : List Nat := [104, 101, 108, 108, 111, 46, 116, 120, 116]

/-- An entry buffer of zeros. -/
def entry_zero : dir_entry_t :=
  ⟨0, 0, 0, 0, ⟨0, 0, 0, 0, 0, 0⟩, ⟨0, 0, 0, 0, 0, 0⟩, [], []⟩

/-! ## Byte order

The conversions of `arpa/inet.h` and the layout of an integer in the memory of
the host, for both kinds of host.  `be32`, `be16`, `enc32` and `enc16` above
are what these give together, whatever the host. -/

/-- The 32-bit value with its four bytes in the reverse order. -/
def bswap32 (x : Nat) : Nat :=
  x % 256 * 16777216 + x / 256 % 256 * 65536 + x / 65536 % 256 * 256 + x / 16777216 % 256

/-- The 16-bit value with its two bytes exchanged. -/
def bswap16 (x : Nat) : Nat := x % 256 * 256 + x / 256 % 256

/-- The conversion `htonl` on a `uint32_t`: the bytes reversed on a little-endian
host, the value itself on a big-endian one. -/
def htonl (little : Bool) (x : Nat) : Nat :=
  if little then bswap32 (x % 4294967296) else x % 4294967296

/-- The conversion `ntohl`, which is the same function as `htonl`. -/
def ntohl (little : Bool) (x : Nat) : Nat := htonl little x

/-- The conversion `htons` on a `uint16_t`. -/
def htons (little : Bool) (x : Nat) : Nat :=
  if little then bswap16 (x % 65536) else x % 65536

/-- The value of the `uint32_t` object the host holds at offset `k`. -/
def host32 (little : Bool) (m : Mem) (k : Nat) : Nat :=
  if little then ((rd8 m (k + 3) * 256 + rd8 m (k + 2)) * 256 + rd8 m (k + 1)) * 256 + rd8 m k
  else be32 m k

/-- The value of the `uint16_t` object the host holds at offset `k`. -/
def host16 (little : Bool) (m : Mem) (k : Nat) : Nat :=
  if little then rd8 m (k + 1) * 256 + rd8 m k else be16 m k

/-- The four bytes of a `uint32_t` object of value `v` in the memory of the host. -/
def host32_bytes (little : Bool) (v : Nat) : List Nat :=
  if little then [v % 256, v / 256 % 256, v / 65536 % 256, v / 16777216 % 256]
  else [v / 16777216 % 256, v / 65536 % 256, v / 256 % 256, v % 256]

/-- The two bytes of a `uint16_t` object of value `v` in the memory of the host. -/
def host16_bytes (little : Bool) (v : Nat) : List Nat :=
  if little then [v % 256, v / 256 % 256] else [v / 256 % 256, v % 256]

/-- The size `sizeof(super_block)` of the packed record `get_superblock` reads at
offset 0: `uint8_t fs_id[8]`, `uint16_t block_size` and five `uint32_t` fields. -/
def super_block_size : Nat := 8 + 2 + 4 + 4 + 4 + 4 + 4

/-! ## More vocabulary -/

/-- The walk of `diskget` from `cur`: the blocks of the list are visited in
order, none of them is the terminator, each one's entry holds the next, and the
entry of the last one holds the terminator 0xFFFFFFFF. -/
def walks (fat : Mem) : Nat → List Nat → Prop
  | cur, [] => cur = 4294967295
  | cur, b :: rest => cur = b ∧ b ≠ 4294967295 ∧ walks fat (fat_entry fat b) rest

/-- Whether a walk visits a given list of blocks can be computed. -/
instance walks_decidable (fat : Mem) : (cur : Nat) → (l : List Nat) → Decidable (walks fat cur l)
  | cur, [] => inferInstanceAs (Decidable (cur = 4294967295))
  | cur, b :: rest =>
    @instDecidableAnd _ _ (inferInstanceAs (Decidable (cur = b)))
      (@instDecidableAnd _ _ (inferInstanceAs (Decidable (b ≠ 4294967295)))
        (walks_decidable fat (fat_entry fat b) rest))

/-- A directory of `count` consecutive blocks from block `start` that lies
inside the image after block 0 and apart from the FAT region, and whose blocks
the table marks as not free. -/
@[reducible]
def dir_region (img : Mem) (start count : Nat) : Prop :=
  1 ≤ start ∧
  start + count ≤ (get_superblock img).file_system_block_count ∧
  ((get_superblock img).fat_start_block + (get_superblock img).fat_block_count ≤ start ∨
    start + count ≤ (get_superblock img).fat_start_block) ∧
  ∀ j, j < count → fat_entry (load_fat img (get_superblock img)) (start + j) ≠ 0

/-! ## More concrete images -/

/-- An image of 10 blocks of 128 bytes.  The root directory (block 2) holds the
directory `d` and the file `g`.  The directory `d` has the two blocks 4 and 6,
linked in the table: block 4 holds the files `x` and `y`, block 6 is empty.
Block 5, between them, is the data block of `g`, and its first byte is 0.
Blocks 3 and 9 are free. -/
def image_e : Mem := image_of
  [ (0, [67, 83, 67, 51, 54, 48, 70, 83, 0, 128, 0, 0, 0, 10, 0, 0, 0, 1, 0, 0, 0, 1,
         0, 0, 0, 2, 0, 0, 0, 1]),
    (128, [0, 0, 0, 1, 0, 0, 0, 1, 255, 255, 255, 255, 0, 0, 0, 0, 0, 0, 0, 6,
           255, 255, 255, 255, 255, 255, 255, 255, 255, 255, 255, 255,
           255, 255, 255, 255, 0, 0, 0, 0]),
    (256, [5, 0, 0, 0, 4, 0, 0, 0, 2, 0, 0, 0, 0, 7, 232, 1, 2, 3, 4, 5,
           7, 232, 1, 2, 3, 4, 5, 100, 0]),
    (320, [3, 0, 0, 0, 5, 0, 0, 0, 1, 0, 0, 0, 4, 7, 232, 1, 2, 3, 4, 5,
           7, 232, 1, 2, 3, 4, 5, 103, 0]),
    (512, [3, 0, 0, 0, 7, 0, 0, 0, 1, 0, 0, 0, 1, 7, 232, 1, 2, 3, 4, 5,
           7, 232, 1, 2, 3, 4, 5, 120, 0]),
    (576, [3, 0, 0, 0, 8, 0, 0, 0, 1, 0, 0, 0, 1, 7, 232, 1, 2, 3, 4, 5,
           7, 232, 1, 2, 3, 4, 5, 121, 0]),
    (640, [0, 9, 9, 9]),
    (896, [1]),
    (1024, [2]) ]

/-- The image `image_e` with both slots of block 6 in use (files `z` and `w`), so
that every slot of the two blocks 4 and 6 of the directory `d` is in use. -/
def image_f : Mem :=
  wrBytes
    (wrBytes image_e 768
      [3, 0, 0, 0, 7, 0, 0, 0, 1, 0, 0, 0, 1, 7, 232, 1, 2, 3, 4, 5,
       7, 232, 1, 2, 3, 4, 5, 122, 0])
    832
    [3, 0, 0, 0, 8, 0, 0, 0, 1, 0, 0, 0, 1, 7, 232, 1, 2, 3, 4, 5,
     7, 232, 1, 2, 3, 4, 5, 119, 0]

/-- A heap in which the memory after each entry buffer reads as 0. -/
def heap_zero : heap_after := ⟨fun _ => 0, fun _ => 0⟩

/-- The path `d/n`. -/
def path_d_n : List Nat := [100, 47, 110]

/-- A file name of 31 bytes, `a` repeated. -/
def name_31 : List Nat := List.replicate 31 97

/-- The image `image_a` with the last byte of its superblock record, at offset
29, changed from 1 to 2. -/
def image_a2 : Mem := wrBytes image_a 29 [2]

/-- The image `image_a` with the 6 unused bytes of slot 1 of its root directory,
which is free, set to 0xFF. -/
def image_a3 : Mem := wrBytes image_a 1146 [255, 255, 255, 255, 255, 255]

/-- The local time 2024-01-02 03:04:05. -/
def time_a : dir_entry_timedate_t := ⟨2024, 1, 2, 3, 4, 5⟩

/-! # Lemmas -/

/-! ## Bytes -/

theorem rd8_lt (m : Mem) (k : Nat) : rd8 m k < 256 := Nat.mod_lt _ (by norm_num)

theorem be16_lt (m : Mem) (k : Nat) : be16 m k < 65536 := by
  have h0 := rd8_lt m k
  have h1 := rd8_lt m (k + 1)
  unfold be16; omega

theorem be32_lt (m : Mem) (k : Nat) : be32 m k < 4294967296 := by
  have h0 := rd8_lt m k
  have h1 := rd8_lt m (k + 1)
  have h2 := rd8_lt m (k + 2)
  have h3 := rd8_lt m (k + 3)
  unfold be32; omega

theorem blit_inside (m src : Mem) (k len j : Nat) (h1 : k ≤ j) (h2 : j < k + len) :
    blit m k src len j = src (j - k) := by
  unfold blit; rw [if_pos ⟨h1, h2⟩]

theorem blit_outside (m src : Mem) (k len j : Nat) (h : j < k ∨ k + len ≤ j) :
    blit m k src len j = m j := by
  unfold blit; rw [if_neg]; omega

theorem wrBytes_outside (m : Mem) (k : Nat) (bs : List Nat) (j : Nat)
    (h : j < k ∨ k + bs.length ≤ j) : wrBytes m k bs j = m j :=
  blit_outside _ _ _ _ _ h

theorem wrBytes_inside (m : Mem) (k : Nat) (bs : List Nat) (i : Nat) (h : i < bs.length) :
    wrBytes m k bs (k + i) = bs.getD i 0 := by
  unfold wrBytes
  rw [blit_inside _ _ _ _ _ (by omega) (by omega)]
  simp

theorem rd8_wrBytes_outside (m : Mem) (k : Nat) (bs : List Nat) (j : Nat)
    (h : j < k ∨ k + bs.length ≤ j) : rd8 (wrBytes m k bs) j = rd8 m j := by
  unfold rd8; rw [wrBytes_outside _ _ _ _ h]

theorem be32_congr (m m' : Mem) (k : Nat) (h : ∀ j, k ≤ j → j < k + 4 → m' j = m j) :
    be32 m' k = be32 m k := by
  unfold be32 rd8
  rw [h k (by omega) (by omega), h (k + 1) (by omega) (by omega),
    h (k + 2) (by omega) (by omega), h (k + 3) (by omega) (by omega)]

theorem be32_wrBytes_outside (m : Mem) (k : Nat) (bs : List Nat) (j : Nat)
    (h : j + 4 ≤ k ∨ k + bs.length ≤ j) : be32 (wrBytes m k bs) j = be32 m j :=
  be32_congr _ _ _ (fun i h1 h2 => wrBytes_outside _ _ _ _ (by omega))

theorem be32_wrBytes_enc32 (m : Mem) (k v : Nat) (hv : v < 4294967296) :
    be32 (wrBytes m k (enc32 v)) k = v := by
  have e0 : wrBytes m k (enc32 v) k = v / 16777216 % 256 := by
    have := wrBytes_inside m k (enc32 v) 0 (by simp [enc32])
    simpa [enc32] using this
  have e1 : wrBytes m k (enc32 v) (k + 1) = v / 65536 % 256 := by
    have := wrBytes_inside m k (enc32 v) 1 (by simp [enc32])
    simpa [enc32] using this
  have e2 : wrBytes m k (enc32 v) (k + 2) = v / 256 % 256 := by
    have := wrBytes_inside m k (enc32 v) 2 (by simp [enc32])
    simpa [enc32] using this
  have e3 : wrBytes m k (enc32 v) (k + 3) = v % 256 := by
    have := wrBytes_inside m k (enc32 v) 3 (by simp [enc32])
    simpa [enc32] using this
  unfold be32 rd8
  rw [e0, e1, e2, e3]
  omega

/-! ## The table -/

theorem fat_entry_lt (fat : Mem) (i : Nat) : fat_entry fat i < 4294967296 := be32_lt _ _

theorem fat_set_outside (fat : Mem) (i v k : Nat) (h : k < 4 * i ∨ 4 * i + 4 ≤ k) :
    fat_set fat i v k = fat k := by
  unfold fat_set
  exact wrBytes_outside _ _ _ _ (by simpa [enc32] using h)

theorem fat_entry_set_same (fat : Mem) (i v : Nat) (hv : v < 4294967296) :
    fat_entry (fat_set fat i v) i = v := be32_wrBytes_enc32 _ _ _ hv

theorem fat_entry_set_other (fat : Mem) (i j v : Nat) (h : j ≠ i) :
    fat_entry (fat_set fat i v) j = fat_entry fat j := by
  unfold fat_entry fat_set
  exact be32_wrBytes_outside _ _ _ _ (by simp [enc32]; omega)

/-! ## first_slot -/

theorem first_slot_some (p : Nat → Bool) (n i j : Nat) (h : first_slot p n i = some j) :
    i ≤ j ∧ j < i + n ∧ p j = true ∧ ∀ k, i ≤ k → k < j → p k = false := by
  induction n generalizing i with
  | zero => simp [first_slot] at h
  | succ n ih =>
    unfold first_slot at h
    by_cases hp : p i = true
    · rw [if_pos hp] at h
      cases h
      exact ⟨le_refl _, by omega, hp, fun k h1 h2 => by omega⟩
    · rw [if_neg hp] at h
      obtain ⟨h1, h2, h3, h4⟩ := ih (i + 1) h
      refine ⟨by omega, by omega, h3, fun k hk1 hk2 => ?_⟩
      by_cases hki : k = i
      · subst hki; simpa using hp
      · exact h4 k (by omega) hk2

theorem first_slot_none (p : Nat → Bool) (n i : Nat) :
    first_slot p n i = none ↔ ∀ k, i ≤ k → k < i + n → p k = false := by
  induction n generalizing i with
  | zero =>
    simp only [first_slot, true_iff]
    intro k h1 h2; omega
  | succ n ih =>
    unfold first_slot
    by_cases hp : p i = true
    · rw [if_pos hp]
      constructor
      · intro h; cases h
      · intro h
        have := h i (le_refl _) (by omega)
        rw [hp] at this; cases this
    · rw [if_neg hp, ih]
      constructor
      · intro h k h1 h2
        by_cases hki : k = i
        · subst hki; simpa using hp
        · exact h k (by omega) (by omega)
      · intro h k h1 h2
        exact h k (by omega) (by omega)

theorem first_slot_found (p : Nat → Bool) (n i j : Nat) (h1 : i ≤ j) (h2 : j < i + n)
    (hj : p j = true) (hlt : ∀ k, i ≤ k → k < j → p k = false) :
    first_slot p n i = some j := by
  cases hfs : first_slot p n i with
  | none =>
    have := (first_slot_none p n i).1 hfs j h1 h2
    rw [hj] at this; cases this
  | some j' =>
    obtain ⟨a1, a2, a3, a4⟩ := first_slot_some p n i j' hfs
    have : j' = j := by
      rcases Nat.lt_trichotomy j' j with hlt' | heq | hgt
      · have := hlt j' a1 hlt'
        rw [a3] at this; cases this
      · exact heq
      · have := a4 j h1 hgt
        rw [hj] at this; cases this
    rw [this]

theorem first_slot_congr (p q : Nat → Bool) (n i : Nat)
    (h : ∀ k, i ≤ k → k < i + n → p k = q k) : first_slot p n i = first_slot q n i := by
  induction n generalizing i with
  | zero => rfl
  | succ n ih =>
    unfold first_slot
    rw [h i (le_refl _) (by omega), ih (i + 1) (fun k h1 h2 => h k (by omega) (by omega))]

/-! ## get_free_block -/

theorem get_free_block_some (fat fat1 : Mem) (n i : Nat)
    (h : get_free_block fat n = some (i, fat1)) :
    i < n ∧ fat_entry fat i = 0 ∧ (∀ j, j < i → fat_entry fat j ≠ 0) ∧ fat1 = fat_set fat i 1 := by
  unfold get_free_block at h
  cases hfs : first_slot (fun i => fat_entry fat i == 0) n 0 with
  | none => rw [hfs] at h; cases h
  | some j =>
    rw [hfs] at h
    simp only [Option.some.injEq, Prod.mk.injEq] at h
    obtain ⟨rfl, rfl⟩ := h
    obtain ⟨_, a2, a3, a4⟩ := first_slot_some _ _ _ _ hfs
    refine ⟨by omega, by simpa using a3, fun k hk => ?_, rfl⟩
    have := a4 k (Nat.zero_le _) hk
    simpa using this

theorem get_free_block_none (fat : Mem) (n : Nat) :
    get_free_block fat n = none ↔ ∀ i, i < n → fat_entry fat i ≠ 0 := by
  unfold get_free_block
  cases hfs : first_slot (fun i => fat_entry fat i == 0) n 0 with
  | none =>
    simp only [true_iff]
    intro i hi
    have := (first_slot_none _ _ _).1 hfs i (Nat.zero_le _) (by omega)
    simpa using this
  | some j =>
    obtain ⟨_, a2, a3, _⟩ := first_slot_some _ _ _ _ hfs
    constructor
    · intro h; cases h
    · intro hall
      exact absurd (by simpa using a3) (hall j (by omega))

theorem get_free_block_of_free (fat : Mem) (n j : Nat) (hj : j < n) (h0 : fat_entry fat j = 0) :
    ∃ i, get_free_block fat n = some (i, fat_set fat i 1) ∧ i ≤ j := by
  cases hg : get_free_block fat n with
  | none => exact absurd h0 ((get_free_block_none fat n).1 hg j hj)
  | some r =>
    obtain ⟨i, fat1⟩ := r
    obtain ⟨a1, a2, a3, a4⟩ := get_free_block_some _ _ _ _ hg
    refine ⟨i, by rw [a4], ?_⟩
    by_contra hlt
    exact a3 j (by omega) h0

/-! ## Tokens -/

theorem cstr_eq_short (b1 b2 : Mem) (buf name : List Nat) (h : name.length < buf.length) :
    cstr_eq b1 buf name = cstr_eq b2 buf name := by
  induction buf generalizing name with
  | nil => simp at h
  | cons b bs ih =>
    cases name with
    | nil => rfl
    | cons c cs =>
      simp only [cstr_eq]
      rw [ih cs (by simpa using h)]

theorem entry_matches_short (b1 b2 : Mem) (img : Mem) (st : Nat) (name : List Nat) (off : Nat)
    (h : name.length < 37) :
    entry_matches b1 img st name off = entry_matches b2 img st name off := by
  unfold entry_matches
  rw [cstr_eq_short b1 b2 _ name (by simpa [rdBytes] using h)]

theorem u32_of_lt (x : Nat) (h : x < 4294967296) : u32 x = x := Nat.mod_eq_of_lt h

theorem last_block_of_eq (start count : Nat) (h0 : 0 < start + count)
    (h1 : start + count ≤ 4294967296) : last_block_of start count = start + count - 1 := by
  unfold last_block_of u32
  omega

theorem scan_free_none (img : Mem) (sb : super_block) (n cur : Nat)
    (hrange : cur + n ≤ 4294967296)
    (hfull : ∀ j, j < n → ∀ i, i < slots sb →
      rd8 img (block_off sb (cur + j) + entry_size * i) ≠ 0) :
    scan_free img sb n cur = none := by
  induction n generalizing cur with
  | zero => rfl
  | succ n ih =>
    unfold scan_free
    have hfs : first_slot (fun i => rd8 img (block_off sb cur + entry_size * i) == 0)
        (slots sb) 0 = none := by
      rw [first_slot_none]
      intro k _ hk
      have := hfull 0 (by omega) k (by omega)
      simpa using this
    rw [hfs]
    simp only
    cases n with
    | zero => rfl
    | succ m =>
      rw [u32_of_lt _ (by omega)]
      apply ih
      · omega
      · intro j hj i hi
        have := hfull (j + 1) (by omega) i hi
        rw [show cur + (j + 1) = cur + 1 + j by omega] at this
        exact this

theorem scan_free_first (img : Mem) (sb : super_block) (n cur j0 i0 : Nat)
    (hrange : cur + n ≤ 4294967296) (hj0 : j0 < n) (hi0 : i0 < slots sb)
    (hfree : rd8 img (block_off sb (cur + j0) + entry_size * i0) = 0)
    (hbefore : ∀ j, j < n → ∀ i, i < slots sb → (j < j0 ∨ (j = j0 ∧ i < i0)) →
      rd8 img (block_off sb (cur + j) + entry_size * i) ≠ 0) :
    scan_free img sb n cur = some (block_off sb (cur + j0) + entry_size * i0) := by
  induction n generalizing cur j0 with
  | zero => omega
  | succ n ih =>
    unfold scan_free
    cases j0 with
    | zero =>
      have hfs : first_slot (fun i => rd8 img (block_off sb cur + entry_size * i) == 0)
          (slots sb) 0 = some i0 := by
        apply first_slot_found _ _ _ _ (Nat.zero_le _) (by omega)
        · simpa using hfree
        · intro k _ hk
          have := hbefore 0 (by omega) k (by omega) (Or.inr ⟨rfl, hk⟩)
          simpa using this
      rw [hfs]
      rfl
    | succ j1 =>
      have hfs : first_slot (fun i => rd8 img (block_off sb cur + entry_size * i) == 0)
          (slots sb) 0 = none := by
        rw [first_slot_none]
        intro k _ hk
        have := hbefore 0 (by omega) k (by omega) (Or.inl (by omega))
        simpa using this
      rw [hfs]
      simp only
      rw [u32_of_lt _ (by omega)]
      have := ih (cur + 1) j1 (by omega) (by omega)
        (by rw [show cur + 1 + j1 = cur + (j1 + 1) by omega]; exact hfree)
        (by
          intro j hj i hi hlt
          have := hbefore (j + 1) (by omega) i hi (by omega)
          rw [show cur + (j + 1) = cur + 1 + j by omega] at this
          exact this)
      rw [this, show cur + 1 + j1 = cur + (j1 + 1) by omega]

/-! ## The copy loop -/

theorem fat_entry_congr (fat fat' : Mem) (j : Nat)
    (h : ∀ k, 4 * j ≤ k → k < 4 * j + 4 → fat' k = fat k) :
    fat_entry fat' j = fat_entry fat j :=
  be32_congr _ _ _ h

theorem chain_lt_of_mem (a : Nat) (l : List Nat) (h : List.Chain (· < ·) a l) :
    ∀ x ∈ l, a < x := by
  induction l generalizing a with
  | nil => intro x hx; cases hx
  | cons b l ih =>
    rw [List.chain_cons] at h
    intro x hx
    rcases List.mem_cons.1 hx with rfl | hx
    · exact h.1
    · exact lt_trans h.1 (ih b h.2 x hx)

theorem u32_lt (x : Nat) : u32 x < 4294967296 := Nat.mod_lt _ (by norm_num)

theorem alloc_entries (fat : Mem) (b p : Nat) (hp : p < b) (hb32 : b < 4294967296) :
    fat_entry (fat_set (fat_set fat b 1) p b) p = b ∧
    fat_entry (fat_set (fat_set fat b 1) p b) b = 1 ∧
    ∀ j, j ≠ b → j ≠ p → fat_entry (fat_set (fat_set fat b 1) p b) j = fat_entry fat j := by
  refine ⟨fat_entry_set_same _ _ _ hb32, ?_, ?_⟩
  · rw [fat_entry_set_other _ _ _ _ (by omega)]
    exact fat_entry_set_same _ _ _ (by norm_num)
  · intro j h1 h2
    rw [fat_entry_set_other _ _ _ _ h2, fat_entry_set_other _ _ _ _ h1]

theorem alloc_nonzero (fat : Mem) (b p : Nat) (hp : p < b) (hb32 : b < 4294967296)
    (hbmin : ∀ j, j < b → fat_entry fat j ≠ 0) :
    ∀ j, j ≤ b → fat_entry (fat_set (fat_set fat b 1) p b) j ≠ 0 := by
  obtain ⟨e_prev, e_b, e_other⟩ := alloc_entries fat b p hp hb32
  intro j hj
  by_cases hjb : j = b
  · rw [hjb, e_b]; norm_num
  · by_cases hjp : j = p
    · rw [hjp, e_prev]; omega
    · rw [e_other j hjb hjp]
      exact hbmin j (by omega)

theorem put_chunks_spec (sb : super_block) (hN : sb.file_system_block_count ≤ 4294967296)
    (cs : List (List Nat)) (s s' : put_loop)
    (hrun : put_chunks sb cs s = (true, s'))
    (hfirst : s.first_block = false)
    (hnz : ∀ j, j ≤ s.previous_block → fat_entry s.fat j ≠ 0)
    (hone : fat_entry s.fat s.previous_block = 1)
    (hsz : s.entry.size < 4294967296) (hbc : s.entry.block_count < 4294967296) :
    ∃ nb : List Nat,
      nb.length = cs.length ∧
      s'.allocated = s.allocated ++ nb ∧
      s'.img = write_all sb s.img (nb.zip cs) ∧
      List.Chain (· < ·) s.previous_block nb ∧
      (∀ b ∈ nb, b < sb.file_system_block_count ∧ fat_entry s.fat b = 0) ∧
      s'.previous_block = nb.getLastD s.previous_block ∧
      chain_to s'.fat 1 s.previous_block nb ∧
      (∀ j, j ≤ s'.previous_block → fat_entry s'.fat j ≠ 0) ∧
      (∀ k, (k < 4 * s.previous_block ∨ 4 * s.previous_block + 4 ≤ k) →
        (∀ b ∈ nb, k < 4 * b ∨ 4 * b + 4 ≤ k) → s'.fat k = s.fat k) ∧
      s'.entry = { s.entry with
        size := u32 (s.entry.size + (cs.map List.length).sum)
        block_count := u32 (s.entry.block_count + (cs.map List.length).sum) } := by
  induction cs generalizing s with
  | nil =>
    simp only [put_chunks, Prod.mk.injEq, true_and] at hrun
    subst hrun
    refine ⟨[], rfl, by simp, rfl, List.Chain.nil, by simp, rfl, hone, hnz, fun _ _ _ => rfl, ?_⟩
    simp only [List.map_nil, List.sum_nil, Nat.add_zero, u32_of_lt _ hsz, u32_of_lt _ hbc]
  | cons c cs ih =>
    unfold put_chunks at hrun
    rw [hfirst] at hrun
    simp only [Bool.false_eq_true, if_false] at hrun
    cases hg : get_free_block s.fat sb.file_system_block_count with
    | none =>
      rw [hg] at hrun
      simp at hrun
    | some r =>
      obtain ⟨b, fat1⟩ := r
      rw [hg] at hrun
      simp only at hrun
      obtain ⟨hbN, hb0, hbmin, hfat1⟩ := get_free_block_some _ _ _ _ hg
      subst hfat1
      have hpb : s.previous_block < b := by
        by_contra hle
        exact hnz b (by omega) hb0
      have hb32 : b < 4294967296 := by omega
      obtain ⟨e_prev, e_b, e_other⟩ := alloc_entries s.fat b s.previous_block hpb hb32
      obtain ⟨nb, h1, h2, h3, h4, h5, h6, h7, h8, h9, h10⟩ := ih _ hrun rfl
        (alloc_nonzero s.fat b s.previous_block hpb hb32 hbmin)
        e_b (u32_lt _) (u32_lt _)
      simp only at h2 h3 h4 h5 h6 h7 h9 h10
      have hgt := chain_lt_of_mem b nb h4
      refine ⟨b :: nb, by simp [h1], by rw [h2]; simp, ?_, List.Chain.cons hpb h4, ?_, ?_, ?_,
        h8, ?_, ?_⟩
      · rw [h3]; rfl
      · intro x hx
        rcases List.mem_cons.1 hx with rfl | hx
        · exact ⟨hbN, hb0⟩
        · obtain ⟨a1, a2⟩ := h5 x hx
          have := hgt x hx
          rw [e_other x (by omega) (by omega)] at a2
          exact ⟨a1, a2⟩
      · rw [h6]; cases nb <;> rfl
      · refine ⟨?_, h7⟩
        rw [fat_entry_congr _ _ _ (fun k hk1 hk2 => h9 k (by omega)
          (fun x hx => by have := hgt x hx; omega))]
        exact e_prev
      · intro k hk1 hk2
        rw [h9 k (hk2 b (List.mem_cons_self _ _))
          (fun x hx => hk2 x (List.mem_cons_of_mem _ hx))]
        rw [fat_set_outside _ _ _ _ hk1, fat_set_outside _ _ _ _ (hk2 b (List.mem_cons_self _ _))]
      · rw [h10]
        simp only [List.map_cons, List.sum_cons, u32, Nat.add_mod_mod, Nat.mod_add_mod,
          Nat.add_assoc]

theorem put_chunks_ok (sb : super_block) (hN : sb.file_system_block_count ≤ 4294967296) (cs : List
    (List Nat)) (s : put_loop)
    (hfirst : s.first_block = false)
    (hnz : ∀ j, j ≤ s.previous_block → fat_entry s.fat j ≠ 0)
    (fl : List Nat) (hnd : fl.Nodup) (hlen : cs.length ≤ fl.length)
    (hfl : ∀ b ∈ fl, b < sb.file_system_block_count ∧ fat_entry s.fat b = 0) :
    ∃ s', put_chunks sb cs s = (true, s') := by
  induction cs generalizing s fl with
  | nil => exact ⟨s, rfl⟩
  | cons c cs ih =>
    unfold put_chunks
    rw [hfirst]
    simp only [Bool.false_eq_true, if_false]
    cases fl with
    | nil => simp at hlen
    | cons f fl' =>
      obtain ⟨hf1, hf2⟩ := hfl f (List.mem_cons_self _ _)
      obtain ⟨b, hg, _⟩ := get_free_block_of_free s.fat _ f hf1 hf2
      obtain ⟨hbN, hb0, hbmin, _⟩ := get_free_block_some _ _ _ _ hg
      rw [hg]
      simp only
      have hpb : s.previous_block < b := by
        by_contra hle
        exact hnz b (by omega) hb0
      refine ih _ rfl (alloc_nonzero s.fat b s.previous_block hpb (by omega) hbmin)
        ((f :: fl').erase b) (hnd.erase b) ?_ ?_
      · have := List.length_erase_of_mem (a := b) (l := f :: fl')
        by_cases hmem : b ∈ f :: fl'
        · rw [List.length_erase_of_mem hmem]
          simp only [List.length_cons] at hlen ⊢
          omega
        · rw [List.erase_of_not_mem hmem]
          simp only [List.length_cons] at hlen ⊢
          omega
      · intro x hx
        rw [hnd.mem_erase_iff] at hx
        obtain ⟨a1, a2⟩ := hfl x hx.2
        refine ⟨a1, ?_⟩
        have hxp : x ≠ s.previous_block := by
          intro he
          exact hnz x (by omega) a2
        exact ((alloc_entries s.fat b s.previous_block hpb (by omega)).2.2 x hx.1 hxp).trans a2

/-! ## The chunks read from the source -/

theorem fread_chunks_nil (B fuel : Nat) : fread_chunks B fuel [] = [] := by
  cases fuel with
  | zero => rfl
  | succ n => simp [fread_chunks]

theorem fread_chunks_length (B : Nat) (hB : 0 < B) (fuel : Nat) (src : List Nat)
    (hfuel : src.length ≤ fuel) :
    (fread_chunks B fuel src).length = (src.length + B - 1) / B := by
  induction fuel generalizing src with
  | zero =>
    have : src = [] := List.eq_nil_of_length_eq_zero (by omega)
    subst this
    simp only [fread_chunks, List.length_nil]
    exact (Nat.div_eq_of_lt (by omega)).symm
  | succ n ih =>
    unfold fread_chunks
    by_cases hs : src = []
    · subst hs
      simp only [or_true, if_true, List.length_nil]
      exact (Nat.div_eq_of_lt (by omega)).symm
    · have hB0 : B ≠ 0 := by omega
      rw [if_neg (by simp [hB0, hs])]
      have hpos : 0 < src.length := List.length_pos.2 hs
      rw [List.length_cons, ih (src.drop B) (by rw [List.length_drop]; omega), List.length_drop]
      by_cases hle : B ≤ src.length
      · have : src.length + B - 1 = (src.length - B + B - 1) + B := by omega
        rw [this, Nat.add_div_right _ hB]
      · have h1 : src.length - B + B - 1 < B := by omega
        rw [Nat.div_eq_of_lt h1]
        have h2 : src.length + B - 1 = (src.length - 1) + B := by omega
        rw [h2, Nat.add_div_right _ hB, Nat.div_eq_of_lt (by omega)]

theorem fread_chunks_sum (B : Nat) (hB : 0 < B) (fuel : Nat) (src : List Nat)
    (hfuel : src.length ≤ fuel) :
    ((fread_chunks B fuel src).map List.length).sum = src.length := by
  induction fuel generalizing src with
  | zero =>
    have : src = [] := List.eq_nil_of_length_eq_zero (by omega)
    subst this
    rfl
  | succ n ih =>
    unfold fread_chunks
    by_cases hs : src = []
    · subst hs
      simp
    · have hB0 : B ≠ 0 := by omega
      rw [if_neg (by simp [hB0, hs])]
      have hpos : 0 < src.length := List.length_pos.2 hs
      rw [List.map_cons, List.sum_cons, ih (src.drop B) (by rw [List.length_drop]; omega),
        List.length_take, List.length_drop]
      omega

theorem fread_chunks_le (B fuel : Nat) (src : List Nat) :
    ∀ c ∈ fread_chunks B fuel src, c.length ≤ B := by
  induction fuel generalizing src with
  | zero => intro c hc; simp [fread_chunks] at hc
  | succ n ih =>
    intro c hc
    unfold fread_chunks at hc
    by_cases h : B = 0 ∨ src = []
    · rw [if_pos h] at hc; cases hc
    · rw [if_neg h] at hc
      rcases List.mem_cons.1 hc with rfl | hc
      · rw [List.length_take]; omega
      · exact ih _ c hc

/-! ## diskput as a whole -/

theorem chain_to_terminate (fat : Mem) (t t2 : Nat) (ht2 : t2 < 4294967296) (b0 : Nat)
    (nb : List Nat) (hinc : List.Chain (fun x y => x < y) b0 nb) (h : chain_to fat t b0 nb) :
    chain_to (fat_set fat (nb.getLastD b0) t2) t2 b0 nb := by
  induction nb generalizing b0 with
  | nil => exact fat_entry_set_same _ _ _ ht2
  | cons x xs ih =>
    rw [List.chain_cons] at hinc
    obtain ⟨h1, h2⟩ := h
    have hlast : (x :: xs).getLastD b0 = xs.getLastD x := by cases xs <;> rfl
    rw [hlast]
    refine ⟨?_, ih x hinc.2 h2⟩
    have hmem := List.getLastD_mem_cons xs x
    have hne : b0 ≠ xs.getLastD x := by
      rcases List.mem_cons.1 hmem with he | hm
      · omega
      · have := chain_lt_of_mem x xs hinc.2 _ hm
        omega
    rw [fat_entry_set_other _ _ _ _ hne]
    exact h1

theorem scan_free_slots_pos (img : Mem) (sb : super_block) (n cur pos : Nat)
    (h : scan_free img sb n cur = some pos) : 0 < slots sb := by
  induction n generalizing cur with
  | zero => simp [scan_free] at h
  | succ n ih =>
    unfold scan_free at h
    cases hfs : first_slot (fun i => rd8 img (block_off sb cur + entry_size * i) == 0)
        (slots sb) 0 with
    | none =>
      rw [hfs] at h
      exact ih _ h
    | some i =>
      have := (first_slot_some _ _ _ _ hfs).2.1
      omega

theorem put_chunks_first (sb : super_block) (c : List Nat) (cs : List (List Nat)) (s : put_loop)
    (h : s.first_block = true) :
    put_chunks sb (c :: cs) s = put_chunks sb cs
      { s with
        entry := { s.entry with
          size := u32 (s.entry.size + c.length)
          block_count := u32 (s.entry.block_count + c.length) }
        first_block := false
        img := wrBytes s.img (block_off sb s.curr_block_index) c
        previous_block := s.curr_block_index } := by
  rw [put_chunks, if_pos h]

theorem put_chunks_init (sb : super_block) (hN : sb.file_system_block_count ≤ 4294967296)
    (img1 fat0 : Mem) (e : dir_entry_t) (b0 : Nat) (chunks : List (List Nat)) (s' : put_loop)
    (hmin : ∀ j, j < b0 → fat_entry fat0 j ≠ 0)
    (hsz : e.size = 0) (hbc : e.block_count = 1)
    (hrun : put_chunks sb chunks ⟨img1, fat_set fat0 b0 1, e, b0, b0, true, [b0]⟩ = (true, s')) :
    ∃ nb : List Nat,
      nb.length = chunks.length - 1 ∧
      s'.allocated = b0 :: nb ∧
      s'.img = write_all sb img1 ((b0 :: nb).zip chunks) ∧
      List.Chain (fun x y => x < y) b0 nb ∧
      (∀ b ∈ nb, b < sb.file_system_block_count ∧ fat_entry fat0 b = 0) ∧
      s'.previous_block = nb.getLastD b0 ∧
      chain_to s'.fat 1 b0 nb ∧
      (∀ k, (∀ b ∈ b0 :: nb, k < 4 * b ∨ 4 * b + 4 ≤ k) → s'.fat k = fat0 k) ∧
      s'.entry = { e with
        size := u32 (chunks.map List.length).sum
        block_count := u32 (1 + (chunks.map List.length).sum) } := by
  have hone : fat_entry (fat_set fat0 b0 1) b0 = 1 := fat_entry_set_same _ _ _ (by norm_num)
  have hnz : ∀ j, j ≤ b0 → fat_entry (fat_set fat0 b0 1) j ≠ 0 := by
    intro j hj
    by_cases hjb : j = b0
    · rw [hjb, hone]; norm_num
    · rw [fat_entry_set_other _ _ _ _ hjb]
      exact hmin j (by omega)
  cases chunks with
  | nil =>
    simp only [put_chunks, Prod.mk.injEq, true_and] at hrun
    subst hrun
    refine ⟨[], rfl, rfl, rfl, List.Chain.nil, by simp, rfl, hone, ?_, ?_⟩
    · intro k hk
      exact fat_set_outside _ _ _ _ (hk b0 (List.mem_cons_self _ _))
    · cases e
      simp only at hsz hbc
      subst hsz hbc
      rfl
  | cons c cs =>
    rw [put_chunks_first _ _ _ _ rfl] at hrun
    obtain ⟨nb, h1, h2, h3, h4, h5, h6, h7, _, h9, h10⟩ :=
      put_chunks_spec sb hN cs _ s' hrun rfl hnz hone (u32_lt _) (u32_lt _)
    simp only at h2 h3 h4 h5 h6 h7 h9 h10
    have hgt := chain_lt_of_mem b0 nb h4
    refine ⟨nb, by simp [h1], h2, by rw [h3]; rfl, h4, ?_, h6, h7, ?_, ?_⟩
    · intro b hb
      obtain ⟨a1, a2⟩ := h5 b hb
      have := hgt b hb
      rw [fat_entry_set_other _ _ _ _ (by omega)] at a2
      exact ⟨a1, a2⟩
    · intro k hk
      rw [h9 k (hk b0 (List.mem_cons_self _ _)) (fun x hx => hk x (List.mem_cons_of_mem _ hx))]
      exact fat_set_outside _ _ _ _ (hk b0 (List.mem_cons_self _ _))
    · rw [h10, hsz, hbc]
      simp only [List.map_cons, List.sum_cons, u32, Nat.add_mod_mod, Nat.mod_add_mod,
        Nat.add_assoc, Nat.zero_add]

theorem put_chunks_init_ok (sb : super_block) (hN : sb.file_system_block_count ≤ 4294967296)
    (img1 fat0 : Mem) (e : dir_entry_t) (b0 : Nat) (chunks : List (List Nat))
    (hmin : ∀ j, j < b0 → fat_entry fat0 j ≠ 0)
    (fl : List Nat) (hnd : fl.Nodup) (hlen : chunks.length ≤ fl.length)
    (hfl : ∀ b ∈ fl, b < sb.file_system_block_count ∧ fat_entry fat0 b = 0) :
    ∃ s', put_chunks sb chunks ⟨img1, fat_set fat0 b0 1, e, b0, b0, true, [b0]⟩ = (true, s') := by
  have hone : fat_entry (fat_set fat0 b0 1) b0 = 1 := fat_entry_set_same _ _ _ (by norm_num)
  have hnz : ∀ j, j ≤ b0 → fat_entry (fat_set fat0 b0 1) j ≠ 0 := by
    intro j hj
    by_cases hjb : j = b0
    · rw [hjb, hone]; norm_num
    · rw [fat_entry_set_other _ _ _ _ hjb]
      exact hmin j (by omega)
  cases chunks with
  | nil => exact ⟨_, rfl⟩
  | cons c cs =>
    rw [put_chunks_first _ _ _ _ rfl]
    refine put_chunks_ok sb hN cs _ rfl hnz (fl.erase b0) (hnd.erase b0) ?_ ?_
    · by_cases hmem : b0 ∈ fl
      · rw [List.length_erase_of_mem hmem]
        simp only [List.length_cons] at hlen
        omega
      · rw [List.erase_of_not_mem hmem]
        simp only [List.length_cons] at hlen
        omega
    · intro x hx
      rw [hnd.mem_erase_iff] at hx
      obtain ⟨a1, a2⟩ := hfl x hx.2
      exact ⟨a1, (fat_entry_set_other _ _ _ _ hx.1).trans a2⟩

theorem diskput_eq_done {heap : heap_after} (img : Mem) (uninit : dir_entry_t) (now :
    dir_entry_timedate_t)
    (data dest name : List Nat) (start count pos b0 : Nat) (fat1 : Mem) (s' : put_loop)
    (ht : put_target heap img uninit dest = some (name, start, count))
    (hs : scan_free img (get_superblock img) (scan_fuel start (last_block_of start count)) start
      = some pos)
    (hg : get_free_block (load_fat img (get_superblock img))
      (get_superblock img).file_system_block_count = some (b0, fat1))
    (hpc : put_chunks (get_superblock img)
      (fread_chunks (get_superblock img).block_size data.length data)
      ⟨wrBytes img pos (encode_entry (put_entry img now name pos b0 0 1)), fat1,
        put_entry img now name pos b0 0 1, b0, b0, true, [b0]⟩ = (true, s')) :
    diskput heap img uninit now (some data) dest =
      ⟨put_status.done,
        wrBytes
          (blit s'.img (block_off (get_superblock img) (get_superblock img).fat_start_block)
            (fat_set s'.fat s'.previous_block 4294967295) (fat_bytes (get_superblock img)))
          (u32 pos) (encode_entry s'.entry),
        fat_set s'.fat s'.previous_block 4294967295, s'.entry, u32 pos, s'.allocated⟩ := by
  unfold put_entry at hpc
  unfold diskput
  simp only [ht, hs, hg, hpc]

theorem diskput_done {heap : heap_after} (img : Mem) (uninit : dir_entry_t) (now :
    dir_entry_timedate_t)
    (data dest : List Nat)
    (h : (diskput heap img uninit now (some data) dest).status = put_status.done) :
    ∃ name start count pos b0 nb,
      put_target heap img uninit dest = some (name, start, count) ∧
      scan_free img (get_superblock img) (scan_fuel start (last_block_of start count)) start
        = some pos ∧
      put_done img now data name pos b0 nb (diskput heap img uninit now (some data) dest) := by
  have hN : (get_superblock img).file_system_block_count ≤ 4294967296 :=
    Nat.le_of_lt (be32_lt _ _)
  cases ht : put_target heap img uninit dest with
  | none =>
    unfold diskput at h
    simp only [ht] at h
    cases h
  | some t =>
    obtain ⟨name, start, count⟩ := t
    cases hs : scan_free img (get_superblock img)
        (scan_fuel start (last_block_of start count)) start with
    | none =>
      unfold diskput at h
      simp only [ht, hs] at h
      split at h <;> cases h
    | some pos =>
      cases hg : get_free_block (load_fat img (get_superblock img))
          (get_superblock img).file_system_block_count with
      | none =>
        unfold diskput at h
        simp only [ht, hs, hg] at h
        cases h
      | some r =>
        obtain ⟨b0, fat1⟩ := r
        cases hpc : put_chunks (get_superblock img)
            (fread_chunks (get_superblock img).block_size data.length data)
            ⟨wrBytes img pos (encode_entry (put_entry img now name pos b0 0 1)), fat1,
              put_entry img now name pos b0 0 1, b0, b0, true, [b0]⟩ with
        | mk ok s' =>
          cases ok with
          | false =>
            unfold put_entry at hpc
            unfold diskput at h
            simp only [ht, hs, hg, hpc] at h
            cases h
          | true =>
            refine ⟨name, start, count, pos, b0, ?_⟩
            rw [diskput_eq_done img uninit now data dest name start count pos b0 fat1 s' ht hs hg
                hpc]
            obtain ⟨hb0N, hb0, hmin, hfat1⟩ := get_free_block_some _ _ _ _ hg
            subst hfat1
            obtain ⟨nb, h1, h2, h3, h4, h5, h6, h7, h8, h9⟩ :=
              put_chunks_init (get_superblock img) hN _ _ _ b0 _ s' hmin rfl rfl hpc
            have hslots := scan_free_slots_pos _ _ _ _ _ hs
            have hB : 0 < (get_superblock img).block_size := by
              unfold slots entry_size at hslots
              omega
            have hsum := fread_chunks_sum _ hB data.length data (le_refl _)
            rw [hsum] at h9
            have hmem := List.getLastD_mem_cons nb b0
            refine ⟨nb, rfl, hs, ?_⟩
            exact
              { status := rfl
                address := rfl
                blocks := h2
                slots_pos := hslots
                count := h1
                first_free := ⟨hb0N, hb0, hmin⟩
                increasing := h4
                rest_free := h5
                chain := by
                  show chain_to (fat_set s'.fat s'.previous_block 4294967295) 4294967295 b0 nb
                  rw [h6]
                  exact chain_to_terminate _ 1 _ (by norm_num) b0 nb h4 h7
                fat_frame := by
                  intro k hk
                  show fat_set s'.fat s'.previous_block 4294967295 k = _
                  rw [h6, fat_set_outside _ _ _ _ (hk _ hmem)]
                  exact h8 k hk
                entry := by
                  show s'.entry = _
                  rw [h9]
                  rfl
                image := by
                  show wrBytes (blit s'.img _ _ _) _ _ = _
                  rw [h3] }

theorem encode_entry_head (e : dir_entry_t) :
    encode_entry e =
      [e.status, e.start_block / 16777216 % 256, e.start_block / 65536 % 256,
        e.start_block / 256 % 256, e.start_block % 256,
        e.block_count / 16777216 % 256, e.block_count / 65536 % 256,
        e.block_count / 256 % 256, e.block_count % 256,
        e.size / 16777216 % 256, e.size / 65536 % 256, e.size / 256 % 256, e.size % 256,
        e.create_time.year / 256 % 256, e.create_time.year % 256, e.create_time.month,
        e.create_time.day, e.create_time.hour, e.create_time.minute, e.create_time.second,
        e.modify_time.year / 256 % 256, e.modify_time.year % 256, e.modify_time.month,
        e.modify_time.day, e.modify_time.hour, e.modify_time.minute, e.modify_time.second]
      ++ (e.filename ++ e.unused) := by
  simp [encode_entry, enc32, enc16, enc_time]

theorem wrBytes_entry_head (m : Mem) (k : Nat) (e : dir_entry_t) :
    wrBytes m k (encode_entry e) k = e.status ∧
    wrBytes m k (encode_entry e) (k + 1) = e.start_block / 16777216 % 256 ∧
    wrBytes m k (encode_entry e) (k + 2) = e.start_block / 65536 % 256 ∧
    wrBytes m k (encode_entry e) (k + 3) = e.start_block / 256 % 256 ∧
    wrBytes m k (encode_entry e) (k + 4) = e.start_block % 256 ∧
    wrBytes m k (encode_entry e) (k + 5) = e.block_count / 16777216 % 256 ∧
    wrBytes m k (encode_entry e) (k + 6) = e.block_count / 65536 % 256 ∧
    wrBytes m k (encode_entry e) (k + 7) = e.block_count / 256 % 256 ∧
    wrBytes m k (encode_entry e) (k + 8) = e.block_count % 256 ∧
    wrBytes m k (encode_entry e) (k + 9) = e.size / 16777216 % 256 ∧
    wrBytes m k (encode_entry e) (k + 10) = e.size / 65536 % 256 ∧
    wrBytes m k (encode_entry e) (k + 11) = e.size / 256 % 256 ∧
    wrBytes m k (encode_entry e) (k + 12) = e.size % 256 := by
  have hlen : 27 ≤ (encode_entry e).length := by
    rw [encode_entry_head]; simp
  have key : ∀ i, i < 27 → wrBytes m k (encode_entry e) (k + i) = (encode_entry e).getD i 0 :=
    fun i hi => wrBytes_inside m k _ i (by omega)
  refine ⟨?_, ?_, ?_, ?_, ?_, ?_, ?_, ?_, ?_, ?_, ?_, ?_, ?_⟩
  · have := key 0 (by norm_num)
    rw [encode_entry_head] at this
    simpa using this
  · have := key 1 (by norm_num)
    rw [encode_entry_head] at this
    simpa using this
  · have := key 2 (by norm_num)
    rw [encode_entry_head] at this
    simpa using this
  · have := key 3 (by norm_num)
    rw [encode_entry_head] at this
    simpa using this
  · have := key 4 (by norm_num)
    rw [encode_entry_head] at this
    simpa using this
  · have := key 5 (by norm_num)
    rw [encode_entry_head] at this
    simpa using this
  · have := key 6 (by norm_num)
    rw [encode_entry_head] at this
    simpa using this
  · have := key 7 (by norm_num)
    rw [encode_entry_head] at this
    simpa using this
  · have := key 8 (by norm_num)
    rw [encode_entry_head] at this
    simpa using this
  · have := key 9 (by norm_num)
    rw [encode_entry_head] at this
    simpa using this
  · have := key 10 (by norm_num)
    rw [encode_entry_head] at this
    simpa using this
  · have := key 11 (by norm_num)
    rw [encode_entry_head] at this
    simpa using this
  · have := key 12 (by norm_num)
    rw [encode_entry_head] at this
    simpa using this

theorem be32_wrBytes_entry_start (m : Mem) (k : Nat) (e : dir_entry_t)
    (h : e.start_block < 4294967296) :
    be32 (wrBytes m k (encode_entry e)) (k + 1) = e.start_block := by
  obtain ⟨_, e1, e2, e3, e4, _⟩ := wrBytes_entry_head m k e
  unfold be32 rd8
  rw [show k + 1 + 1 = k + 2 by omega, show k + 1 + 2 = k + 3 by omega,
    show k + 1 + 3 = k + 4 by omega, e1, e2, e3, e4]
  omega

/-! ## Reading back what was written -/

theorem rdBytes_length (m : Mem) (k n : Nat) : (rdBytes m k n).length = n := by
  simp [rdBytes]

theorem rdBytes_eq (m : Mem) (k : Nat) (l : List Nat)
    (h : ∀ i, i < l.length → rd8 m (k + i) = l.getD i 0) : rdBytes m k l.length = l := by
  apply List.ext_getElem
  · exact rdBytes_length _ _ _
  · intro i h1 h2
    simp only [rdBytes, List.getElem_map, List.getElem_range]
    rw [h i h2, List.getD_eq_getElem _ _ h2]

theorem rdBytes_split (m : Mem) (k a b : Nat) :
    rdBytes m k (a + b) = rdBytes m k a ++ rdBytes m (k + a) b := by
  simp only [rdBytes, List.range_add, List.map_append, List.map_map]
  congr 1
  apply List.map_congr_left
  intro i _
  simp [Nat.add_assoc]

theorem rdBytes_congr (m m2 : Mem) (k n : Nat) (h : ∀ j, k ≤ j → j < k + n → m2 j = m j) :
    rdBytes m2 k n = rdBytes m k n := by
  simp only [rdBytes]
  apply List.map_congr_left
  intro i hi
  rw [List.mem_range] at hi
  unfold rd8
  rw [h (k + i) (by omega) (by omega)]

theorem be16_congr (m m2 : Mem) (k : Nat) (h : ∀ j, k ≤ j → j < k + 2 → m2 j = m j) :
    be16 m2 k = be16 m k := by
  unfold be16 rd8
  rw [h k (by omega) (by omega), h (k + 1) (by omega) (by omega)]

theorem get_superblock_congr (m m2 : Mem) (h : ∀ j, j < 30 → m2 j = m j) :
    get_superblock m2 = get_superblock m := by
  unfold get_superblock
  rw [rdBytes_congr m m2 0 8 (fun j _ hj => h j (by omega)),
    be16_congr m m2 8 (fun j _ hj => h j (by omega)),
    be32_congr m m2 10 (fun j _ hj => h j (by omega)),
    be32_congr m m2 14 (fun j _ hj => h j (by omega)),
    be32_congr m m2 18 (fun j _ hj => h j (by omega)),
    be32_congr m m2 22 (fun j _ hj => h j (by omega)),
    be32_congr m m2 26 (fun j _ hj => h j (by omega))]

theorem entry_matches_congr {beyond : Mem} (m m2 : Mem) (st : Nat) (name : List Nat) (off : Nat)
    (h : ∀ j, off ≤ j → j < off + 64 → m2 j = m j) :
    entry_matches beyond m2 st name off = entry_matches beyond m st name off := by
  unfold entry_matches
  rw [rdBytes_congr m m2 (off + 27) 37 (fun j h1 h2 => h j (by omega) (by omega))]
  unfold rd8
  rw [h off (le_refl _) (by omega)]

theorem read_entry_congr (m m2 : Mem) (off : Nat)
    (h : ∀ j, off ≤ j → j < off + 64 → m2 j = m j) :
    read_entry m2 off = read_entry m off := by
  unfold read_entry read_time
  rw [rdBytes_congr m m2 (off + 27) 31 (fun j h1 h2 => h j (by omega) (by omega)),
    rdBytes_congr m m2 (off + 58) 6 (fun j h1 h2 => h j (by omega) (by omega)),
    be32_congr m m2 (off + 1) (fun j h1 h2 => h j (by omega) (by omega)),
    be32_congr m m2 (off + 5) (fun j h1 h2 => h j (by omega) (by omega)),
    be32_congr m m2 (off + 9) (fun j h1 h2 => h j (by omega) (by omega)),
    be16_congr m m2 (off + 13) (fun j h1 h2 => h j (by omega) (by omega)),
    be16_congr m m2 (off + 20) (fun j h1 h2 => h j (by omega) (by omega))]
  unfold rd8
  rw [h off (le_refl _) (by omega), h (off + 13 + 2) (by omega) (by omega),
    h (off + 13 + 3) (by omega) (by omega), h (off + 13 + 4) (by omega) (by omega),
    h (off + 13 + 5) (by omega) (by omega), h (off + 13 + 6) (by omega) (by omega),
    h (off + 20 + 2) (by omega) (by omega),
    h (off + 20 + 3) (by omega) (by omega), h (off + 20 + 4) (by omega) (by omega),
    h (off + 20 + 5) (by omega) (by omega), h (off + 20 + 6) (by omega) (by omega)]

/-! ## write_all -/

theorem write_all_frame (sb : super_block) (ps : List (Nat × List Nat)) (m : Mem) (k : Nat)
    (h : ∀ p ∈ ps, k < block_off sb p.1 ∨ block_off sb p.1 + p.2.length ≤ k) :
    write_all sb m ps k = m k := by
  induction ps generalizing m with
  | nil => rfl
  | cons p ps ih =>
    obtain ⟨b, c⟩ := p
    simp only [write_all]
    rw [ih _ (fun q hq => h q (List.mem_cons_of_mem _ hq))]
    exact wrBytes_outside _ _ _ _ (h (b, c) (List.mem_cons_self _ _))

theorem block_sep (B b b2 : Nat) (h : b < b2) : b * B + B ≤ b2 * B := by
  have := Nat.mul_le_mul_right B (Nat.succ_le_of_lt h)
  rw [Nat.succ_mul] at this
  exact this

theorem write_all_zip_content (sb : super_block) (b0 : Nat) (nb : List Nat)
    (hoff : ∀ b ∈ b0 :: nb, block_off sb b = b * sb.block_size)
    (hinc : List.Chain (fun x y => x < y) b0 nb)
    (chunks : List (List Nat)) (hlen : ∀ c ∈ chunks, c.length ≤ sb.block_size) (m : Mem) :
    ∀ p ∈ (b0 :: nb).zip chunks, ∀ i, i < p.2.length →
      write_all sb m ((b0 :: nb).zip chunks) (p.1 * sb.block_size + i) = p.2.getD i 0 := by
  induction nb generalizing b0 chunks m with
  | nil =>
    intro p hp i hi
    cases chunks with
    | nil => simp at hp
    | cons c cs =>
      simp only [List.zip_cons_cons, List.zip_nil_left, List.mem_singleton] at hp
      subst hp
      simp only [List.zip_cons_cons, List.zip_nil_left, write_all]
      rw [hoff b0 (List.mem_cons_self _ _)]
      exact wrBytes_inside _ _ _ _ hi
  | cons x xs ih =>
    intro p hp i hi
    cases chunks with
    | nil => simp at hp
    | cons c cs =>
      rw [List.chain_cons] at hinc
      have hgt := chain_lt_of_mem x xs hinc.2
      rw [List.zip_cons_cons] at hp ⊢
      simp only [write_all]
      rcases List.mem_cons.1 hp with rfl | hp
      · have hc := hlen c (List.mem_cons_self _ _)
        rw [write_all_frame]
        · rw [hoff b0 (List.mem_cons_self _ _)]
          exact wrBytes_inside _ _ _ _ hi
        · intro q hq
          obtain ⟨q1, q2⟩ := q
          have hq1 := (List.of_mem_zip hq).1
          have hlt : b0 < q1 := by
            rcases List.mem_cons.1 hq1 with rfl | hq1
            · exact hinc.1
            · exact lt_trans hinc.1 (hgt _ hq1)
          have := block_sep sb.block_size b0 q1 hlt
          left
          rw [hoff q1 (List.mem_cons_of_mem _ hq1)]
          simp only at hi ⊢
          omega
      · exact ih x (fun b hb => hoff b (List.mem_cons_of_mem _ hb)) hinc.2 cs
          (fun c2 hc2 => hlen c2 (List.mem_cons_of_mem _ hc2)) _ p hp i hi

theorem block_apart (B b Y k len : Nat) (hne : b ≠ Y) (hk1 : Y * B ≤ k) (hk2 : k < Y * B + B)
    (hlen : len ≤ B) : k < b * B ∨ b * B + len ≤ k := by
  rcases Nat.lt_or_gt_of_ne hne with h | h
  · have := block_sep B b Y h
    right; omega
  · have := block_sep B Y b h
    left; omega

theorem region_apart (B F FC Y k : Nat) (hY : Y < F ∨ F + FC ≤ Y) (hk1 : Y * B ≤ k)
    (hk2 : k < Y * B + B) : k < F * B ∨ F * B + FC * B ≤ k := by
  rcases hY with h | h
  · have := block_sep B Y F h
    left; omega
  · have := Nat.mul_le_mul_right B h
    rw [Nat.add_mul] at this
    right; omega

/-! ## Walking chains -/

theorem scan_chain_first {beyond : Mem} (img fat : Mem) (sb : super_block) (st : Nat) (name : List
    Nat)
    (n cur j0 i0 : Nat) (hj0 : j0 < n) (hi0 : i0 < slots sb)
    (hm : entry_matches beyond img st name (dir_slot fat sb cur j0 i0) = true)
    (hbefore : ∀ j, j < n → ∀ i, i < slots sb → (j < j0 ∨ (j = j0 ∧ i < i0)) →
      entry_matches beyond img st name (dir_slot fat sb cur j i) = false) :
    scan_chain beyond img fat sb st name n cur = some (dir_slot fat sb cur j0 i0) := by
  induction n generalizing cur j0 with
  | zero => omega
  | succ n ih =>
    unfold scan_chain
    cases j0 with
    | zero =>
      have hfs : first_slot
          (fun i => entry_matches beyond img st name (block_off sb cur + entry_size * i))
          (slots sb) 0 = some i0 := by
        apply first_slot_found _ _ _ _ (Nat.zero_le _) (by omega)
        · simpa [dir_slot, chain_block] using hm
        · intro k _ hk
          have := hbefore 0 (by omega) k (by omega) (Or.inr ⟨rfl, hk⟩)
          simpa [dir_slot, chain_block] using this
      rw [hfs]
      rfl
    | succ j1 =>
      have hfs : first_slot
          (fun i => entry_matches beyond img st name (block_off sb cur + entry_size * i))
          (slots sb) 0 = none := by
        rw [first_slot_none]
        intro k _ hk
        have := hbefore 0 (by omega) k (by omega) (Or.inl (by omega))
        simpa [dir_slot, chain_block] using this
      rw [hfs]
      simp only
      have := ih (fat_entry fat cur) j1 (by omega)
        (by simpa [dir_slot, chain_block] using hm)
        (by
          intro j hj i hi hlt
          have := hbefore (j + 1) (by omega) i hi (by omega)
          simpa [dir_slot, chain_block] using this)
      rw [this]
      simp [dir_slot, chain_block]

theorem chain_block_consecutive (fat : Mem) (j start : Nat)
    (h : ∀ i, i < j → fat_entry fat (start + i) = start + i + 1) :
    chain_block fat j start = start + j := by
  induction j generalizing start with
  | zero => rfl
  | succ j ih =>
    unfold chain_block
    have h0 := h 0 (by omega)
    rw [Nat.add_zero] at h0
    rw [h0, ih (start + 1) (fun i hi => by
      have := h (i + 1) (by omega)
      rw [show start + 1 + i = start + (i + 1) by omega]
      exact this)]
    omega

theorem read_chain_linked (img fat : Mem) (sb : super_block) (b0 : Nat) (nb : List Nat)
    (hch : chain_to fat 4294967295 b0 nb) (hne : ∀ b ∈ b0 :: nb, b ≠ 4294967295)
    (fuel : Nat) (hfuel : nb.length + 2 ≤ fuel) :
    read_chain img fat sb fuel b0
      = some (((b0 :: nb).map (fun b => rdBytes img (block_off sb b) sb.block_size)).flatten) := by
  induction nb generalizing b0 fuel with
  | nil =>
    obtain ⟨f, rfl⟩ : ∃ f, fuel = f + 2 := ⟨fuel - 2, by simp at hfuel; omega⟩
    have h0 := hne b0 (List.mem_cons_self _ _)
    simp only [chain_to] at hch
    simp [read_chain, h0, hch]
  | cons x xs ih =>
    obtain ⟨f, rfl⟩ : ∃ f, fuel = f + 1 := ⟨fuel - 1, by simp at hfuel; omega⟩
    have h0 := hne b0 (List.mem_cons_self _ _)
    obtain ⟨h1, h2⟩ := hch
    have := ih x h2 (fun b hb => hne b (List.mem_cons_of_mem _ hb)) f
      (by simp only [List.length_cons] at hfuel; omega)
    unfold read_chain
    rw [if_neg h0, h1, this]
    simp

theorem chain_length_le (b0 : Nat) (nb : List Nat) (hinc : List.Chain (fun x y => x < y) b0 nb) :
    b0 + nb.length ≤ nb.getLastD b0 := by
  induction nb generalizing b0 with
  | nil => simp
  | cons x xs ih =>
    rw [List.chain_cons] at hinc
    have := ih x hinc.2
    have hlast : (x :: xs).getLastD b0 = xs.getLastD x := by cases xs <;> rfl
    rw [hlast, List.length_cons]
    omega

theorem blocks_join (img : Mem) (sb : super_block) (hB : 0 < sb.block_size) (fuel : Nat)
    (src : List Nat) (blocks : List Nat) (hfuel : src.length ≤ fuel)
    (hlen : blocks.length = (fread_chunks sb.block_size fuel src).length)
    (hcontent : ∀ p ∈ blocks.zip (fread_chunks sb.block_size fuel src),
      rdBytes img (block_off sb p.1) p.2.length = p.2) :
    ∃ pad, (blocks.map (fun b => rdBytes img (block_off sb b) sb.block_size)).flatten
      = src ++ pad := by
  induction fuel generalizing src blocks with
  | zero =>
    have : src = [] := List.eq_nil_of_length_eq_zero (by omega)
    subst this
    simp only [fread_chunks, List.length_nil] at hlen
    have : blocks = [] := List.eq_nil_of_length_eq_zero hlen
    subst this
    exact ⟨[], rfl⟩
  | succ n ih =>
    by_cases hs : src = []
    · subst hs
      rw [fread_chunks_nil] at hlen
      have : blocks = [] := List.eq_nil_of_length_eq_zero hlen
      subst this
      exact ⟨[], rfl⟩
    · have hB0 : sb.block_size ≠ 0 := by omega
      have hunf : fread_chunks sb.block_size (n + 1) src
          = src.take sb.block_size :: fread_chunks sb.block_size n (src.drop sb.block_size) := by
        rw [fread_chunks, if_neg (by simp [hB0, hs])]
      rw [hunf] at hlen hcontent
      have hpos : 0 < src.length := List.length_pos.2 hs
      cases blocks with
      | nil => simp at hlen
      | cons b bs =>
        simp only [List.length_cons, Nat.add_right_cancel_iff] at hlen
        have hb := hcontent (b, src.take sb.block_size) (by simp)
        simp only [List.length_take] at hb
        obtain ⟨pad, hpad⟩ := ih (src.drop sb.block_size) bs
          (by rw [List.length_drop]; omega) hlen
          (fun p hp => hcontent p (by
            rw [List.zip_cons_cons]
            exact List.mem_cons_of_mem _ hp))
        simp only [List.map_cons, List.flatten_cons, hpad]
        by_cases hle : sb.block_size ≤ src.length
        · rw [Nat.min_eq_left hle] at hb
          refine ⟨pad, ?_⟩
          rw [hb, ← List.append_assoc, List.take_append_drop]
        · have hlt : src.length < sb.block_size := by omega
          rw [Nat.min_eq_right (Nat.le_of_lt hlt), List.take_of_length_le (Nat.le_of_lt hlt)] at hb
          rw [List.drop_of_length_le (Nat.le_of_lt hlt)]
          have hsplit := rdBytes_split img (block_off sb b) src.length
            (sb.block_size - src.length)
          rw [show src.length + (sb.block_size - src.length) = sb.block_size by omega] at hsplit
          rw [hsplit, hb]
          exact ⟨rdBytes img (block_off sb b + src.length) (sb.block_size - src.length) ++ pad,
            by simp⟩

/-! ## Names -/

theorem cstr_eq_name {beyond : Mem} (name rest : List Nat) : cstr_eq beyond (name ++ 0 :: rest)
    name = true := by
  induction name with
  | nil => rfl
  | cons c cs ih => simp [cstr_eq, ih]

theorem skip_lead_name (name : List Nat) (h : ∀ c ∈ name, c ≠ 47) : skip_lead name = name := by
  unfold skip_lead
  split
  · rename_i rest
    exact absurd rfl (h 47 (by simp))
  · rename_i rest
    exact absurd rfl (h 47 (by simp))
  · rfl

theorem split_last_name (name : List Nat) (h : ∀ c ∈ name, c ≠ 47) : split_last name = none := by
  induction name with
  | nil => rfl
  | cons c cs ih =>
    unfold split_last
    rw [ih (fun x hx => h x (List.mem_cons_of_mem _ hx))]
    simp [h c (List.mem_cons_self _ _)]

/-! ## The image after diskput -/

theorem strncpy31_length (name : List Nat) : (strncpy31 name).length = 31 := by
  unfold strncpy31
  rw [List.length_append, List.length_take, List.length_replicate]
  omega

theorem encode_entry_length (e : dir_entry_t) (hf : e.filename.length = 31)
    (hu : e.unused.length = 6) : (encode_entry e).length = 64 := by
  rw [encode_entry_head]
  simp [hf, hu]

theorem put_entry_length (img : Mem) (now : dir_entry_timedate_t) (name : List Nat)
    (pos b0 sz bc : Nat) : (encode_entry (put_entry img now name pos b0 sz bc)).length = 64 :=
  encode_entry_length _ (strncpy31_length name) (rdBytes_length _ _ _)

theorem wf_basic (img : Mem) (hwf : well_formed img) :
    0 < (get_superblock img).block_size ∧
    (∀ b, b < (get_superblock img).file_system_block_count →
      block_off (get_superblock img) b = b * (get_superblock img).block_size) ∧
    block_off (get_superblock img) (get_superblock img).fat_start_block
      = (get_superblock img).fat_start_block * (get_superblock img).block_size ∧
    fat_bytes (get_superblock img)
      = (get_superblock img).fat_block_count * (get_superblock img).block_size ∧
    (get_superblock img).block_size
      ≤ (get_superblock img).fat_start_block * (get_superblock img).block_size ∧
    (get_superblock img).block_size
      ≤ (get_superblock img).root_dir_start_block * (get_superblock img).block_size := by
  have hB : 0 < (get_superblock img).block_size := by
    have := hwf.super_fits
    omega
  have hoff : ∀ b, b < (get_superblock img).file_system_block_count →
      block_off (get_superblock img) b = b * (get_superblock img).block_size := by
    intro b hb
    have := block_sep (get_superblock img).block_size b _ hb
    have := hwf.addressable
    exact u32_of_lt _ (by omega)
  have hF1 := Nat.le_mul_of_pos_left (get_superblock img).block_size hwf.fat_start
  have hR1 := Nat.le_mul_of_pos_left (get_superblock img).block_size hwf.root_start
  have hsum := Nat.mul_le_mul_right (get_superblock img).block_size hwf.fat_inside
  rw [Nat.add_mul] at hsum
  have haddr := hwf.addressable
  have hFN : (get_superblock img).fat_start_block
      < (get_superblock img).file_system_block_count := by
    have h1 := hwf.table_holds
    have h2 := hwf.fat_inside
    have h3 := hwf.root_start
    have h4 := hwf.root_inside
    by_contra hc
    have h5 : (get_superblock img).fat_block_count = 0 := by omega
    rw [h5, Nat.zero_mul] at h1
    omega
  refine ⟨hB, hoff, hoff _ hFN, ?_, hF1, hR1⟩
  exact u32_of_lt _ (by omega)

theorem block_not_used (fat : Mem) (S C b : Nat) (hused : ∀ j, j < C → fat_entry fat (S + j) ≠ 0)
    (hb : fat_entry fat b = 0) : b < S ∨ S + C ≤ b := by
  by_contra hc
  have := hused (b - S) (by omega)
  rw [show S + (b - S) = b by omega] at this
  exact this hb

theorem put_done_reads (img : Mem) (now : dir_entry_timedate_t) (data name : List Nat)
    (pos b0 : Nat) (nb : List Nat) (r : put_result) (hwf : well_formed img)
    (hd : put_done img now data name pos b0 nb r) (X i0 : Nat)
    (hX1 : (get_superblock img).root_dir_start_block ≤ X)
    (hX2 : X < (get_superblock img).root_dir_start_block
      + (get_superblock img).root_dir_block_count)
    (hi0 : i0 < slots (get_superblock img))
    (hpos : pos = X * (get_superblock img).block_size + 64 * i0) :
    (∀ k, k < 30 → r.img k = img k) ∧
    load_fat r.img (get_superblock img) = r.fat ∧
    (∀ Y, (get_superblock img).root_dir_start_block ≤ Y →
      Y < (get_superblock img).root_dir_start_block + (get_superblock img).root_dir_block_count →
      ∀ k, Y * (get_superblock img).block_size ≤ k →
        k < Y * (get_superblock img).block_size + (get_superblock img).block_size →
        (k < pos ∨ pos + 64 ≤ k) → r.img k = img k) ∧
    (∃ M, r.img = wrBytes M pos (encode_entry r.entry)) ∧
    (∀ p ∈ (b0 :: nb).zip
        (fread_chunks (get_superblock img).block_size data.length data),
      ∀ i, i < p.2.length →
        r.img (p.1 * (get_superblock img).block_size + i) = p.2.getD i 0) := by
  obtain ⟨hB, hoff, hFoff, hFbytes, hF1, hR1⟩ := wf_basic img hwf
  have haddr := hwf.addressable
  have htable := hwf.table_holds
  have hfin := hwf.fat_inside
  have hrin := hwf.root_inside
  have hapart := hwf.apart
  -- the slot lies in block X
  have hfit : 64 * i0 + 64 ≤ (get_superblock img).block_size := by
    unfold slots entry_size at hi0
    have := (Nat.le_div_iff_mul_le (by norm_num : 0 < 64)).1 (Nat.succ_le_of_lt hi0)
    omega
  have hXN : X < (get_superblock img).file_system_block_count := by omega
  have hXsep := block_sep (get_superblock img).block_size X _ hXN
  have hXR := Nat.mul_le_mul_right (get_superblock img).block_size hX1
  have hpos32 : u32 pos = pos := u32_of_lt _ (by omega)
  -- the blocks handed out
  have hblk : ∀ b ∈ b0 :: nb, b < (get_superblock img).file_system_block_count ∧
      fat_entry (load_fat img (get_superblock img)) b = 0 := by
    intro b hb
    rcases List.mem_cons.1 hb with rfl | hb
    · exact ⟨hd.first_free.1, hd.first_free.2.1⟩
    · exact hd.rest_free b hb
  have hb0 : ∀ b ∈ b0 :: nb, b ≠ 0 := by
    intro b hb he
    rw [he] at hb
    exact hwf.super_used (hblk 0 hb).2
  have hbF : ∀ b ∈ b0 :: nb, b < (get_superblock img).fat_start_block ∨
      (get_superblock img).fat_start_block + (get_superblock img).fat_block_count ≤ b :=
    fun b hb => block_not_used _ _ _ _ hwf.fat_used (hblk b hb).2
  have hbR : ∀ b ∈ b0 :: nb, b < (get_superblock img).root_dir_start_block ∨
      (get_superblock img).root_dir_start_block + (get_superblock img).root_dir_block_count ≤ b :=
    fun b hb => block_not_used _ _ _ _ hwf.root_used (hblk b hb).2
  have hXF : X < (get_superblock img).fat_start_block ∨
      (get_superblock img).fat_start_block + (get_superblock img).fat_block_count ≤ X := by
    omega
  have hlenE := put_entry_length img now name pos b0 (u32 data.length) (u32 (1 + data.length))
  have hlenE0 := put_entry_length img now name pos b0 0 1
  have himg := hd.image
  rw [hpos32, hFoff, hFbytes, hd.entry] at himg
  -- outside the blocks handed out, write_all changes nothing
  have hframe : ∀ (m : Mem) (Y k : Nat), Y * (get_superblock img).block_size ≤ k →
      k < Y * (get_superblock img).block_size + (get_superblock img).block_size →
      (∀ b ∈ b0 :: nb, b ≠ Y) →
      write_all (get_superblock img) m ((b0 :: nb).zip
        (fread_chunks (get_superblock img).block_size data.length data)) k = m k := by
    intro m Y k hk1 hk2 hne
    apply write_all_frame
    intro p hp
    obtain ⟨p1, p2⟩ := p
    obtain ⟨hp1, hp2⟩ := List.of_mem_zip hp
    rw [hoff p1 (hblk p1 hp1).1]
    exact block_apart _ _ _ _ _ (hne p1 hp1) hk1 hk2 (fread_chunks_le _ _ _ p2 hp2)
  refine ⟨?_, ?_, ?_, ⟨_, by rw [himg, hd.entry]⟩, ?_⟩
  · intro k hk
    have hB30 := hwf.super_fits
    rw [himg, wrBytes_outside _ _ _ _ (by omega), blit_outside _ _ _ _ _ (by omega),
      hframe _ 0 k (by omega) (by omega) (fun b hb => hb0 b hb),
      wrBytes_outside _ _ _ _ (by omega)]
  · funext k
    unfold load_fat
    rw [hFbytes, hFoff]
    by_cases hk : k < (get_superblock img).fat_block_count * (get_superblock img).block_size
    · rw [if_pos hk, himg]
      have hout : (get_superblock img).fat_start_block * (get_superblock img).block_size + k < pos ∨
          pos + (encode_entry (put_entry img now name pos b0 (u32 data.length)
            (u32 (1 + data.length)))).length
            ≤ (get_superblock img).fat_start_block * (get_superblock img).block_size + k := by
        rw [hlenE]
        rcases hXF with h | h
        · have := block_sep (get_superblock img).block_size X _ h
          right; omega
        · have := Nat.mul_le_mul_right (get_superblock img).block_size h
          rw [Nat.add_mul] at this
          left; omega
      rw [wrBytes_outside _ _ _ _ hout, blit_inside _ _ _ _ _ (by omega) (by omega),
        Nat.add_sub_cancel_left]
    · rw [if_neg hk, hd.fat_frame k (fun b hb => by have := (hblk b hb).1; omega)]
      unfold load_fat
      rw [hFbytes, if_neg hk]
  · intro Y hY1 hY2 k hk1 hk2 hkpos
    have hYF : Y < (get_superblock img).fat_start_block ∨
        (get_superblock img).fat_start_block + (get_superblock img).fat_block_count ≤ Y := by
      omega
    rw [himg, wrBytes_outside _ _ _ _ (by rw [hlenE]; exact hkpos),
      blit_outside _ _ _ _ _ (region_apart _ _ _ _ _ hYF hk1 hk2),
      hframe _ Y k hk1 hk2 (fun b hb => by have := hbR b hb; omega),
      wrBytes_outside _ _ _ _ (by rw [hlenE0]; exact hkpos)]
  · intro p hp i hi
    obtain ⟨p1, p2⟩ := p
    obtain ⟨hp1, hp2⟩ := List.of_mem_zip hp
    have hlen := fread_chunks_le _ _ _ p2 hp2
    simp only at hi ⊢
    have hk1 : p1 * (get_superblock img).block_size
        ≤ p1 * (get_superblock img).block_size + i := Nat.le_add_right _ _
    have hk2 : p1 * (get_superblock img).block_size + i
        < p1 * (get_superblock img).block_size + (get_superblock img).block_size := by omega
    have hpX : p1 ≠ X := by
      have := hbR p1 hp1
      omega
    have hslot : p1 * (get_superblock img).block_size + i < pos ∨
        pos + 64 ≤ p1 * (get_superblock img).block_size + i := by
      rcases Nat.lt_or_gt_of_ne hpX with h | h
      · have := block_sep (get_superblock img).block_size p1 X h
        left; omega
      · have := block_sep (get_superblock img).block_size X p1 h
        right; omega
    rw [himg, wrBytes_outside _ _ _ _ (by rw [hlenE]; exact hslot),
      blit_outside _ _ _ _ _ (region_apart _ _ _ _ _ (hbF p1 hp1) hk1 hk2)]
    exact write_all_zip_content (get_superblock img) b0 nb (fun b hb => hoff b (hblk b hb).1)
      hd.increasing _ (fread_chunks_le _ _ _) _ (p1, p2) hp i hi

/-! ## The new entry and the root directory after diskput -/

theorem fread_chunks_subset (B fuel : Nat) (src : List Nat) :
    ∀ c ∈ fread_chunks B fuel src, ∀ x ∈ c, x ∈ src := by
  induction fuel generalizing src with
  | zero => intro c hc; simp [fread_chunks] at hc
  | succ n ih =>
    intro c hc x hx
    unfold fread_chunks at hc
    by_cases h : B = 0 ∨ src = []
    · rw [if_pos h] at hc; cases hc
    · rw [if_neg h] at hc
      rcases List.mem_cons.1 hc with rfl | hc
      · exact List.mem_of_mem_take hx
      · exact List.mem_of_mem_drop (ih _ c hc x hx)

theorem rdBytes_entry_name (m : Mem) (k : Nat) (e : dir_entry_t) (hf : e.filename.length = 31)
    (hu : e.unused.length = 6) :
    rdBytes (wrBytes m k (encode_entry e)) (k + 27) 37
      = (e.filename ++ e.unused).map (fun x => x % 256) := by
  have hlen : ((e.filename ++ e.unused).map (fun x => x % 256)).length = 37 := by
    simp [hf, hu]
  rw [← hlen]
  apply rdBytes_eq
  intro i hi
  rw [hlen] at hi
  unfold rd8
  rw [show k + 27 + i = k + (27 + i) by omega,
    wrBytes_inside _ _ _ _ (by rw [encode_entry_length e hf hu]; omega)]
  rw [encode_entry_head, List.getD_append_right _ _ _ _ (by simp)]
  simp only [List.length_cons, List.length_nil, Nat.zero_add, Nat.reduceAdd,
    Nat.add_sub_cancel_left]
  rw [show (0 : Nat) = (fun x => x % 256) 0 by rfl, List.getD_map]

theorem map_mod_of_lt (l : List Nat) (h : ∀ x ∈ l, x < 256) :
    l.map (fun x => x % 256) = l := by
  induction l with
  | nil => rfl
  | cons a l ih =>
    rw [List.map_cons, ih (fun x hx => h x (List.mem_cons_of_mem _ hx)),
      Nat.mod_eq_of_lt (h a (List.mem_cons_self _ _))]

theorem entry_matches_written {beyond : Mem} (m : Mem) (k : Nat) (e : dir_entry_t) (name : List Nat)
    (hst : e.status = 3) (hf : e.filename = strncpy31 name) (hu : e.unused.length = 6)
    (hname : name.length < 31) (hchars : ∀ c ∈ name, c < 256) :
    entry_matches beyond (wrBytes m k (encode_entry e)) 3 name k = true := by
  have hflen : e.filename.length = 31 := by rw [hf]; exact strncpy31_length name
  unfold entry_matches
  rw [rdBytes_entry_name m k e hflen hu]
  have h0 : rd8 (wrBytes m k (encode_entry e)) k = 3 := by
    unfold rd8
    rw [(wrBytes_entry_head m k e).1, hst]
  rw [h0, hf]
  unfold strncpy31
  rw [List.take_of_length_le (by omega),
    show 31 - name.length = (30 - name.length) + 1 by omega, List.replicate_succ]
  simp only [List.map_append, List.map_cons, Nat.zero_mod, List.append_assoc, List.cons_append]
  rw [map_mod_of_lt name hchars, cstr_eq_name]
  rfl

/-! ## Insertion into the root directory -/

theorem put_target_root {heap : heap_after} (img : Mem) (uninit : dir_entry_t) (name : List Nat)
    (h47 : ∀ c ∈ name, c ≠ 47) :
    put_target heap img uninit name = some (name, (get_superblock img).root_dir_start_block,
      (get_superblock img).root_dir_block_count) := by
  unfold put_target
  rw [skip_lead_name name h47, split_last_name name h47]

theorem file_target_root {heap : heap_after} (img : Mem) (uninit : dir_entry_t) (name : List Nat)
    (h47 : ∀ c ∈ name, c ≠ 47) :
    file_target heap img uninit name = some (name, (get_superblock img).root_dir_start_block,
      (get_superblock img).root_dir_block_count) := by
  unfold file_target
  rw [skip_lead_name name h47, split_last_name name h47]

theorem free_count_list (fat : Mem) (n : Nat) :
    ∃ fl : List Nat, fl.Nodup ∧ fl.length = free_count fat n ∧
      ∀ b ∈ fl, b < n ∧ fat_entry fat b = 0 := by
  refine ⟨(List.range n).filter (fun i => fat_entry fat i == 0),
    (List.nodup_range n).filter _, ?_, ?_⟩
  · unfold free_count
    rw [List.countP_eq_length_filter]
  · intro b hb
    rw [List.mem_filter, List.mem_range] at hb
    exact ⟨hb.1, by simpa using hb.2⟩

theorem scan_free_root (img : Mem) (hwf : well_formed img) (j0 i0 : Nat)
    (hj0 : j0 < (get_superblock img).root_dir_block_count)
    (hi0 : i0 < slots (get_superblock img))
    (hslot : rd8 img (block_off (get_superblock img)
      ((get_superblock img).root_dir_start_block + j0) + entry_size * i0) = 0)
    (hbefore : ∀ j, j < (get_superblock img).root_dir_block_count →
      ∀ i, i < slots (get_superblock img) → (j < j0 ∨ (j = j0 ∧ i < i0)) →
      rd8 img (block_off (get_superblock img)
        ((get_superblock img).root_dir_start_block + j) + entry_size * i) ≠ 0) :
    scan_free img (get_superblock img)
      (scan_fuel (get_superblock img).root_dir_start_block
        (last_block_of (get_superblock img).root_dir_start_block
          (get_superblock img).root_dir_block_count))
      (get_superblock img).root_dir_start_block
      = some (((get_superblock img).root_dir_start_block + j0)
          * (get_superblock img).block_size + 64 * i0) := by
  obtain ⟨_, hoff, _⟩ := wf_basic img hwf
  have hN : (get_superblock img).file_system_block_count < 4294967296 := be32_lt _ _
  have hrin := hwf.root_inside
  have hr1 := hwf.root_start
  have hlast := last_block_of_eq (get_superblock img).root_dir_start_block
    (get_superblock img).root_dir_block_count (by omega) (by omega)
  have hfuel : scan_fuel (get_superblock img).root_dir_start_block
      (last_block_of (get_superblock img).root_dir_start_block
        (get_superblock img).root_dir_block_count)
      = (get_superblock img).root_dir_block_count := by
    unfold scan_fuel
    rw [if_neg (by omega), hlast]
    omega
  rw [hfuel, scan_free_first img _ _ _ j0 i0 (by omega) hj0 hi0 hslot hbefore,
    hoff _ (by omega)]
  rfl

theorem diskput_runs {heap : heap_after} (img : Mem) (uninit : dir_entry_t) (now :
    dir_entry_timedate_t)
    (data dest name : List Nat) (start count pos : Nat)
    (ht : put_target heap img uninit dest = some (name, start, count))
    (hs : scan_free img (get_superblock img) (scan_fuel start (last_block_of start count)) start
      = some pos)
    (hfree1 : 1 ≤ free_count (load_fat img (get_superblock img))
      (get_superblock img).file_system_block_count)
    (hfree : (data.length + (get_superblock img).block_size - 1) / (get_superblock img).block_size
      ≤ free_count (load_fat img (get_superblock img))
        (get_superblock img).file_system_block_count) :
    ∃ b0 nb, put_done img now data name pos b0 nb (diskput heap img uninit now (some data) dest) :=
        by
  have hslots := scan_free_slots_pos _ _ _ _ _ hs
  have hB : 0 < (get_superblock img).block_size := by
    unfold slots entry_size at hslots
    omega
  have hN : (get_superblock img).file_system_block_count ≤ 4294967296 :=
    Nat.le_of_lt (be32_lt _ _)
  obtain ⟨fl, hnd, hfllen, hfl⟩ := free_count_list (load_fat img (get_superblock img))
    (get_superblock img).file_system_block_count
  have hdone : (diskput heap img uninit now (some data) dest).status = put_status.done := by
    cases fl with
    | nil => simp at hfllen; omega
    | cons f fl2 =>
      obtain ⟨hf1, hf2⟩ := hfl f (List.mem_cons_self _ _)
      obtain ⟨b0, hg, _⟩ := get_free_block_of_free _ _ f hf1 hf2
      obtain ⟨_, _, hmin, _⟩ := get_free_block_some _ _ _ _ hg
      obtain ⟨s', hpc⟩ := put_chunks_init_ok (get_superblock img) hN
        (wrBytes img pos (encode_entry (put_entry img now name pos b0 0 1)))
        (load_fat img (get_superblock img)) (put_entry img now name pos b0 0 1) b0
        (fread_chunks (get_superblock img).block_size data.length data) hmin (f :: fl2) hnd
        (by rw [fread_chunks_length _ hB _ _ (le_refl _), hfllen]; exact hfree) hfl
      rw [diskput_eq_done img uninit now data dest name _ _ pos b0 _ s' ht hs hg hpc]
  obtain ⟨name2, start2, count2, pos2, b0, nb, ht2, hs2, hd⟩ :=
    diskput_done img uninit now data dest hdone
  rw [ht] at ht2
  simp only [Option.some.injEq, Prod.mk.injEq] at ht2
  obtain ⟨rfl, rfl, rfl⟩ := ht2
  rw [hs] at hs2
  simp only [Option.some.injEq] at hs2
  subst hs2
  exact ⟨b0, nb, hd⟩

theorem diskput_root_done {heap : heap_after} (img : Mem) (uninit : dir_entry_t) (now :
    dir_entry_timedate_t)
    (data name : List Nat) (pos : Nat)
    (h47 : ∀ c ∈ name, c ≠ 47)
    (hs : scan_free img (get_superblock img)
      (scan_fuel (get_superblock img).root_dir_start_block
        (last_block_of (get_superblock img).root_dir_start_block
          (get_superblock img).root_dir_block_count))
      (get_superblock img).root_dir_start_block = some pos)
    (hfree1 : 1 ≤ free_count (load_fat img (get_superblock img))
      (get_superblock img).file_system_block_count)
    (hfree : (data.length + (get_superblock img).block_size - 1) / (get_superblock img).block_size
      ≤ free_count (load_fat img (get_superblock img))
        (get_superblock img).file_system_block_count) :
    ∃ b0 nb, put_done img now data name pos b0 nb (diskput heap img uninit now (some data) name) :=
  diskput_runs img uninit now data name name _ _ pos (put_target_root img uninit name h47) hs
    hfree1 hfree

theorem slot_fits (sb : super_block) (i : Nat) (hi : i < slots sb) :
    64 * i + 64 ≤ sb.block_size := by
  unfold slots entry_size at hi
  have := (Nat.le_div_iff_mul_le (by norm_num : 0 < 64)).1 (Nat.succ_le_of_lt hi)
  omega

theorem root_put_lookup {beyond : Mem} (img : Mem) (now : dir_entry_timedate_t) (data name : List
    Nat)
    (b0 : Nat) (nb : List Nat) (r : put_result) (hwf : well_formed img) (j0 i0 : Nat)
    (hj0 : j0 < (get_superblock img).root_dir_block_count)
    (hi0 : i0 < slots (get_superblock img))
    (hd : put_done img now data name
      (((get_superblock img).root_dir_start_block + j0) * (get_superblock img).block_size
        + 64 * i0) b0 nb r)
    (hname : name.length < 31) (hchars : ∀ c ∈ name, c < 256)
    (hbefore : ∀ j, j < (get_superblock img).root_dir_block_count →
      ∀ i, i < slots (get_superblock img) → (j < j0 ∨ (j = j0 ∧ i < i0)) →
      entry_matches beyond img 3 name
        (((get_superblock img).root_dir_start_block + j) * (get_superblock img).block_size
          + 64 * i) = false) :
    get_superblock r.img = get_superblock img ∧
    load_fat r.img (get_superblock img) = r.fat ∧
    scan_chain beyond r.img r.fat (get_superblock img) 3 name
      (get_superblock img).root_dir_block_count (get_superblock img).root_dir_start_block
      = some (((get_superblock img).root_dir_start_block + j0) * (get_superblock img).block_size
        + 64 * i0) ∧
    (read_entry r.img (((get_superblock img).root_dir_start_block + j0)
      * (get_superblock img).block_size + 64 * i0)).start_block = b0 ∧
    (read_entry r.img (((get_superblock img).root_dir_start_block + j0)
      * (get_superblock img).block_size + 64 * i0)).status = 3 := by
  obtain ⟨g1, g2, g3, ⟨M, g4⟩, _⟩ := put_done_reads img now data name _ b0 nb r hwf hd
    ((get_superblock img).root_dir_start_block + j0) i0 (by omega) (by omega) hi0 rfl
  obtain ⟨hB, hoff, _⟩ := wf_basic img hwf
  have hrin := hwf.root_inside
  have hN : (get_superblock img).file_system_block_count < 4294967296 := be32_lt _ _
  have hblk : ∀ b ∈ b0 :: nb, fat_entry (load_fat img (get_superblock img)) b = 0 := by
    intro b hb
    rcases List.mem_cons.1 hb with rfl | hb
    · exact hd.first_free.2.1
    · exact (hd.rest_free b hb).2
  have hbR : ∀ b ∈ b0 :: nb, b < (get_superblock img).root_dir_start_block ∨
      (get_superblock img).root_dir_start_block + (get_superblock img).root_dir_block_count ≤ b :=
    fun b hb => block_not_used _ _ _ _ hwf.root_used (hblk b hb)
  -- the root chain is unchanged
  have hchain : ∀ i, i + 1 < (get_superblock img).root_dir_block_count →
      fat_entry r.fat ((get_superblock img).root_dir_start_block + i)
        = (get_superblock img).root_dir_start_block + i + 1 := by
    intro i hi
    rw [fat_entry_congr (load_fat img (get_superblock img)) r.fat _
      (fun k hk1 hk2 => hd.fat_frame k (fun b hb => by have := hbR b hb; omega))]
    exact hwf.root_chain i hi
  have hslot : ∀ j, j < (get_superblock img).root_dir_block_count → ∀ i,
      dir_slot r.fat (get_superblock img) (get_superblock img).root_dir_start_block j i
        = ((get_superblock img).root_dir_start_block + j) * (get_superblock img).block_size
          + 64 * i := by
    intro j hj i
    unfold dir_slot
    rw [chain_block_consecutive r.fat j _ (fun i2 hi2 => hchain i2 (by omega)),
      hoff _ (by omega)]
    rfl
  have hent := hd.entry
  have hmatch : entry_matches beyond r.img 3 name
      (((get_superblock img).root_dir_start_block + j0) * (get_superblock img).block_size
        + 64 * i0) = true := by
    rw [g4]
    apply entry_matches_written _ _ _ _ _ _ _ hname hchars
    · rw [hent]; rfl
    · rw [hent]; rfl
    · rw [hent]; exact rdBytes_length _ _ _
  refine ⟨get_superblock_congr _ _ g1, g2, ?_, ?_, ?_⟩
  · rw [← hslot j0 hj0 i0]
    apply scan_chain_first _ _ _ _ _ _ _ j0 i0 hj0 hi0
    · rw [hslot j0 hj0 i0]
      exact hmatch
    · intro j hj i hi hlt
      rw [hslot j hj i, entry_matches_congr img r.img]
      · exact hbefore j hj i hi hlt
      · intro k hk1 hk2
        have hfit := slot_fits _ i hi
        apply g3 ((get_superblock img).root_dir_start_block + j) (by omega) (by omega) k
          (by omega) (by omega)
        rcases hlt with h | ⟨h1, h2⟩
        · have := block_sep (get_superblock img).block_size
            ((get_superblock img).root_dir_start_block + j)
            ((get_superblock img).root_dir_start_block + j0) (by omega)
          left; omega
        · subst h1
          left; omega
  · rw [g4]
    show be32 _ _ = b0
    rw [be32_wrBytes_entry_start _ _ _ (by
      rw [hent]
      show b0 < 4294967296
      have := hd.first_free.1
      omega)]
    rw [hent]; rfl
  · rw [g4]
    show rd8 _ _ = 3
    unfold rd8
    rw [(wrBytes_entry_head _ _ _).1, hent]
    rfl

theorem root_put_extract (img : Mem) (now : dir_entry_timedate_t) (data name : List Nat)
    (b0 : Nat) (nb : List Nat) (r : put_result) (hwf : well_formed img) (j0 i0 : Nat)
    (hj0 : j0 < (get_superblock img).root_dir_block_count)
    (hi0 : i0 < slots (get_superblock img))
    (hd : put_done img now data name
      (((get_superblock img).root_dir_start_block + j0) * (get_superblock img).block_size
        + 64 * i0) b0 nb r)
    (hpay : ∀ x ∈ data, x < 256) :
    ∃ out, read_chain r.img r.fat (get_superblock img) 4294967296 b0 = some out ∧
      out.take data.length = data := by
  obtain ⟨_, _, _, _, g5⟩ := put_done_reads img now data name _ b0 nb r hwf hd
    ((get_superblock img).root_dir_start_block + j0) i0 (by omega) (by omega) hi0 rfl
  obtain ⟨hB, hoff, _⟩ := wf_basic img hwf
  have hN : (get_superblock img).file_system_block_count < 4294967296 := be32_lt _ _
  have hblk : ∀ b ∈ b0 :: nb, b < (get_superblock img).file_system_block_count := by
    intro b hb
    rcases List.mem_cons.1 hb with rfl | hb
    · exact hd.first_free.1
    · exact (hd.rest_free b hb).1
  have hlast := hblk _ (List.getLastD_mem_cons nb b0)
  have hcl := chain_length_le b0 nb hd.increasing
  have hread := read_chain_linked r.img r.fat (get_superblock img) b0 nb hd.chain
    (fun b hb => by have := hblk b hb; omega) 4294967296 (by omega)
  refine ⟨_, hread, ?_⟩
  by_cases hdata : data = []
  · subst hdata
    simp
  · have hpos : 0 < data.length := List.length_pos.2 hdata
    have hclen := fread_chunks_length _ hB data.length data (le_refl _)
    have hcpos : 0 < (data.length + (get_superblock img).block_size - 1)
        / (get_superblock img).block_size := Nat.div_pos (by omega) hB
    obtain ⟨pad, hpad⟩ := blocks_join r.img (get_superblock img) hB data.length data (b0 :: nb)
      (le_refl _) (by rw [List.length_cons, hd.count]; omega)
      (by
        intro p hp
        obtain ⟨p1, p2⟩ := p
        obtain ⟨hp1, hp2⟩ := List.of_mem_zip hp
        rw [hoff p1 (hblk p1 hp1)]
        apply rdBytes_eq
        intro i hi
        unfold rd8
        rw [g5 (p1, p2) hp i hi]
        apply Nat.mod_eq_of_lt
        rw [List.getD_eq_getElem _ _ hi]
        exact hpay _ (fread_chunks_subset _ _ _ p2 hp2 _ (List.getElem_mem _)))
    rw [hpad, List.take_left']
    rfl

theorem be16_wrBytes_enc16 (m : Mem) (k v : Nat) (hv : v < 65536) :
    be16 (wrBytes m k (enc16 v)) k = v := by
  have e0 : wrBytes m k (enc16 v) k = v / 256 % 256 := by
    have := wrBytes_inside m k (enc16 v) 0 (by simp [enc16])
    simpa [enc16] using this
  have e1 : wrBytes m k (enc16 v) (k + 1) = v % 256 := by
    have := wrBytes_inside m k (enc16 v) 1 (by simp [enc16])
    simpa [enc16] using this
  unfold be16 rd8
  rw [e0, e1]
  omega

theorem bytes_of_u32 (v : Nat) (hv : v < 4294967296) :
    ∃ a b c d, a < 256 ∧ b < 256 ∧ c < 256 ∧ d < 256 ∧
      v = ((a * 256 + b) * 256 + c) * 256 + d :=
  ⟨v / 16777216 % 256, v / 65536 % 256, v / 256 % 256, v % 256,
    Nat.mod_lt _ (Nat.succ_pos _), Nat.mod_lt _ (Nat.succ_pos _), Nat.mod_lt _ (Nat.succ_pos _),
    Nat.mod_lt _ (Nat.succ_pos _), by omega⟩

theorem bytes_of_u16 (v : Nat) (hv : v < 65536) :
    ∃ a b, a < 256 ∧ b < 256 ∧ v = a * 256 + b :=
  ⟨v / 256 % 256, v % 256, Nat.mod_lt _ (Nat.succ_pos _), Nat.mod_lt _ (Nat.succ_pos _),
    by omega⟩

theorem div_bytes32 (a b c d : Nat) (ha : a < 256) (hb : b < 256) (hc : c < 256)
    (hd : d < 256) :
    (((a * 256 + b) * 256 + c) * 256 + d) % 256 = d ∧
    (((a * 256 + b) * 256 + c) * 256 + d) / 256 % 256 = c ∧
    (((a * 256 + b) * 256 + c) * 256 + d) / 65536 % 256 = b ∧
    (((a * 256 + b) * 256 + c) * 256 + d) / 16777216 % 256 = a := by
  have h1 : (((a * 256 + b) * 256 + c) * 256 + d) / 256 = (a * 256 + b) * 256 + c := by omega
  have h2 : (((a * 256 + b) * 256 + c) * 256 + d) / 65536 = a * 256 + b := by
    rw [show 65536 = 256 * 256 by norm_num, ← Nat.div_div_eq_div_mul, h1]
    omega
  have h3 : (((a * 256 + b) * 256 + c) * 256 + d) / 16777216 = a := by
    rw [show 16777216 = 256 * 256 * 256 by norm_num, ← Nat.div_div_eq_div_mul,
      ← Nat.div_div_eq_div_mul, h1]
    omega
  rw [h1, h2, h3]
  omega

theorem div_bytes16 (a b : Nat) (ha : a < 256) (hb : b < 256) :
    (a * 256 + b) % 256 = b ∧ (a * 256 + b) / 256 % 256 = a := by
  have h1 : (a * 256 + b) / 256 = a := by omega
  rw [h1]
  omega

theorem bswap32_bytes (a b c d : Nat) (ha : a < 256) (hb : b < 256) (hc : c < 256)
    (hd : d < 256) :
    bswap32 (((a * 256 + b) * 256 + c) * 256 + d) = ((d * 256 + c) * 256 + b) * 256 + a := by
  obtain ⟨e0, e1, e2, e3⟩ := div_bytes32 a b c d ha hb hc hd
  unfold bswap32
  rw [e0, e1, e2, e3]
  omega

theorem bswap16_bytes (a b : Nat) (ha : a < 256) (hb : b < 256) :
    bswap16 (a * 256 + b) = b * 256 + a := by
  obtain ⟨e0, e1⟩ := div_bytes16 a b ha hb
  unfold bswap16
  rw [e0, e1]

theorem bswap32_bswap32 (v : Nat) (hv : v < 4294967296) : bswap32 (bswap32 v) = v := by
  obtain ⟨a, b, c, d, ha, hb, hc, hd, rfl⟩ := bytes_of_u32 v hv
  rw [bswap32_bytes a b c d ha hb hc hd, bswap32_bytes d c b a hd hc hb ha]

theorem bswap16_bswap16 (v : Nat) (hv : v < 65536) : bswap16 (bswap16 v) = v := by
  obtain ⟨a, b, ha, hb, rfl⟩ := bytes_of_u16 v hv
  rw [bswap16_bytes a b ha hb, bswap16_bytes b a hb ha]

theorem bswap32_lt (v : Nat) : bswap32 v < 4294967296 := by
  unfold bswap32
  omega

theorem bswap16_lt (v : Nat) : bswap16 v < 65536 := by
  unfold bswap16
  omega

theorem htonl_htonl (little : Bool) (v : Nat) (hv : v < 4294967296) :
    htonl little (htonl little v) = v := by
  cases little
  · simp only [htonl, Bool.false_eq_true, if_false]
    rw [Nat.mod_eq_of_lt hv, Nat.mod_eq_of_lt hv]
  · simp only [htonl, if_true]
    rw [Nat.mod_eq_of_lt hv, Nat.mod_eq_of_lt (bswap32_lt v), bswap32_bswap32 v hv]

theorem htons_htons (little : Bool) (v : Nat) (hv : v < 65536) :
    htons little (htons little v) = v := by
  cases little
  · simp only [htons, Bool.false_eq_true, if_false]
    rw [Nat.mod_eq_of_lt hv, Nat.mod_eq_of_lt hv]
  · simp only [htons, if_true]
    rw [Nat.mod_eq_of_lt hv, Nat.mod_eq_of_lt (bswap16_lt v), bswap16_bswap16 v hv]

theorem htonl_host32 (little : Bool) (m : Mem) (k : Nat) :
    htonl little (host32 little m k) = be32 m k := by
  have h0 := rd8_lt m k
  have h1 := rd8_lt m (k + 1)
  have h2 := rd8_lt m (k + 2)
  have h3 := rd8_lt m (k + 3)
  cases little
  · simp only [htonl, host32, Bool.false_eq_true, if_false]
    exact Nat.mod_eq_of_lt (be32_lt m k)
  · simp only [htonl, host32, if_true]
    rw [Nat.mod_eq_of_lt (by omega), bswap32_bytes _ _ _ _ h3 h2 h1 h0]
    rfl

theorem htons_host16 (little : Bool) (m : Mem) (k : Nat) :
    htons little (host16 little m k) = be16 m k := by
  have h0 := rd8_lt m k
  have h1 := rd8_lt m (k + 1)
  cases little
  · simp only [htons, host16, Bool.false_eq_true, if_false]
    unfold be16
    omega
  · simp only [htons, host16, if_true]
    rw [Nat.mod_eq_of_lt (by omega), bswap16_bytes _ _ h1 h0]
    rfl

theorem host32_bytes_htonl (little : Bool) (v : Nat) (hv : v < 4294967296) :
    host32_bytes little (htonl little v) = enc32 v := by
  cases little
  · simp only [htonl, host32_bytes, Bool.false_eq_true, if_false, enc32]
    rw [Nat.mod_eq_of_lt hv]
  · simp only [htonl, host32_bytes, if_true, enc32]
    rw [Nat.mod_eq_of_lt hv]
    obtain ⟨a, b, c, d, ha, hb, hc, hd, hx⟩ := bytes_of_u32 v hv
    obtain ⟨e0, e1, e2, e3⟩ := div_bytes32 a b c d ha hb hc hd
    obtain ⟨f0, f1, f2, f3⟩ := div_bytes32 d c b a hd hc hb ha
    rw [hx, bswap32_bytes a b c d ha hb hc hd, e0, e1, e2, e3, f0, f1, f2, f3]

theorem host16_bytes_htons (little : Bool) (v : Nat) (hv : v < 65536) :
    host16_bytes little (htons little v) = enc16 v := by
  cases little
  · simp only [htons, host16_bytes, Bool.false_eq_true, if_false, enc16]
    rw [Nat.mod_eq_of_lt hv]
  · simp only [htons, host16_bytes, if_true, enc16]
    rw [Nat.mod_eq_of_lt hv]
    obtain ⟨a, b, ha, hb, hx⟩ := bytes_of_u16 v hv
    obtain ⟨e0, e1⟩ := div_bytes16 a b ha hb
    obtain ⟨f0, f1⟩ := div_bytes16 b a hb ha
    rw [hx, bswap16_bytes a b ha hb, e0, e1, f0, f1]

theorem host32_wrBytes (little : Bool) (m : Mem) (k v : Nat) (hv : v < 4294967296) :
    host32 little (wrBytes m k (host32_bytes little v)) k = v := by
  cases little
  · simp only [host32, host32_bytes, Bool.false_eq_true, if_false]
    exact be32_wrBytes_enc32 m k v hv
  · simp only [host32, host32_bytes, if_true]
    have e0 := wrBytes_inside m k [v % 256, v / 256 % 256, v / 65536 % 256, v / 16777216 % 256]
      0 (by simp)
    have e1 := wrBytes_inside m k [v % 256, v / 256 % 256, v / 65536 % 256, v / 16777216 % 256]
      1 (by simp)
    have e2 := wrBytes_inside m k [v % 256, v / 256 % 256, v / 65536 % 256, v / 16777216 % 256]
      2 (by simp)
    have e3 := wrBytes_inside m k [v % 256, v / 256 % 256, v / 65536 % 256, v / 16777216 % 256]
      3 (by simp)
    simp only [Nat.add_zero, List.getD_cons_zero, List.getD_cons_succ] at e0 e1 e2 e3
    unfold rd8
    rw [e0, e1, e2, e3]
    omega

theorem host16_wrBytes (little : Bool) (m : Mem) (k v : Nat) (hv : v < 65536) :
    host16 little (wrBytes m k (host16_bytes little v)) k = v := by
  cases little
  · simp only [host16, host16_bytes, Bool.false_eq_true, if_false]
    exact be16_wrBytes_enc16 m k v hv
  · simp only [host16, host16_bytes, if_true]
    have e0 := wrBytes_inside m k [v % 256, v / 256 % 256] 0 (by simp)
    have e1 := wrBytes_inside m k [v % 256, v / 256 % 256] 1 (by simp)
    simp only [Nat.add_zero, List.getD_cons_zero, List.getD_cons_succ] at e0 e1
    unfold rd8
    rw [e0, e1]
    omega

theorem wrBytes_entry_years (m : Mem) (k : Nat) (e : dir_entry_t) :
    wrBytes m k (encode_entry e) (k + 13) = e.create_time.year / 256 % 256 ∧
    wrBytes m k (encode_entry e) (k + 14) = e.create_time.year % 256 ∧
    wrBytes m k (encode_entry e) (k + 20) = e.modify_time.year / 256 % 256 ∧
    wrBytes m k (encode_entry e) (k + 21) = e.modify_time.year % 256 := by
  have hlen : 27 ≤ (encode_entry e).length := by
    rw [encode_entry_head]
    simp
  have e13 := wrBytes_inside m k (encode_entry e) 13 (by omega)
  have e14 := wrBytes_inside m k (encode_entry e) 14 (by omega)
  have e20 := wrBytes_inside m k (encode_entry e) 20 (by omega)
  have e21 := wrBytes_inside m k (encode_entry e) 21 (by omega)
  refine ⟨?_, ?_, ?_, ?_⟩
  · rw [e13, encode_entry_head]; rfl
  · rw [e14, encode_entry_head]; rfl
  · rw [e20, encode_entry_head]; rfl
  · rw [e21, encode_entry_head]; rfl

theorem read_entry_written (m : Mem) (k : Nat) (e : dir_entry_t)
    (h1 : e.start_block < 4294967296) (h2 : e.block_count < 4294967296)
    (h3 : e.size < 4294967296) (h4 : e.create_time.year < 65536)
    (h5 : e.modify_time.year < 65536) :
    (read_entry (wrBytes m k (encode_entry e)) k).start_block = e.start_block ∧
    (read_entry (wrBytes m k (encode_entry e)) k).block_count = e.block_count ∧
    (read_entry (wrBytes m k (encode_entry e)) k).size = e.size ∧
    (read_entry (wrBytes m k (encode_entry e)) k).create_time.year = e.create_time.year ∧
    (read_entry (wrBytes m k (encode_entry e)) k).modify_time.year = e.modify_time.year := by
  obtain ⟨_, a1, a2, a3, a4, a5, a6, a7, a8, a9, a10, a11, a12⟩ := wrBytes_entry_head m k e
  obtain ⟨y1, y2, y3, y4⟩ := wrBytes_entry_years m k e
  refine ⟨?_, ?_, ?_, ?_, ?_⟩
  · show be32 _ (k + 1) = _
    unfold be32 rd8
    rw [show k + 1 + 1 = k + 2 by omega, show k + 1 + 2 = k + 3 by omega,
      show k + 1 + 3 = k + 4 by omega, a1, a2, a3, a4]
    omega
  · show be32 _ (k + 5) = _
    unfold be32 rd8
    rw [show k + 5 + 1 = k + 6 by omega, show k + 5 + 2 = k + 7 by omega,
      show k + 5 + 3 = k + 8 by omega, a5, a6, a7, a8]
    omega
  · show be32 _ (k + 9) = _
    unfold be32 rd8
    rw [show k + 9 + 1 = k + 10 by omega, show k + 9 + 2 = k + 11 by omega,
      show k + 9 + 3 = k + 12 by omega, a9, a10, a11, a12]
    omega
  · show be16 _ (k + 13) = _
    unfold be16 rd8
    rw [show k + 13 + 1 = k + 14 by omega, y1, y2]
    omega
  · show be16 _ (k + 20) = _
    unfold be16 rd8
    rw [show k + 20 + 1 = k + 21 by omega, y3, y4]
    omega

/-! ## Walks along the table -/

theorem walks_unique (fat : Mem) (cur : Nat) (l1 l2 : List Nat) (h1 : walks fat cur l1)
    (h2 : walks fat cur l2) : l1 = l2 := by
  induction l1 generalizing cur l2 with
  | nil =>
    cases l2 with
    | nil => rfl
    | cons b rest =>
      simp only [walks] at h1 h2
      exact absurd (h2.1 ▸ h1) h2.2.1
  | cons a as ih =>
    cases l2 with
    | nil =>
      simp only [walks] at h1 h2
      exact absurd (h1.1 ▸ h2) h1.2.1
    | cons b rest =>
      simp only [walks] at h1 h2
      have hab : a = b := by rw [← h1.1, ← h2.1]
      subst hab
      rw [ih _ _ h1.2.2 h2.2.2]

theorem walks_suffix (fat : Mem) (cur : Nat) (pre : List Nat) (x : Nat) (post : List Nat)
    (h : walks fat cur (pre ++ x :: post)) : walks fat x (x :: post) := by
  induction pre generalizing cur with
  | nil =>
    simp only [List.nil_append, walks] at h
    simp only [walks]
    exact ⟨trivial, h.2.1, h.2.2⟩
  | cons a as ih =>
    simp only [List.cons_append, walks] at h
    exact ih _ h.2.2

theorem walks_nodup (fat : Mem) (cur : Nat) (l : List Nat) (h : walks fat cur l) : l.Nodup := by
  induction l generalizing cur with
  | nil => exact List.nodup_nil
  | cons a as ih =>
    have h0 := h
    simp only [walks] at h
    rw [List.nodup_cons]
    refine ⟨?_, ih _ h.2.2⟩
    intro hmem
    obtain ⟨pre, post, hsplit⟩ := List.append_of_mem hmem
    have h1 : walks fat a (a :: post) := by
      have := h.2.2
      rw [hsplit] at this
      exact walks_suffix fat _ pre a post this
    have h2 : walks fat a (a :: as) := by
      simp only [walks]
      exact ⟨trivial, h.2.1, h.2.2⟩
    have heq := walks_unique fat a _ _ h1 h2
    have hlen := congrArg List.length heq
    rw [hsplit] at hlen
    simp at hlen
    omega

theorem walks_lt (fat : Mem) (cur : Nat) (l : List Nat) (hcur : cur < 4294967296)
    (h : walks fat cur l) : ∀ b ∈ l, b < 4294967295 := by
  induction l generalizing cur with
  | nil => intro b hb; cases hb
  | cons a as ih =>
    simp only [walks] at h
    intro b hb
    rcases List.mem_cons.1 hb with rfl | hb
    · have := h.2.1
      omega
    · exact ih _ (fat_entry_lt fat a) h.2.2 b hb

theorem walks_length (fat : Mem) (cur : Nat) (l : List Nat) (hcur : cur < 4294967296)
    (h : walks fat cur l) : l.length ≤ 4294967295 := by
  have hnd := walks_nodup fat cur l h
  have hlt := walks_lt fat cur l hcur h
  have hsub : l.toFinset ⊆ Finset.range 4294967295 := by
    intro x hx
    rw [List.mem_toFinset] at hx
    rw [Finset.mem_range]
    exact hlt x hx
  have hcard := Finset.card_le_card hsub
  rw [List.toFinset_card_of_nodup hnd, Finset.card_range] at hcard
  exact hcard

theorem read_chain_walks (img fat : Mem) (sb : super_block) (cur : Nat) (l : List Nat)
    (h : walks fat cur l) (fuel : Nat) (hfuel : l.length < fuel) :
    read_chain img fat sb fuel cur
      = some ((l.map (fun b => rdBytes img (block_off sb b) sb.block_size)).flatten) := by
  induction l generalizing cur fuel with
  | nil =>
    obtain ⟨f, rfl⟩ : ∃ f, fuel = f + 1 := ⟨fuel - 1, by simp at hfuel; omega⟩
    simp only [walks] at h
    simp [read_chain, h]
  | cons a as ih =>
    obtain ⟨f, rfl⟩ : ∃ f, fuel = f + 1 := ⟨fuel - 1, by simp at hfuel; omega⟩
    simp only [walks] at h
    obtain ⟨h1, h2, h3⟩ := h
    subst h1
    have := ih _ h3 f (by simp at hfuel; omega)
    simp [read_chain, h2, this]

theorem flatten_blocks_length (img : Mem) (sb : super_block) (l : List Nat) :
    ((l.map (fun b => rdBytes img (block_off sb b) sb.block_size)).flatten).length
      = l.length * sb.block_size := by
  induction l with
  | nil => simp
  | cons a as ih =>
    rw [List.map_cons, List.flatten_cons, List.length_append, ih, rdBytes_length,
      List.length_cons, Nat.succ_mul]
    omega

theorem walks_of_chain_to (fat : Mem) (b0 : Nat) (nb : List Nat)
    (hch : chain_to fat 4294967295 b0 nb) (hne : ∀ b ∈ b0 :: nb, b ≠ 4294967295) :
    walks fat b0 (b0 :: nb) := by
  induction nb generalizing b0 with
  | nil =>
    simp only [chain_to] at hch
    simp only [walks]
    exact ⟨trivial, hne b0 (List.mem_cons_self _ _), hch⟩
  | cons x xs ih =>
    simp only [chain_to] at hch
    have := ih x hch.2 (fun b hb => hne b (List.mem_cons_of_mem _ hb))
    simp only [walks] at this ⊢
    exact ⟨trivial, hne b0 (List.mem_cons_self _ _), hch.1, this.2.1, this.2.2⟩

theorem find_file_start_lt {heap : heap_after} (img : Mem) (uninit : dir_entry_t) (path : List Nat)
    (e : dir_entry_t) (h : find_file heap img uninit path = some e) :
    e.start_block < 4294967296 := by
  unfold find_file at h
  split at h
  · cases h
  · split at h
    · cases h
    · cases h
      exact be32_lt _ _

/-! ## The frame of diskput for any directory -/

theorem scan_free_some (img : Mem) (sb : super_block) (n cur pos : Nat)
    (hrange : cur + n ≤ 4294967296) (h : scan_free img sb n cur = some pos) :
    ∃ j, j < n ∧ ∃ i, i < slots sb ∧ pos = block_off sb (cur + j) + entry_size * i ∧
      rd8 img pos = 0 := by
  induction n generalizing cur with
  | zero => simp [scan_free] at h
  | succ n ih =>
    unfold scan_free at h
    cases hfs : first_slot (fun i => rd8 img (block_off sb cur + entry_size * i) == 0)
        (slots sb) 0 with
    | some i =>
      rw [hfs] at h
      simp only [Option.some.injEq] at h
      obtain ⟨_, hi, hp, _⟩ := first_slot_some _ _ _ _ hfs
      simp only [beq_iff_eq] at hp
      exact ⟨0, Nat.succ_pos _, i, by omega, by rw [← h]; rfl, by rw [← h]; exact hp⟩
    | none =>
      rw [hfs] at h
      simp only at h
      have hn : 0 < n := by
        cases n with
        | zero => simp [scan_free] at h
        | succ m => exact Nat.succ_pos _
      have hcur : u32 (cur + 1) = cur + 1 := u32_of_lt _ (by omega)
      rw [hcur] at h
      obtain ⟨j, hj, i, hi, hpos, hz⟩ := ih (cur + 1) (by omega) h
      exact ⟨j + 1, by omega, i, hi, by rw [hpos, show cur + 1 + j = cur + (j + 1) by omega], hz⟩

theorem put_done_frame (img : Mem) (now : dir_entry_timedate_t) (data name : List Nat)
    (pos b0 : Nat) (nb : List Nat) (r : put_result) (hwf : well_formed img)
    (hd : put_done img now data name pos b0 nb r) (X i0 : Nat)
    (hX0 : 1 ≤ X)
    (hXN : X < (get_superblock img).file_system_block_count)
    (hXF : X < (get_superblock img).fat_start_block ∨
      (get_superblock img).fat_start_block + (get_superblock img).fat_block_count ≤ X)
    (hi0 : i0 < slots (get_superblock img))
    (hpos : pos = X * (get_superblock img).block_size + 64 * i0) :
    (∀ k, k < 30 → r.img k = img k) ∧
    load_fat r.img (get_superblock img) = r.fat ∧
    (∀ Y, Y < (get_superblock img).file_system_block_count →
      (Y < (get_superblock img).fat_start_block ∨
        (get_superblock img).fat_start_block + (get_superblock img).fat_block_count ≤ Y) →
      fat_entry (load_fat img (get_superblock img)) Y ≠ 0 →
      ∀ k, Y * (get_superblock img).block_size ≤ k →
        k < Y * (get_superblock img).block_size + (get_superblock img).block_size →
        (k < pos ∨ pos + 64 ≤ k) → r.img k = img k) ∧
    (∃ M, r.img = wrBytes M pos (encode_entry r.entry)) ∧
    r.entry_address = pos := by
  obtain ⟨hB, hoff, hFoff, hFbytes, hF1, hR1⟩ := wf_basic img hwf
  have haddr := hwf.addressable
  have htable := hwf.table_holds
  have hfin := hwf.fat_inside
  have hfit : 64 * i0 + 64 ≤ (get_superblock img).block_size := slot_fits _ i0 hi0
  have hXsep := block_sep (get_superblock img).block_size X _ hXN
  have hXR := Nat.mul_le_mul_right (get_superblock img).block_size hX0
  rw [Nat.one_mul] at hXR
  have hpos32 : u32 pos = pos := u32_of_lt _ (by omega)
  have hblk : ∀ b ∈ b0 :: nb, b < (get_superblock img).file_system_block_count ∧
      fat_entry (load_fat img (get_superblock img)) b = 0 := by
    intro b hb
    rcases List.mem_cons.1 hb with rfl | hb
    · exact ⟨hd.first_free.1, hd.first_free.2.1⟩
    · exact hd.rest_free b hb
  have hb0 : ∀ b ∈ b0 :: nb, b ≠ 0 := by
    intro b hb he
    rw [he] at hb
    exact hwf.super_used (hblk 0 hb).2
  have hlenE := put_entry_length img now name pos b0 (u32 data.length) (u32 (1 + data.length))
  have hlenE0 := put_entry_length img now name pos b0 0 1
  have himg := hd.image
  rw [hpos32, hFoff, hFbytes, hd.entry] at himg
  have hframe : ∀ (m : Mem) (Y k : Nat), Y * (get_superblock img).block_size ≤ k →
      k < Y * (get_superblock img).block_size + (get_superblock img).block_size →
      (∀ b ∈ b0 :: nb, b ≠ Y) →
      write_all (get_superblock img) m ((b0 :: nb).zip
        (fread_chunks (get_superblock img).block_size data.length data)) k = m k := by
    intro m Y k hk1 hk2 hne
    apply write_all_frame
    intro p hp
    obtain ⟨p1, p2⟩ := p
    obtain ⟨hp1, hp2⟩ := List.of_mem_zip hp
    rw [hoff p1 (hblk p1 hp1).1]
    exact block_apart _ _ _ _ _ (hne p1 hp1) hk1 hk2 (fread_chunks_le _ _ _ p2 hp2)
  refine ⟨?_, ?_, ?_, ⟨_, by rw [himg, hd.entry]⟩, by rw [hd.address, hpos32]⟩
  · intro k hk
    have hB30 := hwf.super_fits
    rw [himg, wrBytes_outside _ _ _ _ (by omega), blit_outside _ _ _ _ _ (by omega),
      hframe _ 0 k (by omega) (by omega) (fun b hb => hb0 b hb),
      wrBytes_outside _ _ _ _ (by omega)]
  · funext k
    unfold load_fat
    rw [hFbytes, hFoff]
    by_cases hk : k < (get_superblock img).fat_block_count * (get_superblock img).block_size
    · rw [if_pos hk, himg]
      have hout : (get_superblock img).fat_start_block * (get_superblock img).block_size + k < pos ∨
          pos + (encode_entry (put_entry img now name pos b0 (u32 data.length)
            (u32 (1 + data.length)))).length
            ≤ (get_superblock img).fat_start_block * (get_superblock img).block_size + k := by
        rw [hlenE]
        rcases hXF with h | h
        · have := block_sep (get_superblock img).block_size X _ h
          right; omega
        · have := Nat.mul_le_mul_right (get_superblock img).block_size h
          rw [Nat.add_mul] at this
          left; omega
      rw [wrBytes_outside _ _ _ _ hout, blit_inside _ _ _ _ _ (by omega) (by omega),
        Nat.add_sub_cancel_left]
    · rw [if_neg hk, hd.fat_frame k (fun b hb => by have := (hblk b hb).1; omega)]
      unfold load_fat
      rw [hFbytes, if_neg hk]
  · intro Y hYN hYF hYU k hk1 hk2 hkpos
    rw [himg, wrBytes_outside _ _ _ _ (by rw [hlenE]; exact hkpos),
      blit_outside _ _ _ _ _ (region_apart _ _ _ _ _ hYF hk1 hk2),
      hframe _ Y k hk1 hk2 (fun b hb he => hYU (he ▸ (hblk b hb).2)),
      wrBytes_outside _ _ _ _ (by rw [hlenE0]; exact hkpos)]

/-! ## A put into a directory of a well-formed image -/

theorem chain_length_lt (b0 : Nat) (nb : List Nat) (N : Nat)
    (hinc : List.Chain (fun x y => x < y) b0 nb) (hall : ∀ b ∈ b0 :: nb, b < N) :
    b0 + nb.length < N := by
  induction nb generalizing b0 with
  | nil => simpa using hall b0 (List.mem_cons_self _ _)
  | cons x xs ih =>
    rw [List.chain_cons] at hinc
    have := ih x hinc.2 (fun b hb => hall b (List.mem_cons_of_mem _ hb))
    rw [List.length_cons]
    omega

theorem chain_nodup (b0 : Nat) (nb : List Nat) (hinc : List.Chain (fun x y => x < y) b0 nb) :
    (b0 :: nb).Nodup := by
  induction nb generalizing b0 with
  | nil => simp
  | cons x xs ih =>
    have hlt := chain_lt_of_mem b0 (x :: xs) hinc
    rw [List.chain_cons] at hinc
    rw [List.nodup_cons]
    refine ⟨?_, ih x hinc.2⟩
    intro hmem
    have := hlt b0 hmem
    omega

theorem put_done_blocks (img : Mem) (now : dir_entry_timedate_t) (data name : List Nat)
    (pos b0 : Nat) (nb : List Nat) (r : put_result) (hd : put_done img now data name pos b0 nb r) :
    ∀ b ∈ b0 :: nb, b < (get_superblock img).file_system_block_count ∧
      fat_entry (load_fat img (get_superblock img)) b = 0 := by
  intro b hb
  rcases List.mem_cons.1 hb with rfl | hb
  · exact ⟨hd.first_free.1, hd.first_free.2.1⟩
  · exact hd.rest_free b hb

theorem put_size_lt (img : Mem) (now : dir_entry_timedate_t) (data name : List Nat)
    (pos b0 : Nat) (nb : List Nat) (r : put_result) (hwf : well_formed img)
    (hd : put_done img now data name pos b0 nb r) : data.length < 4294967296 := by
  have hB : 0 < (get_superblock img).block_size := (wf_basic img hwf).1
  have hblk := put_done_blocks img now data name pos b0 nb r hd
  have hlt := chain_length_lt b0 nb _ hd.increasing (fun b hb => (hblk b hb).1)
  have hb0 : b0 ≠ 0 := by
    intro he
    exact hwf.super_used (he ▸ hd.first_free.2.1)
  have hcount := hd.count
  rw [fread_chunks_length _ hB data.length data (le_refl _)] at hcount
  have haddr := hwf.addressable
  have hdm := Nat.div_add_mod (data.length + (get_superblock img).block_size - 1)
    (get_superblock img).block_size
  have hml := Nat.mod_lt (data.length + (get_superblock img).block_size - 1) hB
  have hq : (data.length + (get_superblock img).block_size - 1) / (get_superblock img).block_size
      + 1 ≤ (get_superblock img).file_system_block_count := by omega
  have hmul := Nat.mul_le_mul_left (get_superblock img).block_size hq
  rw [Nat.mul_add, Nat.mul_one, Nat.mul_comm _ (get_superblock img).file_system_block_count]
    at hmul
  omega

theorem scan_fuel_dir (img : Mem) (start count : Nat) (hdir : dir_region img start count) :
    scan_fuel start (last_block_of start count) = count := by
  obtain ⟨h1, h2, _, _⟩ := hdir
  have hN : (get_superblock img).file_system_block_count < 4294967296 := be32_lt _ _
  rw [last_block_of_eq start count (by omega) (by omega)]
  unfold scan_fuel
  rw [if_neg (by omega)]
  omega

theorem diskput_dir_done {heap : heap_after} (img : Mem) (uninit : dir_entry_t) (now :
    dir_entry_timedate_t)
    (data dest name : List Nat) (start count pos : Nat) (hwf : well_formed img)
    (ht : put_target heap img uninit dest = some (name, start, count))
    (hdir : dir_region img start count)
    (hs : scan_free img (get_superblock img) (scan_fuel start (last_block_of start count)) start
      = some pos)
    (hfree1 : 1 ≤ free_count (load_fat img (get_superblock img))
      (get_superblock img).file_system_block_count)
    (hfree : (data.length + (get_superblock img).block_size - 1) / (get_superblock img).block_size
      ≤ free_count (load_fat img (get_superblock img))
        (get_superblock img).file_system_block_count) :
    ∃ b0 nb j0 i0, put_done img now data name pos b0 nb (diskput heap img uninit now (some data)
        dest) ∧
      j0 < count ∧ i0 < slots (get_superblock img) ∧
      pos = (start + j0) * (get_superblock img).block_size + 64 * i0 ∧ rd8 img pos = 0 := by
  obtain ⟨b0, nb, hd⟩ := diskput_runs img uninit now data dest name start count pos ht hs
    hfree1 hfree
  have hfuel := scan_fuel_dir img start count hdir
  rw [hfuel] at hs
  have hN : (get_superblock img).file_system_block_count < 4294967296 := be32_lt _ _
  obtain ⟨j0, hj0, i0, hi0, hpos, hz⟩ := scan_free_some img _ count start pos
    (by have := hdir.2.1; omega) hs
  refine ⟨b0, nb, j0, i0, hd, hj0, hi0, ?_, hz⟩
  rw [hpos, (wf_basic img hwf).2.1 (start + j0) (by have := hdir.2.1; omega)]
  rfl

theorem slot_apart (B X i0 Y i : Nat) (hi0 : 64 * i0 + 64 ≤ B) (hi : 64 * i + 64 ≤ B)
    (hne : Y * B + 64 * i ≠ X * B + 64 * i0) (k : Nat) (hk1 : Y * B + 64 * i ≤ k)
    (hk2 : k < Y * B + 64 * i + 64) :
    k < X * B + 64 * i0 ∨ X * B + 64 * i0 + 64 ≤ k := by
  rcases Nat.lt_trichotomy Y X with h | h | h
  · have := block_sep B Y X h
    left; omega
  · subst h
    omega
  · have := block_sep B X Y h
    right; omega

/-! ## The entry stored and the listing -/

theorem strncpy31_lt (name : List Nat) (hchars : ∀ c ∈ name, c < 256) :
    ∀ x ∈ strncpy31 name, x < 256 := by
  intro x hx
  unfold strncpy31 at hx
  rcases List.mem_append.1 hx with h | h
  · exact hchars x (List.mem_of_mem_take h)
  · rw [List.eq_of_mem_replicate h]
    norm_num

theorem read_entry_name (m : Mem) (k : Nat) (e : dir_entry_t) (name : List Nat)
    (hf : e.filename = strncpy31 name) (hu : e.unused.length = 6)
    (hchars : ∀ c ∈ name, c < 256) :
    (read_entry (wrBytes m k (encode_entry e)) k).filename = strncpy31 name := by
  have hflen : e.filename.length = 31 := by rw [hf]; exact strncpy31_length name
  have h37 := rdBytes_entry_name m k e hflen hu
  rw [show 37 = 31 + 6 by norm_num, rdBytes_split, List.map_append] at h37
  have h31 := List.append_inj_left h37 (by rw [rdBytes_length, List.length_map, hflen])
  show rdBytes _ (k + 27) 31 = _
  rw [h31, hf, map_mod_of_lt _ (strncpy31_lt name hchars)]

theorem list_offsets (B C : Nat) (hseq : 64 ∣ B ∨ C = 1) (k : Nat) (hk : k < C * (B / 64)) :
    ∃ j i, j < C ∧ i < B / 64 ∧ 64 * k = j * B + 64 * i := by
  rcases hseq with ⟨s, hs⟩ | hC
  · subst hs
    rw [Nat.mul_div_cancel_left s (by norm_num : 0 < 64)] at hk ⊢
    have hs0 : 0 < s := by
      rcases Nat.eq_zero_or_pos s with h | h
      · rw [h, Nat.mul_zero] at hk
        omega
      · exact h
    refine ⟨k / s, k % s, (Nat.div_lt_iff_lt_mul hs0).2 hk, Nat.mod_lt _ hs0, ?_⟩
    have hdm := Nat.div_add_mod k s
    calc 64 * k = 64 * (s * (k / s) + k % s) := by rw [hdm]
      _ = k / s * (64 * s) + 64 * (k % s) := by ring
  · subst hC
    rw [Nat.one_mul] at hk
    exact ⟨0, k, Nat.one_pos, hk, by omega⟩

theorem slot_index (B C j0 i0 : Nat) (hseq : 64 ∣ B ∨ C = 1) (hj0 : j0 < C)
    (hi0 : i0 < B / 64) :
    ∃ k0, k0 < C * (B / 64) ∧ 64 * k0 = j0 * B + 64 * i0 := by
  refine ⟨j0 * (B / 64) + i0, ?_, ?_⟩
  · have h1 : (j0 + 1) * (B / 64) ≤ C * (B / 64) := Nat.mul_le_mul_right _ hj0
    rw [Nat.succ_mul] at h1
    omega
  · rcases hseq with ⟨s, hs⟩ | hC
    · subst hs
      rw [Nat.mul_div_cancel_left s (by norm_num : 0 < 64)]
      ring
    · subst hC
      have : j0 = 0 := by omega
      subst this
      omega

theorem listing_after (f f2 : Nat → dir_entry_t) (n k0 : Nat) (hk0 : k0 < n)
    (hold : (f k0).status = 0) (hnew : (f2 k0).status ≠ 0)
    (hsame : ∀ k, k < n → k ≠ k0 → f2 k = f k) :
    (∀ e ∈ ((List.range n).map f).filter (fun e => e.status != 0),
      e ∈ ((List.range n).map f2).filter (fun e => e.status != 0)) ∧
    f2 k0 ∈ ((List.range n).map f2).filter (fun e => e.status != 0) ∧
    ∀ e ∈ ((List.range n).map f2).filter (fun e => e.status != 0),
      e ∈ ((List.range n).map f).filter (fun e => e.status != 0) ∨ e = f2 k0 := by
  refine ⟨?_, ?_, ?_⟩
  · intro e he
    rw [List.mem_filter, List.mem_map] at he ⊢
    obtain ⟨⟨k, hk, rfl⟩, hst⟩ := he
    rw [List.mem_range] at hk
    have hne : k ≠ k0 := by
      intro h
      rw [h, hold] at hst
      simp at hst
    exact ⟨⟨k, List.mem_range.2 hk, hsame k hk hne⟩, hst⟩
  · rw [List.mem_filter, List.mem_map]
    exact ⟨⟨k0, List.mem_range.2 hk0, rfl⟩, by simpa using hnew⟩
  · intro e he
    rw [List.mem_filter, List.mem_map] at he
    obtain ⟨⟨k, hk, rfl⟩, hst⟩ := he
    rw [List.mem_range] at hk
    by_cases hne : k = k0
    · right; rw [hne]
    · left
      rw [List.mem_filter, List.mem_map]
      rw [hsame k hk hne] at hst ⊢
      exact ⟨⟨k, List.mem_range.2 hk, rfl⟩, hst⟩

/-! ## What the copy loop leaves alone -/

theorem put_chunks_frame (sb : super_block) (fat0 img0 : Mem) (P : Nat → Prop)
    (hP : ∀ k, P k → ∀ b, b < sb.file_system_block_count → fat_entry fat0 b = 0 →
      k < block_off sb b ∨ block_off sb b + sb.block_size ≤ k)
    (cs : List (List Nat)) (hcs : ∀ c ∈ cs, c.length ≤ sb.block_size)
    (s : put_loop) (ok : Bool) (s2 : put_loop)
    (hrun : put_chunks sb cs s = (ok, s2))
    (hfat : ∀ i, fat_entry fat0 i ≠ 0 → fat_entry s.fat i = fat_entry fat0 i)
    (hprev : fat_entry fat0 s.previous_block = 0)
    (hcur : s.first_block = true →
      s.curr_block_index < sb.file_system_block_count ∧ fat_entry fat0 s.curr_block_index = 0)
    (himg : ∀ k, P k → s.img k = img0 k) :
    (∀ i, fat_entry fat0 i ≠ 0 → fat_entry s2.fat i = fat_entry fat0 i) ∧
    fat_entry fat0 s2.previous_block = 0 ∧
    (∀ k, P k → s2.img k = img0 k) := by
  induction cs generalizing s with
  | nil =>
    simp only [put_chunks, Prod.mk.injEq] at hrun
    obtain ⟨_, rfl⟩ := hrun
    exact ⟨hfat, hprev, himg⟩
  | cons c cs ih =>
    have hc : c.length ≤ sb.block_size := hcs c (List.mem_cons_self _ _)
    have hcs2 : ∀ x ∈ cs, x.length ≤ sb.block_size :=
      fun x hx => hcs x (List.mem_cons_of_mem _ hx)
    unfold put_chunks at hrun
    by_cases hf : s.first_block = true
    · rw [if_pos hf] at hrun
      obtain ⟨hc1, hc2⟩ := hcur hf
      refine ih hcs2 _ hrun hfat hc2 (fun h => by cases h) ?_
      intro k hk
      show wrBytes s.img (block_off sb s.curr_block_index) c k = img0 k
      rw [wrBytes_outside _ _ _ _ (by have := hP k hk _ hc1 hc2; omega)]
      exact himg k hk
    · rw [if_neg hf] at hrun
      cases hg : get_free_block s.fat sb.file_system_block_count with
      | none =>
        rw [hg] at hrun
        simp only [Prod.mk.injEq] at hrun
        obtain ⟨_, rfl⟩ := hrun
        exact ⟨hfat, hprev, himg⟩
      | some r =>
        obtain ⟨b, fat1⟩ := r
        rw [hg] at hrun
        simp only at hrun
        obtain ⟨hbN, hb0, _, hfat1⟩ := get_free_block_some _ _ _ _ hg
        subst hfat1
        have hb00 : fat_entry fat0 b = 0 := by
          by_contra hne
          rw [hfat b hne] at hb0
          exact hne hb0
        refine ih hcs2 _ hrun ?_ hb00 (fun h => absurd h hf) ?_
        · intro i hi
          show fat_entry (fat_set (fat_set s.fat b 1) s.previous_block b) i = fat_entry fat0 i
          have h1 : i ≠ s.previous_block := fun h => hi (h ▸ hprev)
          have h2 : i ≠ b := fun h => hi (h ▸ hb00)
          rw [fat_entry_set_other _ _ _ _ h1, fat_entry_set_other _ _ _ _ h2]
          exact hfat i hi
        · intro k hk
          show wrBytes s.img (block_off sb b) c k = img0 k
          rw [wrBytes_outside _ _ _ _ (by have := hP k hk _ hbN hb00; omega)]
          exact himg k hk

/-! ## The table and the image after any run of diskput -/

theorem diskput_frame_all {heap : heap_after} (img : Mem) (uninit : dir_entry_t) (now :
    dir_entry_timedate_t)
    (src : Option (List Nat)) (dest : List Nat) (P : Nat → Prop)
    (hP : ∀ k, P k → ∀ b, b < (get_superblock img).file_system_block_count →
      fat_entry (load_fat img (get_superblock img)) b = 0 →
      k < block_off (get_superblock img) b ∨
        block_off (get_superblock img) b + (get_superblock img).block_size ≤ k)
    (hslot : ∀ name start count pos, put_target heap img uninit dest = some (name, start, count) →
      scan_free img (get_superblock img) (scan_fuel start (last_block_of start count)) start
        = some pos → ∀ k, P k → k < pos ∨ pos + 64 ≤ k) :
    (∀ i, fat_entry (load_fat img (get_superblock img)) i ≠ 0 →
      fat_entry (diskput heap img uninit now src dest).fat i
        = fat_entry (load_fat img (get_superblock img)) i) ∧
    ((diskput heap img uninit now src dest).status ≠ put_status.done →
      ∀ k, P k → (diskput heap img uninit now src dest).img k = img k) := by
  cases src with
  | none => exact ⟨fun _ _ => rfl, fun _ _ _ => rfl⟩
  | some data =>
    cases ht : put_target heap img uninit dest with
    | none =>
      unfold diskput
      simp only [ht]
      exact ⟨fun _ _ => trivial, fun _ _ _ => trivial⟩
    | some t =>
      obtain ⟨name, start, count⟩ := t
      cases hs : scan_free img (get_superblock img)
          (scan_fuel start (last_block_of start count)) start with
      | none =>
        unfold diskput
        simp only [ht, hs]
        exact ⟨fun _ _ => trivial, fun _ _ _ => trivial⟩
      | some pos =>
        cases hg : get_free_block (load_fat img (get_superblock img))
            (get_superblock img).file_system_block_count with
        | none =>
          unfold diskput
          simp only [ht, hs, hg]
          exact ⟨fun _ _ => trivial, fun _ _ _ => trivial⟩
        | some r =>
          obtain ⟨b0, fat1⟩ := r
          obtain ⟨hb0N, hb0, _, hfat1⟩ := get_free_block_some _ _ _ _ hg
          cases hpc : put_chunks (get_superblock img)
              (fread_chunks (get_superblock img).block_size data.length data)
              ⟨wrBytes img pos (encode_entry (put_entry img now name pos b0 0 1)), fat1,
                put_entry img now name pos b0 0 1, b0, b0, true, [b0]⟩ with
          | mk ok s2 =>
            have hfr := put_chunks_frame (get_superblock img)
              (load_fat img (get_superblock img)) img P hP _ (fread_chunks_le _ _ _) _ ok s2 hpc
              (by
                intro i hi
                show fat_entry fat1 i = _
                rw [hfat1, fat_entry_set_other _ _ _ _ (fun h => hi (by rw [h]; exact hb0))])
              hb0 (fun _ => ⟨hb0N, hb0⟩)
              (by
                intro k hk
                show wrBytes img pos (encode_entry (put_entry img now name pos b0 0 1)) k = img k
                rw [wrBytes_outside _ _ _ _ (by
                  rw [put_entry_length]
                  exact hslot name start count pos ht hs k hk)])
            obtain ⟨h1, h2, h3⟩ := hfr
            cases ok with
            | false =>
              unfold put_entry at hpc
              unfold diskput
              simp only [ht, hs, hg, hpc]
              exact ⟨h1, fun _ => h3⟩
            | true =>
              rw [diskput_eq_done img uninit now data dest name start count pos b0 fat1 s2 ht hs
                hg hpc]
              refine ⟨?_, fun h => absurd rfl h⟩
              intro i hi
              show fat_entry (fat_set s2.fat s2.previous_block 4294967295) i = _
              rw [fat_entry_set_other _ _ _ _ (fun h => hi (by rw [h]; exact h2))]
              exact h1 i hi

theorem chain_to_frame (fat fat2 : Mem) (t b : Nat) (l : List Nat) (ht : t ≠ 0)
    (hl : ∀ x ∈ l, x ≠ 0)
    (hfr : ∀ i, fat_entry fat i ≠ 0 → fat_entry fat2 i = fat_entry fat i)
    (h : chain_to fat t b l) : chain_to fat2 t b l := by
  induction l generalizing b with
  | nil =>
    simp only [chain_to] at h ⊢
    rw [hfr b (by rw [h]; exact ht), h]
  | cons x xs ih =>
    simp only [chain_to] at h ⊢
    have hx := hl x (List.mem_cons_self _ _)
    exact ⟨by rw [hfr b (by rw [h.1]; exact hx), h.1],
      ih x (fun y hy => hl y (List.mem_cons_of_mem _ hy)) h.2⟩

theorem put_done_dir_frame (img : Mem) (now : dir_entry_timedate_t) (data name : List Nat)
    (start count pos b0 : Nat) (nb : List Nat) (r : put_result) (hwf : well_formed img)
    (hdir : dir_region img start count)
    (hs : scan_free img (get_superblock img) (scan_fuel start (last_block_of start count)) start
      = some pos)
    (hd : put_done img now data name pos b0 nb r) :
    get_superblock r.img = get_superblock img ∧ load_fat r.img (get_superblock img) = r.fat := by
  have hfuel := scan_fuel_dir img start count hdir
  rw [hfuel] at hs
  have hN : (get_superblock img).file_system_block_count < 4294967296 := be32_lt _ _
  obtain ⟨hd1, hd2, hd3, hd4⟩ := hdir
  obtain ⟨j0, hj0, i0, hi0, hpos, _⟩ := scan_free_some img _ count start pos (by omega) hs
  rw [(wf_basic img hwf).2.1 (start + j0) (by omega)] at hpos
  obtain ⟨hsb, hfat, _, _, _⟩ := put_done_frame img now data name pos b0 nb r hwf hd
    (start + j0) i0 (by omega) (by omega) (by omega) hi0 hpos
  exact ⟨get_superblock_congr _ _ hsb, hfat⟩

theorem dir_slot_protected (img : Mem) (start count pos : Nat) (hwf : well_formed img)
    (hdir : dir_region img start count)
    (hs : scan_free img (get_superblock img) (scan_fuel start (last_block_of start count)) start
      = some pos) (k : Nat)
    (hk : k < 30 ∨
      ((get_superblock img).fat_start_block * (get_superblock img).block_size ≤ k ∧
        k < (get_superblock img).fat_start_block * (get_superblock img).block_size
          + (get_superblock img).fat_block_count * (get_superblock img).block_size)) :
    k < pos ∨ pos + 64 ≤ k := by
  have hfuel := scan_fuel_dir img start count hdir
  rw [hfuel] at hs
  have hN : (get_superblock img).file_system_block_count < 4294967296 := be32_lt _ _
  obtain ⟨hd1, hd2, hd3, hd4⟩ := hdir
  obtain ⟨j0, hj0, i0, hi0, hpos, _⟩ := scan_free_some img _ count start pos (by omega) hs
  rw [(wf_basic img hwf).2.1 (start + j0) (by omega)] at hpos
  have hfit := slot_fits _ i0 hi0
  have h30 := hwf.super_fits
  have hX := Nat.mul_le_mul_right (get_superblock img).block_size
    (show 1 ≤ start + j0 by omega)
  rw [Nat.one_mul] at hX
  unfold entry_size at hpos
  rcases hk with hk | ⟨hk1, hk2⟩
  · left; omega
  · by_contra hc
    have := region_apart (get_superblock img).block_size (get_superblock img).fat_start_block
      (get_superblock img).fat_block_count (start + j0) k (by omega) (by omega) (by omega)
    omega

theorem free_block_protected (img : Mem) (hwf : well_formed img) (b : Nat)
    (hbN : b < (get_superblock img).file_system_block_count)
    (hb : fat_entry (load_fat img (get_superblock img)) b = 0) (k : Nat)
    (hk : k < 30 ∨
      ((get_superblock img).fat_start_block * (get_superblock img).block_size ≤ k ∧
        k < (get_superblock img).fat_start_block * (get_superblock img).block_size
          + (get_superblock img).fat_block_count * (get_superblock img).block_size)) :
    k < block_off (get_superblock img) b ∨
      block_off (get_superblock img) b + (get_superblock img).block_size ≤ k := by
  rw [(wf_basic img hwf).2.1 b hbN]
  have h30 := hwf.super_fits
  have hb0 : b ≠ 0 := fun h => hwf.super_used (h ▸ hb)
  have hbF := block_not_used _ _ _ _ hwf.fat_used hb
  have hX := Nat.mul_le_mul_right (get_superblock img).block_size (show 1 ≤ b by omega)
  rw [Nat.one_mul] at hX
  rcases hk with hk | ⟨hk1, hk2⟩
  · left; omega
  · by_contra hc
    have := region_apart (get_superblock img).block_size (get_superblock img).fat_start_block
      (get_superblock img).fat_block_count b k hbF (by omega) (by omega)
    omega

theorem load_fat_congr (img img2 : Mem) (hwf : well_formed img)
    (h : ∀ k, (k < 30 ∨
      ((get_superblock img).fat_start_block * (get_superblock img).block_size ≤ k ∧
        k < (get_superblock img).fat_start_block * (get_superblock img).block_size
          + (get_superblock img).fat_block_count * (get_superblock img).block_size)) →
      img2 k = img k) :
    get_superblock img2 = get_superblock img ∧
    load_fat img2 (get_superblock img2) = load_fat img (get_superblock img) := by
  have hsb : get_superblock img2 = get_superblock img :=
    get_superblock_congr _ _ (fun j hj => h j (Or.inl hj))
  refine ⟨hsb, ?_⟩
  rw [hsb]
  obtain ⟨_, _, hFoff, hFbytes, _, _⟩ := wf_basic img hwf
  funext k
  unfold load_fat
  rw [hFoff, hFbytes]
  by_cases hk : k < (get_superblock img).fat_block_count * (get_superblock img).block_size
  · rw [if_pos hk, if_pos hk, h _ (Or.inr ⟨by omega, by omega⟩)]
  · rw [if_neg hk, if_neg hk]

/-! ## Counting entries after a put -/

theorem filter_lt_succ (A : List Nat) (n : Nat) :
    (A.filter (fun x => decide (x < n + 1))).length
      = (A.filter (fun x => decide (x < n))).length + A.count n := by
  induction A with
  | nil => rfl
  | cons a A ih =>
    rw [List.filter_cons, List.filter_cons, List.count_cons]
    by_cases h1 : a < n
    · rw [if_pos (by simpa using Nat.lt_succ_of_lt h1), if_pos (by simpa using h1),
        List.length_cons, List.length_cons, ih]
      have : (a == n) = false := by simp; omega
      rw [this]
      simp
      omega
    · by_cases h2 : a = n
      · subst h2
        rw [if_pos (by simp), if_neg (by simp), List.length_cons, ih]
        simp
        omega
      · rw [if_neg (by simp; omega), if_neg (by simpa using h1), ih]
        have : (a == n) = false := by simpa using h2
        rw [this]
        simp

theorem countP_flip (p q : Nat → Bool) (A : List Nat) (hA : A.Nodup)
    (hout : ∀ i, i ∉ A → q i = p i) (hp : ∀ i ∈ A, p i = true) (hq : ∀ i ∈ A, q i = false)
    (n : Nat) :
    (List.range n).countP q + (A.filter (fun x => decide (x < n))).length
      = (List.range n).countP p := by
  induction n with
  | zero => simp
  | succ n ih =>
    rw [List.range_succ, List.countP_append, List.countP_append, filter_lt_succ, ← ih]
    simp only [List.countP_cons, List.countP_nil, Nat.zero_add]
    by_cases hn : n ∈ A
    · rw [List.count_eq_one_of_mem hA hn, hp n hn, hq n hn]
      simp
      omega
    · rw [List.count_eq_zero_of_not_mem hn, hout n hn]
      omega

theorem chain_to_entries (fat : Mem) (t b0 : Nat) (nb : List Nat)
    (hch : chain_to fat t b0 nb) (hinc : List.Chain (fun x y => x < y) b0 nb) :
    ∀ b ∈ b0 :: nb, fat_entry fat b = t ∨ (fat_entry fat b ∈ nb ∧ b < fat_entry fat b) := by
  induction nb generalizing b0 with
  | nil =>
    intro b hb
    simp only [chain_to] at hch
    rw [List.mem_singleton] at hb
    left; rw [hb, hch]
  | cons x xs ih =>
    simp only [chain_to] at hch
    rw [List.chain_cons] at hinc
    intro b hb
    rcases List.mem_cons.1 hb with rfl | hb
    · right
      rw [hch.1]
      exact ⟨List.mem_cons_self _ _, hinc.1⟩
    · rcases ih x hch.2 hinc.2 b hb with h | ⟨h1, h2⟩
      · left; exact h
      · right; exact ⟨List.mem_cons_of_mem _ h1, h2⟩

/-! ## Names shorter than the rest of an entry

A comparison with a name shorter than 37 bytes ends inside the entry buffer,
so the result of a lookup with such names is the same whatever follows the
buffers on the heap. -/

theorem scan_chain_short (b1 b2 : Mem) (img fat : Mem) (sb : super_block) (st : Nat)
    (name : List Nat) (h : name.length < 37) (n cur : Nat) :
    scan_chain b1 img fat sb st name n cur = scan_chain b2 img fat sb st name n cur := by
  induction n generalizing cur with
  | zero => rfl
  | succ n ih =>
    simp only [scan_chain]
    rw [first_slot_congr _
      (fun i => entry_matches b2 img st name (block_off sb cur + entry_size * i)) _ _
      (fun i _ _ => entry_matches_short b1 b2 img st name _ h), ih]

theorem find_dir_parts_short (b1 b2 : Mem) (img fat : Mem) (sb : super_block)
    (parts : List (List Nat)) (h : ∀ t ∈ parts, t.length < 37) (cur cnt : Nat)
    (e : dir_entry_t) :
    find_dir_parts b1 img fat sb parts cur cnt e = find_dir_parts b2 img fat sb parts cur cnt e :=
        by
  induction parts generalizing cur cnt e with
  | nil => rfl
  | cons part rest ih =>
    simp only [find_dir_parts]
    rw [scan_chain_short b1 b2 img fat sb 5 part (h part (List.mem_cons_self _ _))]
    cases scan_chain b2 img fat sb 5 part cnt cur with
    | none => rfl
    | some off => exact ih (fun t ht => h t (List.mem_cons_of_mem _ ht)) _ _ _

theorem strtok_aux_length (cs cur : List Nat) :
    ∀ t ∈ strtok_aux cs cur, t.length ≤ cs.length + cur.length := by
  induction cs generalizing cur with
  | nil =>
    intro t ht
    unfold strtok_aux at ht
    split at ht
    · cases ht
    · rw [List.mem_singleton] at ht
      rw [ht]
      omega
  | cons c cs ih =>
    intro t ht
    unfold strtok_aux at ht
    rw [List.length_cons]
    split at ht
    · split at ht
      · have := ih [] t ht
        rw [List.length_nil] at this
        omega
      · rcases List.mem_cons.1 ht with rfl | ht2
        · omega
        · have := ih [] t ht2
          rw [List.length_nil] at this
          omega
    · have := ih (cur ++ [c]) t ht
      rw [List.length_append, List.length_singleton] at this
      omega

theorem strtok_all_length (path : List Nat) : ∀ t ∈ strtok_all path, t.length ≤ path.length :=
  fun t ht => by
    have := strtok_aux_length path [] t ht
    rw [List.length_nil] at this
    omega

theorem skip_lead_length (p : List Nat) : (skip_lead p).length ≤ p.length := by
  unfold skip_lead
  split
  · simp only [List.length_cons]; omega
  · simp only [List.length_cons]; omega
  · exact Nat.le_refl _

theorem split_last_length (p d f : List Nat) (h : split_last p = some (d, f)) :
    d.length + f.length < p.length := by
  induction p generalizing d f with
  | nil => cases h
  | cons c cs ih =>
    unfold split_last at h
    cases hs : split_last cs with
    | some r =>
      obtain ⟨d2, f2⟩ := r
      rw [hs] at h
      simp only [Option.some.injEq, Prod.mk.injEq] at h
      obtain ⟨rfl, rfl⟩ := h
      have := ih d2 f2 hs
      simp only [List.length_cons]
      omega
    | none =>
      rw [hs] at h
      simp only at h
      split at h
      · simp only [Option.some.injEq, Prod.mk.injEq] at h
        obtain ⟨rfl, rfl⟩ := h
        simp only [List.length_cons, List.length_nil]
        omega
      · cases h

theorem find_directory_short (h1 h2 : heap_after) (img : Mem) (uninit : dir_entry_t)
    (path : List Nat) (h : path.length < 37) :
    find_directory h1 img uninit path = find_directory h2 img uninit path := by
  unfold find_directory
  exact find_dir_parts_short _ _ _ _ _ _
    (fun t ht => Nat.lt_of_le_of_lt (strtok_all_length path t ht) h) _ _ _

theorem file_target_short (h1 h2 : heap_after) (img : Mem) (uninit : dir_entry_t)
    (path : List Nat) (h : path.length < 37) :
    file_target h1 img uninit path = file_target h2 img uninit path := by
  unfold file_target
  have hk := skip_lead_length path
  cases hs : split_last (skip_lead path) with
  | none => rfl
  | some r =>
    obtain ⟨d, f⟩ := r
    have := split_last_length _ d f hs
    simp only
    rw [find_directory_short h1 h2 img uninit d (by omega)]

theorem put_target_short (h1 h2 : heap_after) (img : Mem) (uninit : dir_entry_t)
    (path : List Nat) (h : path.length < 37) :
    put_target h1 img uninit path = put_target h2 img uninit path := by
  unfold put_target
  have hk := skip_lead_length path
  cases hs : split_last (skip_lead path) with
  | none => rfl
  | some r =>
    obtain ⟨d, f⟩ := r
    have := split_last_length _ d f hs
    simp only
    rw [find_directory_short h1 h2 img uninit d (by omega)]

theorem file_target_name_length (heap : heap_after) (img : Mem) (uninit : dir_entry_t)
    (path name : List Nat) (start count : Nat)
    (h : file_target heap img uninit path = some (name, start, count)) :
    name.length ≤ path.length := by
  unfold file_target at h
  have hk := skip_lead_length path
  cases hs : split_last (skip_lead path) with
  | none =>
    rw [hs] at h
    simp only [Option.some.injEq, Prod.mk.injEq] at h
    rw [← h.1]
    exact hk
  | some r =>
    obtain ⟨d, f⟩ := r
    have := split_last_length _ d f hs
    rw [hs] at h
    simp only at h
    cases hd : find_directory heap img uninit d with
    | none => rw [hd] at h; cases h
    | some e =>
      rw [hd] at h
      simp only [Option.some.injEq, Prod.mk.injEq] at h
      rw [← h.1]
      omega

theorem find_file_short (h1 h2 : heap_after) (img : Mem) (uninit : dir_entry_t)
    (path : List Nat) (h : path.length < 37) :
    find_file h1 img uninit path = find_file h2 img uninit path := by
  unfold find_file
  rw [file_target_short h1 h2 img uninit path h]
  cases ht : file_target h2 img uninit path with
  | none => rfl
  | some r =>
    obtain ⟨name, start, count⟩ := r
    have := file_target_name_length h2 img uninit path name start count ht
    simp only
    rw [scan_chain_short h1.file_entry h2.file_entry _ _ _ 3 name (by omega)]

theorem diskget_short (h1 h2 : heap_after) (img : Mem) (uninit : dir_entry_t)
    (path : List Nat) (h : path.length < 37) :
    diskget h1 img uninit path = diskget h2 img uninit path := by
  unfold diskget
  rw [find_file_short h1 h2 img uninit path h]

theorem diskput_short (h1 h2 : heap_after) (img : Mem) (uninit : dir_entry_t)
    (now : dir_entry_timedate_t) (src : Option (List Nat)) (dest : List Nat)
    (h : dest.length < 37) :
    diskput h1 img uninit now src dest = diskput h2 img uninit now src dest := by
  unfold diskput
  rw [put_target_short h1 h2 img uninit dest h]

/-! ## The data blocks of diskput in the image, for any directory -/

theorem put_done_data (img : Mem) (now : dir_entry_timedate_t) (data name : List Nat)
    (pos b0 : Nat) (nb : List Nat) (r : put_result) (hwf : well_formed img)
    (hd : put_done img now data name pos b0 nb r) (X i0 : Nat)
    (hXN : X < (get_superblock img).file_system_block_count)
    (hXU : fat_entry (load_fat img (get_superblock img)) X ≠ 0)
    (hi0 : i0 < slots (get_superblock img))
    (hpos : pos = X * (get_superblock img).block_size + 64 * i0) :
    ∀ p ∈ (b0 :: nb).zip
        (fread_chunks (get_superblock img).block_size data.length data),
      ∀ i, i < p.2.length →
        r.img (p.1 * (get_superblock img).block_size + i) = p.2.getD i 0 := by
  obtain ⟨hB, hoff, hFoff, hFbytes, hF1, hR1⟩ := wf_basic img hwf
  have haddr := hwf.addressable
  have hfit : 64 * i0 + 64 ≤ (get_superblock img).block_size := slot_fits _ i0 hi0
  have hXsep := block_sep (get_superblock img).block_size X _ hXN
  have hpos32 : u32 pos = pos := u32_of_lt _ (by omega)
  have hblk := put_done_blocks img now data name pos b0 nb r hd
  have hbF : ∀ b ∈ b0 :: nb, b < (get_superblock img).fat_start_block ∨
      (get_superblock img).fat_start_block + (get_superblock img).fat_block_count ≤ b :=
    fun b hb => block_not_used _ _ _ _ hwf.fat_used (hblk b hb).2
  have hlenE := put_entry_length img now name pos b0 (u32 data.length) (u32 (1 + data.length))
  have himg := hd.image
  rw [hpos32, hFoff, hFbytes, hd.entry] at himg
  intro p hp i hi
  obtain ⟨p1, p2⟩ := p
  obtain ⟨hp1, hp2⟩ := List.of_mem_zip hp
  have hlen := fread_chunks_le _ _ _ p2 hp2
  simp only at hi ⊢
  have hk1 : p1 * (get_superblock img).block_size
      ≤ p1 * (get_superblock img).block_size + i := Nat.le_add_right _ _
  have hk2 : p1 * (get_superblock img).block_size + i
      < p1 * (get_superblock img).block_size + (get_superblock img).block_size := by omega
  have hpX : p1 ≠ X := fun he => hXU (he ▸ (hblk p1 hp1).2)
  have hslot : p1 * (get_superblock img).block_size + i < pos ∨
      pos + 64 ≤ p1 * (get_superblock img).block_size + i := by
    rcases Nat.lt_or_gt_of_ne hpX with h | h
    · have := block_sep (get_superblock img).block_size p1 X h
      left; omega
    · have := block_sep (get_superblock img).block_size X p1 h
      right; omega
  rw [himg, wrBytes_outside _ _ _ _ (by rw [hlenE]; exact hslot),
    blit_outside _ _ _ _ _ (region_apart _ _ _ _ _ (hbF p1 hp1) hk1 hk2)]
  exact write_all_zip_content (get_superblock img) b0 nb (fun b hb => hoff b (hblk b hb).1)
    hd.increasing _ (fread_chunks_le _ _ _) _ (p1, p2) hp i hi

theorem dir_put_extract (img : Mem) (now : dir_entry_timedate_t) (data name : List Nat)
    (pos b0 : Nat) (nb : List Nat) (r : put_result) (hwf : well_formed img)
    (hd : put_done img now data name pos b0 nb r) (X i0 : Nat)
    (hXN : X < (get_superblock img).file_system_block_count)
    (hXU : fat_entry (load_fat img (get_superblock img)) X ≠ 0)
    (hi0 : i0 < slots (get_superblock img))
    (hpos : pos = X * (get_superblock img).block_size + 64 * i0)
    (hpay : ∀ x ∈ data, x < 256) :
    ∃ out, read_chain r.img r.fat (get_superblock img) 4294967296 b0 = some out ∧
      out.take data.length = data := by
  have g5 := put_done_data img now data name pos b0 nb r hwf hd X i0 hXN hXU hi0 hpos
  obtain ⟨hB, hoff, _⟩ := wf_basic img hwf
  have hN : (get_superblock img).file_system_block_count < 4294967296 := be32_lt _ _
  have hblk : ∀ b ∈ b0 :: nb, b < (get_superblock img).file_system_block_count :=
    fun b hb => (put_done_blocks img now data name pos b0 nb r hd b hb).1
  have hcl := chain_length_le b0 nb hd.increasing
  have hlast := hblk _ (List.getLastD_mem_cons nb b0)
  have hread := read_chain_linked r.img r.fat (get_superblock img) b0 nb hd.chain
    (fun b hb => by have := hblk b hb; omega) 4294967296 (by omega)
  refine ⟨_, hread, ?_⟩
  by_cases hdata : data = []
  · subst hdata
    simp
  · have hpos : 0 < data.length := List.length_pos.2 hdata
    have hclen := fread_chunks_length _ hB data.length data (le_refl _)
    have hcpos : 0 < (data.length + (get_superblock img).block_size - 1)
        / (get_superblock img).block_size := Nat.div_pos (by omega) hB
    obtain ⟨pad, hpad⟩ := blocks_join r.img (get_superblock img) hB data.length data (b0 :: nb)
      (le_refl _) (by rw [List.length_cons, hd.count]; omega)
      (by
        intro p hp
        obtain ⟨p1, p2⟩ := p
        obtain ⟨hp1, hp2⟩ := List.of_mem_zip hp
        rw [hoff p1 (hblk p1 hp1)]
        apply rdBytes_eq
        intro i hi
        unfold rd8
        rw [g5 (p1, p2) hp i hi]
        apply Nat.mod_eq_of_lt
        rw [List.getD_eq_getElem _ _ hi]
        exact hpay _ (fread_chunks_subset _ _ _ p2 hp2 _ (List.getElem_mem _)))
    rw [hpad, List.take_left']
    rfl

/-! ## Counting -/

theorem count_fat_spec (fat : Mem) (n : Nat) (hn : n < 4294967296) :
    (count_fat fat n).free_blocks = (List.range n).countP (fun i => fat_entry fat i == 0) ∧
    (count_fat fat n).reserved_blocks = (List.range n).countP (fun i => fat_entry fat i == 1) ∧
    (count_fat fat n).allocated_blocks =
      (List.range n).countP (fun i => fat_entry fat i != 0 && fat_entry fat i != 1) ∧
    (count_fat fat n).free_blocks + (count_fat fat n).reserved_blocks
      + (count_fat fat n).allocated_blocks = n := by
  induction n with
  | zero => simp [count_fat]
  | succ n ih =>
    obtain ⟨h1, h2, h3, h4⟩ := ih (by omega)
    simp only [List.range_succ, List.countP_append, List.countP_cons, List.countP_nil]
    unfold count_fat
    by_cases e0 : fat_entry fat n = 0
    · rw [if_pos e0]
      simp only [e0, u32]
      rw [Nat.mod_eq_of_lt (by omega)]
      simp
      omega
    · rw [if_neg e0]
      by_cases e1 : fat_entry fat n = 1
      · rw [if_pos e1]
        simp only [e1, u32]
        rw [Nat.mod_eq_of_lt (by omega)]
        simp
        omega
      · rw [if_neg e1]
        simp only [u32]
        rw [Nat.mod_eq_of_lt (by omega)]
        simp [e0, e1]
        omega

theorem count_fat_congr (fat fat' : Mem) (n : Nat)
    (h : ∀ i, i < n → fat_entry fat' i = fat_entry fat i) : count_fat fat' n = count_fat fat n := by
  induction n with
  | zero => rfl
  | succ n ih =>
    unfold count_fat
    rw [ih (fun i hi => h i (by omega)), h n (by omega)]

theorem diskinfo_eq (img : Mem) :
    diskinfo img = some (get_superblock img,
      count_fat (load_fat img (get_superblock img))
        (get_superblock img).file_system_block_count) := by
  have hn : (get_superblock img).file_system_block_count < 4294967296 := be32_lt _ _
  obtain ⟨_, _, _, h4⟩ := count_fat_spec (load_fat img (get_superblock img)) _ hn
  have hlt : (count_fat (load_fat img (get_superblock img))
      (get_superblock img).file_system_block_count).free_blocks
      + (count_fat (load_fat img (get_superblock img))
      (get_superblock img).file_system_block_count).reserved_blocks < 4294967296 := by omega
  unfold diskinfo
  rw [if_pos]
  unfold summary_assert u32
  rw [Nat.mod_eq_of_lt hlt, h4, Nat.mod_eq_of_lt hn]
  simp

theorem diskput_dir_full_aux {heap : heap_after} (img : Mem) (uninit : dir_entry_t)
    (now : dir_entry_timedate_t)
    (data dest name : List Nat) (start count : Nat)
    (ht : put_target heap img uninit dest = some (name, start, count))
    (h0 : 0 < start + count)
    (h1 : start + count ≤ (get_superblock img).file_system_block_count)
    (hfull : ∀ j, j < count → ∀ i, i < slots (get_superblock img) →
      rd8 img (block_off (get_superblock img) (start + j) + entry_size * i) ≠ 0) :
    diskput heap img uninit now (some data) dest
      = ⟨put_status.dir_full, img, load_fat img (get_superblock img), uninit, 0, []⟩ := by
  have hN : (get_superblock img).file_system_block_count < 4294967296 := be32_lt _ _
  have hlast := last_block_of_eq start count h0 (by omega)
  have hne : last_block_of start count ≠ 4294967295 := by omega
  have hfuel : scan_fuel start (last_block_of start count) = count := by
    unfold scan_fuel
    rw [if_neg hne, hlast]
    omega
  have hscan := scan_free_none img (get_superblock img) count start (by omega) hfull
  unfold diskput
  simp only [ht, hfuel, hscan, if_neg hne]

/-- When every slot of every block that `diskput` scans for the target
directory (its `block_count` blocks from `start_block` on, numbered
consecutively and lying inside the image) has a status other than 0, `diskput`
ends with "No free space in directory.", and neither the image, so in
particular its FAT region, nor any entry of the loaded table has changed; no
block was handed out.  This holds in particular for a root directory of one
block that is fully populated. -/
theorem diskput_full_consecutive (heap : heap_after) :
    (∀ (img : Mem) (uninit : dir_entry_t) (now : dir_entry_timedate_t)
      (data dest name : List Nat) (start count : Nat),
      put_target heap img uninit dest = some (name, start, count) →
      0 < start + count →
      start + count ≤ (get_superblock img).file_system_block_count →
      (∀ j, j < count → ∀ i, i < slots (get_superblock img) →
        rd8 img (block_off (get_superblock img) (start + j) + entry_size * i) ≠ 0) →
      (diskput heap img uninit now (some data) dest).status = put_status.dir_full ∧
      (diskput heap img uninit now (some data) dest).img = img ∧
      (∀ k, k < fat_bytes (get_superblock img) →
        (diskput heap img uninit now (some data) dest).img
            (block_off (get_superblock img) (get_superblock img).fat_start_block + k)
          = img (block_off (get_superblock img) (get_superblock img).fat_start_block + k)) ∧
      (diskput heap img uninit now (some data) dest).fat = load_fat img (get_superblock img) ∧
      (∀ i, fat_entry (diskput heap img uninit now (some data) dest).fat i
        = fat_entry (load_fat img (get_superblock img)) i) ∧
      (diskput heap img uninit now (some data) dest).allocated = []) ∧
    (∀ (img : Mem) (uninit : dir_entry_t) (now : dir_entry_timedate_t) (data dest : List Nat),
      split_last (skip_lead dest) = none →
      (get_superblock img).root_dir_block_count = 1 →
      (get_superblock img).root_dir_start_block
        < (get_superblock img).file_system_block_count →
      (∀ i, i < slots (get_superblock img) →
        rd8 img (block_off (get_superblock img) (get_superblock img).root_dir_start_block
          + entry_size * i) ≠ 0) →
      (diskput heap img uninit now (some data) dest).status = put_status.dir_full ∧
      (diskput heap img uninit now (some data) dest).img = img ∧
      (diskput heap img uninit now (some data) dest).fat = load_fat img (get_superblock img)) := by
  constructor
  · intro img uninit now data dest name start count ht h0 h1 hfull
    rw [diskput_dir_full_aux img uninit now data dest name start count ht h0 h1 hfull]
    exact ⟨rfl, rfl, fun _ _ => rfl, rfl, fun _ => rfl, rfl⟩
  · intro img uninit now data dest hsplit hcount hstart hfull
    have ht : put_target heap img uninit dest = some (skip_lead dest,
        (get_superblock img).root_dir_start_block, 1) := by
      simp only [put_target, hsplit, hcount]
    have hfull1 : ∀ j, j < 1 → ∀ i, i < slots (get_superblock img) →
        rd8 img (block_off (get_superblock img)
          ((get_superblock img).root_dir_start_block + j) + entry_size * i) ≠ 0 := by
      intro j hj i hi
      have hj0 : j = 0 := by omega
      rw [hj0, Nat.add_zero]
      exact hfull i hi
    have haux := diskput_dir_full_aux img uninit now data dest _ _ 1 ht (Nat.succ_pos _)
      (Nat.succ_le_of_lt hstart) hfull1
    rw [haux]
    exact ⟨rfl, rfl, rfl⟩

/-- The one-block root directory of `image_d` is full: `diskput` ends with "No
free space in directory." and leaves the image and the table as they were. -/
theorem diskput_full_image_d :
    ((diskput heap_zero image_d entry_zero entry_zero.create_time (some [1, 2, 3]) [99]).status
        = put_status.dir_full ∧
      (diskput heap_zero image_d entry_zero entry_zero.create_time (some [1, 2, 3]) [99]).img =
          image_d ∧
      (∀ k, k < fat_bytes (get_superblock image_d) →
        (diskput heap_zero image_d entry_zero entry_zero.create_time (some [1, 2, 3]) [99]).img
            (block_off (get_superblock image_d) (get_superblock image_d).fat_start_block + k)
          = image_d
            (block_off (get_superblock image_d) (get_superblock image_d).fat_start_block + k)) ∧
      (diskput heap_zero image_d entry_zero entry_zero.create_time (some [1, 2, 3]) [99]).fat
        = load_fat image_d (get_superblock image_d) ∧
      (∀ i, fat_entry (diskput heap_zero image_d entry_zero entry_zero.create_time (some [1, 2, 3])
          [99]).fat
          i = fat_entry (load_fat image_d (get_superblock image_d)) i) ∧
      (diskput heap_zero image_d entry_zero entry_zero.create_time (some [1, 2, 3]) [99]).allocated
          = []) ∧
    ((diskput heap_zero image_d entry_zero entry_zero.create_time (some [1, 2, 3]) [46, 47,
        99]).status
        = put_status.dir_full ∧
      (diskput heap_zero image_d entry_zero entry_zero.create_time (some [1, 2, 3]) [46, 47,
          99]).img
        = image_d ∧
      (diskput heap_zero image_d entry_zero entry_zero.create_time (some [1, 2, 3]) [46, 47,
          99]).fat
        = load_fat image_d (get_superblock image_d)) :=
  ⟨(diskput_full_consecutive heap_zero).1 image_d entry_zero entry_zero.create_time [1, 2, 3] [99]
      [99] 2 1
      (by rfl) (by decide) (by decide) (by decide),
    (diskput_full_consecutive heap_zero).2 image_d entry_zero entry_zero.create_time [1, 2, 3] [46,
        47, 99]
      (by decide) (by decide) (by decide) (by decide)⟩

theorem image_a_well_formed : well_formed image_a :=
  { super_fits := by decide
    addressable := by decide
    table_holds := by decide
    fat_start := by decide
    fat_inside := by decide
    root_start := by decide
    root_inside := by decide
    apart := by decide
    super_used := by decide
    fat_used := by decide
    root_used := by decide
    root_chain := fun j hj => by
      have h1 : (get_superblock image_a).root_dir_block_count = 1 := by decide
      rw [h1] at hj
      omega }

theorem be32_bytes_eq (m m2 : Mem) (k : Nat) (h : be32 m2 k = be32 m k) :
    rd8 m2 k = rd8 m k ∧ rd8 m2 (k + 1) = rd8 m (k + 1) ∧ rd8 m2 (k + 2) = rd8 m (k + 2) ∧
    rd8 m2 (k + 3) = rd8 m (k + 3) := by
  have a0 := rd8_lt m k
  have a1 := rd8_lt m (k + 1)
  have a2 := rd8_lt m (k + 2)
  have a3 := rd8_lt m (k + 3)
  have b0 := rd8_lt m2 k
  have b1 := rd8_lt m2 (k + 1)
  have b2 := rd8_lt m2 (k + 2)
  have b3 := rd8_lt m2 (k + 3)
  unfold be32 at h
  omega

theorem be16_bytes_eq (m m2 : Mem) (k : Nat) (h : be16 m2 k = be16 m k) :
    rd8 m2 k = rd8 m k ∧ rd8 m2 (k + 1) = rd8 m (k + 1) := by
  have a0 := rd8_lt m k
  have a1 := rd8_lt m (k + 1)
  have b0 := rd8_lt m2 k
  have b1 := rd8_lt m2 (k + 1)
  unfold be16 at h
  omega

theorem rdBytes_rd8_congr (m m2 : Mem) (k n : Nat) (h : ∀ j, k ≤ j → j < k + n → rd8 m2 j = rd8 m
    j) :
    rdBytes m2 k n = rdBytes m k n := by
  simp only [rdBytes]
  apply List.map_congr_left
  intro i hi
  rw [List.mem_range] at hi
  exact h (k + i) (by omega) (by omega)

theorem get_superblock_bytes (m m2 : Mem) :
    get_superblock m2 = get_superblock m ↔ ∀ k, k < 30 → rd8 m2 k = rd8 m k := by
  constructor
  · intro h
    have h1 := congrArg super_block.fs_id h
    have h2 := be16_bytes_eq m m2 8 (congrArg super_block.block_size h)
    have h3 := be32_bytes_eq m m2 10 (congrArg super_block.file_system_block_count h)
    have h4 := be32_bytes_eq m m2 14 (congrArg super_block.fat_start_block h)
    have h5 := be32_bytes_eq m m2 18 (congrArg super_block.fat_block_count h)
    have h6 := be32_bytes_eq m m2 22 (congrArg super_block.root_dir_start_block h)
    have h7 := be32_bytes_eq m m2 26 (congrArg super_block.root_dir_block_count h)
    simp only [get_superblock, rdBytes, List.range_succ, List.range_zero, List.nil_append,
      List.map_append, List.map_cons, List.map_nil, List.cons_append, List.cons.injEq,
      Nat.zero_add, and_true] at h1
    intro k hk
    interval_cases k
    · exact h1.1
    · exact h1.2.1
    · exact h1.2.2.1
    · exact h1.2.2.2.1
    · exact h1.2.2.2.2.1
    · exact h1.2.2.2.2.2.1
    · exact h1.2.2.2.2.2.2.1
    · exact h1.2.2.2.2.2.2.2
    · exact h2.1
    · exact h2.2
    · exact h3.1
    · exact h3.2.1
    · exact h3.2.2.1
    · exact h3.2.2.2
    · exact h4.1
    · exact h4.2.1
    · exact h4.2.2.1
    · exact h4.2.2.2
    · exact h5.1
    · exact h5.2.1
    · exact h5.2.2.1
    · exact h5.2.2.2
    · exact h6.1
    · exact h6.2.1
    · exact h6.2.2.1
    · exact h6.2.2.2
    · exact h7.1
    · exact h7.2.1
    · exact h7.2.2.1
    · exact h7.2.2.2
  · intro h
    unfold get_superblock
    rw [rdBytes_rd8_congr m m2 0 8 (fun j _ hj => h j (by omega))]
    unfold be16 be32
    rw [h 8 (by omega), h (8 + 1) (by omega), h 10 (by omega), h (10 + 1) (by omega),
      h (10 + 2) (by omega), h (10 + 3) (by omega), h 14 (by omega), h (14 + 1) (by omega),
      h (14 + 2) (by omega), h (14 + 3) (by omega), h 18 (by omega), h (18 + 1) (by omega),
      h (18 + 2) (by omega), h (18 + 3) (by omega), h 22 (by omega), h (22 + 1) (by omega),
      h (22 + 2) (by omega), h (22 + 3) (by omega), h 26 (by omega), h (26 + 1) (by omega),
      h (26 + 2) (by omega), h (26 + 3) (by omega)]

theorem disklist_root {heap : heap_after} (img : Mem) (uninit : dir_entry_t) (subdir : List Nat)
    (h : (skip_lead subdir).length = 0) :
    disklist heap img uninit subdir
      = some (((List.range ((get_superblock img).root_dir_block_count
          * slots (get_superblock img))).map
        (fun k => read_entry img
          (block_off (get_superblock img) (get_superblock img).root_dir_start_block
            + entry_size * k))).filter (fun e => e.status != 0)) := by
  unfold disklist disklist_dir
  rw [if_neg (by omega)]

theorem put_listing {heap heap2 : heap_after} (img img2 : Mem) (pos j0 i0 : Nat)
    (hwf : well_formed img)
    (hseq : 64 ∣ (get_superblock img).block_size ∨ (get_superblock img).root_dir_block_count = 1)
    (hj0 : j0 < (get_superblock img).root_dir_block_count)
    (hi0 : i0 < slots (get_superblock img))
    (hpos : pos = ((get_superblock img).root_dir_start_block + j0)
      * (get_superblock img).block_size + 64 * i0)
    (hz : rd8 img pos = 0) (hnew : rd8 img2 pos ≠ 0)
    (hsb : get_superblock img2 = get_superblock img)
    (hfr : ∀ Y, Y < (get_superblock img).file_system_block_count →
      (Y < (get_superblock img).fat_start_block ∨
        (get_superblock img).fat_start_block + (get_superblock img).fat_block_count ≤ Y) →
      fat_entry (load_fat img (get_superblock img)) Y ≠ 0 →
      ∀ k, Y * (get_superblock img).block_size ≤ k →
        k < Y * (get_superblock img).block_size + (get_superblock img).block_size →
        (k < pos ∨ pos + 64 ≤ k) → img2 k = img k)
    (uninit uninit2 : dir_entry_t) (subdir : List Nat) (h0 : (skip_lead subdir).length = 0) :
    ∃ l l2, disklist heap img uninit subdir = some l ∧
      disklist heap2 img2 uninit2 subdir = some l2 ∧
      (∀ e ∈ l, e ∈ l2) ∧ read_entry img2 pos ∈ l2 ∧
      ∀ e ∈ l2, e ∈ l ∨ e = read_entry img2 pos := by
  obtain ⟨hB, hoff, _, _, _, _⟩ := wf_basic img hwf
  have hrin := hwf.root_inside
  have hRoff := hoff (get_superblock img).root_dir_start_block (by omega)
  rw [disklist_root img uninit subdir h0, disklist_root img2 uninit2 subdir h0, hsb, hRoff]
  have hi0' : i0 < (get_superblock img).block_size / 64 := hi0
  obtain ⟨k0, hk0, hk0e⟩ := slot_index _ _ j0 i0 hseq hj0 hi0'
  have hposk : (get_superblock img).root_dir_start_block * (get_superblock img).block_size
      + entry_size * k0 = pos := by
    rw [hpos, Nat.add_mul]
    unfold entry_size
    omega
  have hl := listing_after
    (fun k => read_entry img
      ((get_superblock img).root_dir_start_block * (get_superblock img).block_size
        + entry_size * k))
    (fun k => read_entry img2
      ((get_superblock img).root_dir_start_block * (get_superblock img).block_size
        + entry_size * k))
    ((get_superblock img).root_dir_block_count * slots (get_superblock img)) k0 hk0
    (by simp only; rw [hposk]; exact hz)
    (by simp only; rw [hposk]; exact hnew)
    (by
      intro k hk hne
      simp only
      obtain ⟨j, i, hj, hi, hke⟩ := list_offsets _ _ hseq k hk
      have hfit := slot_fits (get_superblock img) i hi
      have hfit0 := slot_fits (get_superblock img) i0 hi0
      have hoffk : (get_superblock img).root_dir_start_block * (get_superblock img).block_size
          + entry_size * k
          = ((get_superblock img).root_dir_start_block + j) * (get_superblock img).block_size
            + 64 * i := by
        rw [Nat.add_mul]
        unfold entry_size
        omega
      rw [hoffk]
      apply read_entry_congr
      intro b hb1 hb2
      have hapart := hwf.apart
      apply hfr ((get_superblock img).root_dir_start_block + j) (by omega) (by omega)
        (hwf.root_used j hj) b (by omega) (by omega)
      rw [hpos]
      apply slot_apart _ _ _ _ _ hfit0 hfit _ b hb1 hb2
      intro he
      apply hne
      rw [Nat.add_mul, Nat.add_mul] at he
      omega)
  simp only at hl
  rw [hposk] at hl
  exact ⟨_, _, rfl, rfl, hl.1, hl.2.1, hl.2.2⟩

theorem image_e_well_formed : well_formed image_e :=
  { super_fits := by decide
    addressable := by decide
    table_holds := by decide
    fat_start := by decide
    fat_inside := by decide
    root_start := by decide
    root_inside := by decide
    apart := by decide
    super_used := by decide
    fat_used := by decide
    root_used := by decide
    root_chain := fun j hj => by
      have h1 : (get_superblock image_e).root_dir_block_count = 1 := by decide
      rw [h1] at hj
      omega }

theorem diskput_disk_table {heap : heap_after} (img : Mem) (uninit : dir_entry_t) (now :
    dir_entry_timedate_t)
    (src : Option (List Nat)) (dest : List Nat) (hwf : well_formed img)
    (hdir : ∀ name start count, put_target heap img uninit dest = some (name, start, count) →
      dir_region img start count) :
    get_superblock (diskput heap img uninit now src dest).img = get_superblock img ∧
    ((diskput heap img uninit now src dest).status = put_status.done →
      load_fat (diskput heap img uninit now src dest).img
        (get_superblock (diskput heap img uninit now src dest).img)
        = (diskput heap img uninit now src dest).fat) ∧
    ((diskput heap img uninit now src dest).status ≠ put_status.done →
      load_fat (diskput heap img uninit now src dest).img
        (get_superblock (diskput heap img uninit now src dest).img)
        = load_fat img (get_superblock img)) := by
  by_cases hst : (diskput heap img uninit now src dest).status = put_status.done
  · cases src with
    | none =>
      have : (diskput heap img uninit now none dest).status = put_status.src_not_found := rfl
      rw [this] at hst
      cases hst
    | some data =>
      obtain ⟨name, start, count, pos, b0, nb, ht, hs, hd⟩ :=
        diskput_done img uninit now data dest hst
      obtain ⟨hsb, hfat⟩ := put_done_dir_frame img now data name start count pos b0 nb _ hwf
        (hdir name start count ht) hs hd
      refine ⟨hsb, fun _ => ?_, fun h => absurd hst h⟩
      rw [hsb, hfat]
  · have hfr := (diskput_frame_all img uninit now src dest
      (fun k => k < 30 ∨
        ((get_superblock img).fat_start_block * (get_superblock img).block_size ≤ k ∧
          k < (get_superblock img).fat_start_block * (get_superblock img).block_size
            + (get_superblock img).fat_block_count * (get_superblock img).block_size))
      (fun k hk b hbN hb => free_block_protected img hwf b hbN hb k hk)
      (fun name start count pos ht hs k hk =>
        dir_slot_protected img start count pos hwf (hdir name start count ht) hs k hk)).2 hst
    obtain ⟨hsb, hfat⟩ := load_fat_congr img _ hwf hfr
    exact ⟨hsb, fun h => absurd h hst, fun _ => hfat⟩

theorem put_done_counts (img : Mem) (now : dir_entry_timedate_t) (data name : List Nat)
    (pos b0 : Nat) (nb : List Nat) (r : put_result)
    (hd : put_done img now data name pos b0 nb r)
    (h0 : fat_entry (load_fat img (get_superblock img)) 0 ≠ 0)
    (h1 : fat_entry (load_fat img (get_superblock img)) 1 ≠ 0) :
    (∀ b ∈ b0 :: nb, fat_entry r.fat b ≠ 0 ∧ fat_entry r.fat b ≠ 1 ∧
      (fat_entry r.fat b = 4294967295 ∨
        (2 ≤ fat_entry r.fat b ∧ fat_entry r.fat b ∈ b0 :: nb))) ∧
    (count_fat r.fat (get_superblock img).file_system_block_count).reserved_blocks
      = (count_fat (load_fat img (get_superblock img))
        (get_superblock img).file_system_block_count).reserved_blocks ∧
    (count_fat r.fat (get_superblock img).file_system_block_count).free_blocks
        + (b0 :: nb).length
      = (count_fat (load_fat img (get_superblock img))
        (get_superblock img).file_system_block_count).free_blocks ∧
    (count_fat r.fat (get_superblock img).file_system_block_count).allocated_blocks
      = (count_fat (load_fat img (get_superblock img))
        (get_superblock img).file_system_block_count).allocated_blocks + (b0 :: nb).length := by
  have hN : (get_superblock img).file_system_block_count < 4294967296 := be32_lt _ _
  have hblk := put_done_blocks img now data name pos b0 nb r hd
  have hnd := chain_nodup b0 nb hd.increasing
  have hge := chain_lt_of_mem b0 nb hd.increasing
  have hb02 : 2 ≤ b0 := by
    have hf := hd.first_free.2.1
    have a0 : b0 ≠ 0 := fun h => h0 (h ▸ hf)
    have a1 : b0 ≠ 1 := fun h => h1 (h ▸ hf)
    omega
  have hent := chain_to_entries r.fat 4294967295 b0 nb hd.chain hd.increasing
  have hnew : ∀ b ∈ b0 :: nb, fat_entry r.fat b ≠ 0 ∧ fat_entry r.fat b ≠ 1 ∧
      (fat_entry r.fat b = 4294967295 ∨
        (2 ≤ fat_entry r.fat b ∧ fat_entry r.fat b ∈ b0 :: nb)) := by
    intro b hb
    have hbge : b0 ≤ b := by
      rcases List.mem_cons.1 hb with rfl | hb
      · exact le_refl _
      · exact Nat.le_of_lt (hge b hb)
    rcases hent b hb with h | ⟨h1, h2⟩
    · rw [h]
      exact ⟨by norm_num, by norm_num, Or.inl rfl⟩
    · exact ⟨by omega, by omega, Or.inr ⟨by omega, List.mem_cons_of_mem _ h1⟩⟩
  have hout : ∀ i, i ∉ b0 :: nb →
      fat_entry r.fat i = fat_entry (load_fat img (get_superblock img)) i := by
    intro i hi
    apply fat_entry_congr
    intro k hk1 hk2
    apply hd.fat_frame
    intro b hb
    have : b ≠ i := fun h => hi (h ▸ hb)
    omega
  have hfilter : ((b0 :: nb).filter
      (fun x => decide (x < (get_superblock img).file_system_block_count))).length
      = (b0 :: nb).length := by
    rw [List.filter_eq_self.2 (fun b hb => by simpa using (hblk b hb).1)]
  obtain ⟨c1, c2, c3, _⟩ := count_fat_spec r.fat _ hN
  obtain ⟨d1, d2, d3, _⟩ := count_fat_spec (load_fat img (get_superblock img)) _ hN
  refine ⟨hnew, ?_, ?_, ?_⟩
  · rw [c2, d2]
    apply List.countP_congr
    intro i _
    by_cases hi : i ∈ b0 :: nb
    · have a1 := (hnew i hi).2.1
      have a2 := (hblk i hi).2
      simp [a1, a2]
    · rw [hout i hi]
  · rw [c1, d1, ← hfilter]
    exact countP_flip _ _ (b0 :: nb) hnd
      (fun i hi => by rw [hout i hi])
      (fun i hi => by simpa using (hblk i hi).2)
      (fun i hi => by simpa using (hnew i hi).1) _
  · rw [c3, d3, ← hfilter]
    exact (countP_flip _ _ (b0 :: nb) hnd
      (fun i hi => by rw [hout i hi])
      (fun i hi => by
        have a1 := (hnew i hi).1
        have a2 := (hnew i hi).2.1
        simp [a1, a2])
      (fun i hi => by
        have a2 := (hblk i hi).2
        simp [a2]) _).symm

/-! # The claims -/

/-- C1: on a well-formed image whose root directory has its first free slot at
slot `i0` of its block `j0`, with no file entry of the same name in an earlier
slot, and whose table has at least one free entry and at least ceil(n / B) of
them, `diskput` of a payload of n bytes under a file name shorter than 31
bytes runs to its end; on the image it leaves, `find_file` on that name
returns the new entry, and `diskget` writes an output whose first n bytes are
exactly the payload.  Each of the three calls has its own memory after the
entry buffers (`heap`, `heap2`, `heap3`); the earlier entries are compared
inside the buffer, the name being shorter than 37 bytes. -/
theorem diskput_then_diskget (heap heap2 heap3 : heap_after) (beyond : Mem) (img : Mem)
    (uninit uninit2 uninit3 : dir_entry_t)
    (now : dir_entry_timedate_t) (payload name : List Nat) (j0 i0 : Nat)
    (hwf : well_formed img)
    (hname : name.length < 31)
    (hchars : ∀ c ∈ name, c ≠ 0 ∧ c < 256 ∧ c ≠ 47)
    (hpay : ∀ x ∈ payload, x < 256)
    (hj0 : j0 < (get_superblock img).root_dir_block_count)
    (hi0 : i0 < slots (get_superblock img))
    (hslot : rd8 img (block_off (get_superblock img)
      ((get_superblock img).root_dir_start_block + j0) + entry_size * i0) = 0)
    (hbefore : ∀ j, j < (get_superblock img).root_dir_block_count →
      ∀ i, i < slots (get_superblock img) → (j < j0 ∨ (j = j0 ∧ i < i0)) →
      rd8 img (block_off (get_superblock img)
        ((get_superblock img).root_dir_start_block + j) + entry_size * i) ≠ 0 ∧
      entry_matches beyond img 3 name (block_off (get_superblock img)
        ((get_superblock img).root_dir_start_block + j) + entry_size * i) = false)
    (hfree1 : 1 ≤ free_count (load_fat img (get_superblock img))
      (get_superblock img).file_system_block_count)
    (hfree : (payload.length + (get_superblock img).block_size - 1)
      / (get_superblock img).block_size
      ≤ free_count (load_fat img (get_superblock img))
        (get_superblock img).file_system_block_count) :
    (diskput heap img uninit now (some payload) name).status = put_status.done ∧
    ∃ e, find_file heap2 (diskput heap img uninit now (some payload) name).img uninit2 name
        = some e ∧
      e.status = 3 ∧
      (diskput heap img uninit now (some payload) name).allocated.head? = some e.start_block ∧
      ∃ out, diskget heap3 (diskput heap img uninit now (some payload) name).img uninit3 name
          = get_result.written out ∧
        out.take payload.length = payload := by
  have h47 : ∀ c ∈ name, c ≠ 47 := fun c hc => (hchars c hc).2.2
  have h256 : ∀ c ∈ name, c < 256 := fun c hc => (hchars c hc).2.1
  obtain ⟨_, hoff, _⟩ := wf_basic img hwf
  have hrin := hwf.root_inside
  have hs := scan_free_root img hwf j0 i0 hj0 hi0 hslot
    (fun j hj i hi hlt => (hbefore j hj i hi hlt).1)
  obtain ⟨b0, nb, hd⟩ := @diskput_root_done heap img uninit now payload name _ h47 hs hfree1 hfree
  have hlook := fun (b : Mem) => @root_put_lookup b img now payload name b0 nb _ hwf
    j0 i0 hj0 hi0 hd hname h256
    (fun j hj i hi hlt => by
      have := (hbefore j hj i hi hlt).2
      rw [hoff _ (by omega)] at this
      rw [entry_matches_short b beyond _ _ _ _ (by omega)]
      exact this)
  obtain ⟨hsb, hfat, _, hstart, hstatus⟩ := hlook beyond
  obtain ⟨out, hread, htake⟩ := root_put_extract img now payload name b0 nb _ hwf j0 i0 hj0 hi0
    hd hpay
  have hfind : ∀ (h : heap_after) (u : dir_entry_t),
      find_file h (diskput heap img uninit now (some payload) name).img u name
        = some (read_entry (diskput heap img uninit now (some payload) name).img
          (((get_superblock img).root_dir_start_block + j0) * (get_superblock img).block_size
            + 64 * i0)) := by
    intro h u
    unfold find_file
    rw [file_target_root _ _ _ h47]
    simp only [hsb, hfat, (hlook h.file_entry).2.2.1]
  refine ⟨hd.status, _, hfind heap2 uninit2, hstatus, ?_, out, ?_, htake⟩
  · rw [hd.blocks, hstart]
    rfl
  · unfold diskget
    rw [hfind heap3 uninit3]
    simp only [hsb, hfat, hstart, hread]

set_option maxRecDepth 1000000 in
theorem diskput_then_diskget_witness :
    (diskput heap_zero image_a entry_zero entry_zero.create_time (some data_1300) name_hello).status
      = put_status.done ∧
    ∃ e, find_file heap_zero (diskput heap_zero image_a entry_zero entry_zero.create_time (some
        data_1300)
        name_hello).img entry_zero name_hello = some e ∧
      e.status = 3 ∧
      (diskput heap_zero image_a entry_zero entry_zero.create_time (some data_1300)
        name_hello).allocated.head? = some e.start_block ∧
      ∃ out, diskget heap_zero (diskput heap_zero image_a entry_zero entry_zero.create_time (some
          data_1300)
          name_hello).img entry_zero name_hello = get_result.written out ∧
        out.take data_1300.length = data_1300 :=
  diskput_then_diskget heap_zero heap_zero heap_zero heap_zero.file_entry image_a entry_zero
      entry_zero entry_zero entry_zero.create_time
    data_1300 name_hello 0 1 image_a_well_formed (by decide) (by decide)
    (fun x hx => by rw [List.eq_of_mem_replicate hx]; decide)
    (by decide) (by decide) (by decide) (by decide) (by decide) (by decide)

/-- C2: when the target directory of `diskput` resolves, a free slot is found in
it, the source has n > 0 bytes and the table, which holds an entry for every
block, has at least ceil(n / B) free entries, `diskput` runs to its end and the
blocks handed out by `get_free_block` are exactly ceil(n / B), all free before
and in increasing order; the start_block of the directory entry, in the entry
buffer and as stored in the image at `entry_address`, is the first of them; in
the table buffer the entry of each holds the index of the block handed out
next, and the entry of the last holds 0xFFFFFFFF.  In a well-formed image with
the target directory a directory region, the same is in the image file
afterwards: the superblock is unchanged, the FAT region read back is the table
buffer, so it links the blocks handed out in their order and ends the chain
with 0xFFFFFFFF, and its entries of all other blocks are what they were; the
entry stored in the free slot has status 3, the name as `strncpy` stores it,
start_block the first block handed out and size n; and the blocks read along
the table of the image from that start_block begin with the n bytes of the
source. -/
theorem diskput_builds_chain (heap : heap_after) (img : Mem) (uninit : dir_entry_t)
    (now : dir_entry_timedate_t)
    (data dest name : List Nat) (start count pos : Nat)
    (_htable : 4 * (get_superblock img).file_system_block_count
      ≤ fat_bytes (get_superblock img))
    (ht : put_target heap img uninit dest = some (name, start, count))
    (hs : scan_free img (get_superblock img) (scan_fuel start (last_block_of start count)) start
      = some pos)
    (hn : 0 < data.length)
    (hfree : (data.length + (get_superblock img).block_size - 1) / (get_superblock img).block_size
      ≤ free_count (load_fat img (get_superblock img))
        (get_superblock img).file_system_block_count) :
    (diskput heap img uninit now (some data) dest).status = put_status.done ∧
    ∃ b0 nb,
      (diskput heap img uninit now (some data) dest).allocated = b0 :: nb ∧
      (b0 :: nb).length
        = (data.length + (get_superblock img).block_size - 1) / (get_superblock img).block_size ∧
      List.Chain (fun x y => x < y) b0 nb ∧
      (∀ b ∈ b0 :: nb, b < (get_superblock img).file_system_block_count ∧
        fat_entry (load_fat img (get_superblock img)) b = 0) ∧
      (diskput heap img uninit now (some data) dest).entry.start_block = b0 ∧
      be32 (diskput heap img uninit now (some data) dest).img
        ((diskput heap img uninit now (some data) dest).entry_address + 1) = b0 ∧
      linked (diskput heap img uninit now (some data) dest).fat 4294967295 (b0 :: nb) ∧
      (well_formed img → dir_region img start count → (∀ c ∈ name, c < 256) →
        get_superblock (diskput heap img uninit now (some data) dest).img = get_superblock img ∧
        load_fat (diskput heap img uninit now (some data) dest).img
            (get_superblock (diskput heap img uninit now (some data) dest).img)
          = (diskput heap img uninit now (some data) dest).fat ∧
        linked (load_fat (diskput heap img uninit now (some data) dest).img
          (get_superblock (diskput heap img uninit now (some data) dest).img)) 4294967295
          (b0 :: nb) ∧
        (∀ i, i ∉ b0 :: nb →
          fat_entry (load_fat (diskput heap img uninit now (some data) dest).img
            (get_superblock (diskput heap img uninit now (some data) dest).img)) i
            = fat_entry (load_fat img (get_superblock img)) i) ∧
        (diskput heap img uninit now (some data) dest).entry_address = pos ∧
        (read_entry (diskput heap img uninit now (some data) dest).img pos).status = 3 ∧
        (read_entry (diskput heap img uninit now (some data) dest).img pos).filename
          = strncpy31 name ∧
        (read_entry (diskput heap img uninit now (some data) dest).img pos).start_block = b0 ∧
        (read_entry (diskput heap img uninit now (some data) dest).img pos).size
          = data.length ∧
        ((∀ x ∈ data, x < 256) →
          ∃ out, read_chain (diskput heap img uninit now (some data) dest).img
              (load_fat (diskput heap img uninit now (some data) dest).img
                (get_superblock (diskput heap img uninit now (some data) dest).img))
              (get_superblock (diskput heap img uninit now (some data) dest).img) 4294967296
              (read_entry (diskput heap img uninit now (some data) dest).img pos).start_block
              = some out ∧
            out.take data.length = data)) := by
  have hB : 0 < (get_superblock img).block_size := by
    have := scan_free_slots_pos _ _ _ _ _ hs
    unfold slots entry_size at this
    omega
  have hpos : 0 < (data.length + (get_superblock img).block_size - 1)
      / (get_superblock img).block_size :=
    Nat.div_pos (by omega) hB
  obtain ⟨b0, nb, hd⟩ := diskput_runs img uninit now data dest name start count pos ht hs
    (by omega) hfree
  have hlen := fread_chunks_length _ hB data.length data (le_refl _)
  have hN : (get_superblock img).file_system_block_count < 4294967296 := be32_lt _ _
  have hb32 : b0 < 4294967296 := by
    have := hd.first_free.1
    omega
  have hblk := put_done_blocks img now data name pos b0 nb _ hd
  refine ⟨hd.status, b0, nb, hd.blocks, ?_, hd.increasing, hblk, ?_, ?_, hd.chain, ?_⟩
  · rw [List.length_cons, hd.count, hlen]
    omega
  · rw [hd.entry]; rfl
  · rw [hd.image, hd.address, hd.entry]
    exact be32_wrBytes_entry_start _ _ _ hb32
  · intro hwf hdir hchars
    obtain ⟨b0', nb', j0, i0, hd', hj0, hi0, hposeq, hz⟩ := diskput_dir_done img uninit now data
      dest name start count pos hwf ht hdir hs (by omega) hfree
    obtain ⟨hd1, hd2, hd3, hd4⟩ := hdir
    obtain ⟨hsb, hfat, _, ⟨M, hM⟩, haddr⟩ := put_done_frame img now data name pos b0 nb _ hwf hd
      (start + j0) i0 (by omega) (by omega) (by omega) hi0 hposeq
    have hsbeq : get_superblock (diskput heap img uninit now (some data) dest).img
        = get_superblock img := get_superblock_congr _ _ hsb
    have hsz := put_size_lt img now data name pos b0 nb _ hwf hd
    have hest : (diskput heap img uninit now (some data) dest).entry.status = 3 := by
      rw [hd.entry]; rfl
    have hefn : (diskput heap img uninit now (some data) dest).entry.filename
        = strncpy31 name := by
      rw [hd.entry]; rfl
    have heun : (diskput heap img uninit now (some data) dest).entry.unused.length = 6 := by
      rw [hd.entry]; exact rdBytes_length _ _ _
    have hesz : (diskput heap img uninit now (some data) dest).entry.size = data.length := by
      rw [hd.entry]; exact u32_of_lt _ hsz
    have hebc : (diskput heap img uninit now (some data) dest).entry.block_count
        = u32 (1 + data.length) := by
      rw [hd.entry]; rfl
    have hesb : (diskput heap img uninit now (some data) dest).entry.start_block = b0 := by
      rw [hd.entry]; rfl
    have hecy : (diskput heap img uninit now (some data) dest).entry.create_time.year
        = now.year % 65536 := by
      rw [hd.entry]; rfl
    have hemy : (diskput heap img uninit now (some data) dest).entry.modify_time.year
        = now.year % 65536 := by
      rw [hd.entry]; rfl
    have hrd := read_entry_written M pos (diskput heap img uninit now (some data) dest).entry
      (by rw [hesb]; exact hb32) (by rw [hebc]; exact u32_lt _) (by rw [hesz]; exact hsz)
      (by rw [hecy]; exact Nat.mod_lt _ (Nat.succ_pos _))
      (by rw [hemy]; exact Nat.mod_lt _ (Nat.succ_pos _))
    rw [← hM] at hrd
    have hrfn := read_entry_name M pos (diskput heap img uninit now (some data) dest).entry name
      hefn heun hchars
    rw [← hM] at hrfn
    have hrst : rd8 (diskput heap img uninit now (some data) dest).img pos = 3 := by
      rw [hM]
      unfold rd8
      rw [(wrBytes_entry_head M pos _).1, hest]
    rw [hsbeq, hfat]
    refine ⟨rfl, rfl, hd.chain, ?_, haddr, hrst, hrfn, ?_, ?_, ?_⟩
    · intro i hi
      apply fat_entry_congr
      intro k hk1 hk2
      apply hd.fat_frame
      intro b hb
      have hne : b ≠ i := fun he => hi (he ▸ hb)
      omega
    · rw [hrd.1, hesb]
    · rw [hrd.2.2.1, hesz]
    · intro hpay
      rw [hrd.1, hesb]
      exact dir_put_extract img now data name pos b0 nb _ hwf hd (start + j0) i0 (by omega)
        (hd4 j0 hj0) hi0 hposeq hpay

set_option maxRecDepth 1000000 in
theorem diskput_builds_chain_witness :
    put_target heap_zero image_a entry_zero name_new = some (name_new, 2, 1) ∧
    dir_region image_a 2 1 ∧
    (diskput heap_zero image_a entry_zero time_a (some data_600) name_new).status
      = put_status.done ∧
    (diskput heap_zero image_a entry_zero time_a (some data_600) name_new).allocated = [3, 4] ∧
    (data_600.length + (get_superblock image_a).block_size - 1)
      / (get_superblock image_a).block_size = 2 ∧
    (diskput heap_zero image_a entry_zero time_a (some data_600) name_new).entry.start_block = 3 ∧
    linked (diskput heap_zero image_a entry_zero time_a (some data_600) name_new).fat
      4294967295 [3, 4] ∧
    get_superblock (diskput heap_zero image_a entry_zero time_a (some data_600) name_new).img
      = get_superblock image_a ∧
    linked (load_fat (diskput heap_zero image_a entry_zero time_a (some data_600) name_new).img
      (get_superblock (diskput heap_zero image_a entry_zero time_a (some data_600) name_new).img))
      4294967295 [3, 4] ∧
    fat_entry (load_fat (diskput heap_zero image_a entry_zero time_a (some data_600) name_new).img
      (get_superblock (diskput heap_zero image_a entry_zero time_a (some data_600) name_new).img))
      5 = fat_entry (load_fat image_a (get_superblock image_a)) 5 ∧
    (diskput heap_zero image_a entry_zero time_a (some data_600) name_new).entry_address = 1088 ∧
    (read_entry (diskput heap_zero image_a entry_zero time_a (some data_600) name_new).img
      1088).status = 3 ∧
    (read_entry (diskput heap_zero image_a entry_zero time_a (some data_600) name_new).img
      1088).filename = strncpy31 name_new ∧
    (read_entry (diskput heap_zero image_a entry_zero time_a (some data_600) name_new).img
      1088).start_block = 3 ∧
    (read_entry (diskput heap_zero image_a entry_zero time_a (some data_600) name_new).img
      1088).size = data_600.length ∧
    ∃ out, read_chain (diskput heap_zero image_a entry_zero time_a (some data_600) name_new).img
        (load_fat (diskput heap_zero image_a entry_zero time_a (some data_600) name_new).img
          (get_superblock
            (diskput heap_zero image_a entry_zero time_a (some data_600) name_new).img))
        (get_superblock (diskput heap_zero image_a entry_zero time_a (some data_600) name_new).img)
        4294967296
        (read_entry (diskput heap_zero image_a entry_zero time_a (some data_600) name_new).img
          1088).start_block = some out ∧
      out.take data_600.length = data_600 := by
  obtain ⟨hst, b0, nb, hall, _, _, _, hsb0, _, hlink, hon⟩ :=
    diskput_builds_chain heap_zero image_a entry_zero time_a data_600 name_new name_new
      2 1 1088 (by decide) (by decide) (by rfl) (by decide) (by decide)
  have hal : (diskput heap_zero image_a entry_zero time_a (some data_600) name_new).allocated
      = [3, 4] := by decide
  rw [hal] at hall
  obtain ⟨rfl, rfl⟩ := List.cons.inj hall
  obtain ⟨h1, _, h3, h4, h5, h6, h7, h8, h9, h10⟩ := hon image_a_well_formed (by decide)
    (by decide)
  exact ⟨by decide, by decide, hst, hal, by decide, hsb0, hlink, h1, h3, h4 5 (by decide), h5,
    h6, h7, h8, h9, h10 (fun x hx => by rw [List.eq_of_mem_replicate hx]; decide)⟩

set_option maxRecDepth 1000000 in
/-- C3, the code at a full directory whose blocks are not consecutive: the
directory `d` of `image_f` has the blocks 4 and 6, linked in the table, and
every slot of both blocks has a status other than 0.  `diskput` to `d/n` does
not end with "No free space in directory.": it scans the blocks 4 and 5, takes
the first byte of block 5, which is the data block of the file `g` and is 0,
for a free slot, runs to its end, writes the entry at offset 640 and hands out
block 3, whose table entry changes from 0 to 0xFFFFFFFF in the table buffer
and in the FAT region of the image.  This holds whatever follows the entry
buffers on the heap. -/
theorem diskput_full_chain_not_reported (heap : heap_after) :
    find_directory heap image_f entry_zero [100] = some (read_entry image_f 256) ∧
    (read_entry image_f 256).start_block = 4 ∧ (read_entry image_f 256).block_count = 2 ∧
    put_target heap image_f entry_zero path_d_n = some ([110], 4, 2) ∧
    chain_block (load_fat image_f (get_superblock image_f)) 1 4 = 6 ∧
    fat_entry (load_fat image_f (get_superblock image_f)) 6 = 4294967295 ∧
    (∀ j, j < 2 → ∀ i, i < slots (get_superblock image_f) →
      rd8 image_f (dir_slot (load_fat image_f (get_superblock image_f)) (get_superblock image_f)
        4 j i) ≠ 0) ∧
    (diskput heap image_f entry_zero time_a (some [1, 2, 3]) path_d_n).status
      ≠ put_status.dir_full ∧
    (diskput heap image_f entry_zero time_a (some [1, 2, 3]) path_d_n).status = put_status.done ∧
    (diskput heap image_f entry_zero time_a (some [1, 2, 3]) path_d_n).entry_address = 640 ∧
    640 = block_off (get_superblock image_f) 5 ∧
    (read_entry image_f 320).status = 3 ∧ (read_entry image_f 320).start_block = 5 ∧
    rd8 image_f 640 = 0 ∧
    rd8 (diskput heap image_f entry_zero time_a (some [1, 2, 3]) path_d_n).img 640 = 3 ∧
    (diskput heap image_f entry_zero time_a (some [1, 2, 3]) path_d_n).allocated = [3] ∧
    fat_entry (load_fat image_f (get_superblock image_f)) 3 = 0 ∧
    fat_entry (diskput heap image_f entry_zero time_a (some [1, 2, 3]) path_d_n).fat 3
      = 4294967295 ∧
    fat_entry (load_fat (diskput heap image_f entry_zero time_a (some [1, 2, 3]) path_d_n).img
      (get_superblock (diskput heap image_f entry_zero time_a (some [1, 2, 3]) path_d_n).img)) 3
      = 4294967295 := by
  rw [find_directory_short heap heap_zero image_f entry_zero [100] (by decide),
    put_target_short heap heap_zero image_f entry_zero path_d_n (by decide),
    diskput_short heap heap_zero image_f entry_zero time_a (some [1, 2, 3]) path_d_n (by decide)]
  decide

/-- C4: when one of the first `fat_size` entries decodes to 0, `get_free_block`
returns the smallest index whose entry is 0, the entry at that index decodes
to 1 afterwards, and every other entry, indeed every byte outside the four of
that entry, is unchanged. -/
theorem get_free_block_first_free (fat : Mem) (fat_size : Nat)
    (h : ∃ j, j < fat_size ∧ fat_entry fat j = 0) :
    ∃ i fat1, get_free_block fat fat_size = some (i, fat1) ∧
      i < fat_size ∧ fat_entry fat i = 0 ∧ (∀ j, j < i → fat_entry fat j ≠ 0) ∧
      fat_entry fat1 i = 1 ∧
      (∀ j, j ≠ i → fat_entry fat1 j = fat_entry fat j) ∧
      (∀ k, k < 4 * i ∨ 4 * i + 4 ≤ k → fat1 k = fat k) := by
  obtain ⟨j, hj, h0⟩ := h
  obtain ⟨i, hg, _⟩ := get_free_block_of_free fat fat_size j hj h0
  obtain ⟨a1, a2, a3, _⟩ := get_free_block_some _ _ _ _ hg
  exact ⟨i, fat_set fat i 1, hg, a1, a2, a3, fat_entry_set_same _ _ _ (by norm_num),
    fun j hj => fat_entry_set_other _ _ _ _ hj, fun k hk => fat_set_outside _ _ _ _ hk⟩

theorem get_free_block_first_free_witness :
    ∃ i fat1, get_free_block table_a 6 = some (i, fat1) ∧
      i < 6 ∧ fat_entry table_a i = 0 ∧ (∀ j, j < i → fat_entry table_a j ≠ 0) ∧
      fat_entry fat1 i = 1 ∧
      (∀ j, j ≠ i → fat_entry fat1 j = fat_entry table_a j) ∧
      (∀ k, k < 4 * i ∨ 4 * i + 4 ≤ k → fat1 k = table_a k) :=
  get_free_block_first_free table_a 6 ⟨3, by decide, by decide⟩

/-- C5: when two consecutive calls of `get_free_block` on a table both succeed,
the two indices differ, and for each call the entry at the returned index is 0
right before the call and not 0 right after it. -/
theorem get_free_block_twice (fat fat1 fat2 : Mem) (n1 n2 i1 i2 : Nat)
    (h1 : get_free_block fat n1 = some (i1, fat1))
    (h2 : get_free_block fat1 n2 = some (i2, fat2)) :
    i1 ≠ i2 ∧ fat_entry fat i1 = 0 ∧ fat_entry fat1 i1 ≠ 0 ∧
      fat_entry fat1 i2 = 0 ∧ fat_entry fat2 i2 ≠ 0 := by
  obtain ⟨_, a2, _, a4⟩ := get_free_block_some _ _ _ _ h1
  obtain ⟨_, b2, _, b4⟩ := get_free_block_some _ _ _ _ h2
  have c1 : fat_entry fat1 i1 = 1 := by rw [a4]; exact fat_entry_set_same _ _ _ (by norm_num)
  have c2 : fat_entry fat2 i2 = 1 := by rw [b4]; exact fat_entry_set_same _ _ _ (by norm_num)
  refine ⟨?_, a2, by omega, b2, by omega⟩
  intro he
  rw [he] at c1
  omega

theorem get_free_block_twice_witness :
    3 ≠ 4 ∧ fat_entry table_a 3 = 0 ∧ fat_entry (fat_set table_a 3 1) 3 ≠ 0 ∧
      fat_entry (fat_set table_a 3 1) 4 = 0 ∧
      fat_entry (fat_set (fat_set table_a 3 1) 4 1) 4 ≠ 0 :=
  get_free_block_twice table_a (fat_set table_a 3 1) (fat_set (fat_set table_a 3 1) 4 1)
    6 6 3 4 rfl rfl

/-- C6: `get_free_block` ends with "No free blocks available." exactly when none
of the `fat_size` entries of the table is 0.  The scan starts at index 0 and
skips no region: any free entry below `fat_size` makes the call succeed, entry 0
(the superblock's block) is handed out when it is 0, and `diskput` passes
`file_system_block_count` as `fat_size`, so that on a table that holds that many
entries, with a free directory slot and a readable source, it stops with that
error when no entry of the table is 0. -/
theorem get_free_block_fails_iff (heap : heap_after) :
    (∀ (fat : Mem) (fat_size : Nat),
      get_free_block fat fat_size = none ↔ ∀ i, i < fat_size → fat_entry fat i ≠ 0) ∧
    (∀ (fat : Mem) (fat_size : Nat), 0 < fat_size → fat_entry fat 0 = 0 →
      get_free_block fat fat_size = some (0, fat_set fat 0 1)) ∧
    (∀ (img : Mem) (uninit : dir_entry_t) (now : dir_entry_timedate_t) (data dest name : List Nat)
      (start count pos : Nat),
      4 * (get_superblock img).file_system_block_count ≤ fat_bytes (get_superblock img) →
      put_target heap img uninit dest = some (name, start, count) →
      scan_free img (get_superblock img) (scan_fuel start (last_block_of start count)) start
        = some pos →
      (∀ i, i < (get_superblock img).file_system_block_count →
        fat_entry (load_fat img (get_superblock img)) i ≠ 0) →
      (diskput heap img uninit now (some data) dest).status = put_status.no_free_blocks) := by
  refine ⟨get_free_block_none, ?_, ?_⟩
  · intro fat n hn h0
    obtain ⟨i, hg, hi⟩ := get_free_block_of_free fat n 0 hn h0
    have : i = 0 := by omega
    rw [hg, this]
  · intro img uninit now data dest name start count pos _ ht hs hall
    have hg := (get_free_block_none _ _).2 hall
    simp only [diskput, ht, hs, hg]

theorem get_free_block_fails_iff_witness :
    get_free_block table_a 2 = none ∧
    (diskput heap_zero image_b entry_zero entry_zero.create_time (some [1, 2, 3]) [97]).status
      = put_status.no_free_blocks :=
  ⟨((get_free_block_fails_iff heap_zero).1 table_a 2).2 (by decide),
   (get_free_block_fails_iff heap_zero).2.2 image_b entry_zero entry_zero.create_time [1, 2, 3]
       [97] [97]
     2 1 1024 (by decide) (by rfl) (by decide) (by decide)⟩

/-- C7: for every image whose table holds `file_system_block_count` entries, the
three 32-bit counters of `diskinfo` add up to `file_system_block_count`, without
wrapping, and the assertion holds, so that `diskinfo` prints its report. -/
theorem diskinfo_counters_sum (img : Mem)
    (_htable : 4 * (get_superblock img).file_system_block_count
      ≤ fat_bytes (get_superblock img)) :
    ∃ s, diskinfo img = some (get_superblock img, s) ∧
      s.free_blocks + s.reserved_blocks + s.allocated_blocks
        = (get_superblock img).file_system_block_count ∧
      summary_assert s (get_superblock img) = true := by
  have hn : (get_superblock img).file_system_block_count < 4294967296 := be32_lt _ _
  obtain ⟨_, _, _, h4⟩ := count_fat_spec (load_fat img (get_superblock img)) _ hn
  refine ⟨_, diskinfo_eq img, h4, ?_⟩
  have := diskinfo_eq img
  unfold diskinfo at this
  by_contra hc
  rw [if_neg hc] at this
  cases this

theorem diskinfo_counters_sum_witness :
    ∃ s, diskinfo image_a = some (get_superblock image_a, s) ∧
      s.free_blocks + s.reserved_blocks + s.allocated_blocks
        = (get_superblock image_a).file_system_block_count ∧
      summary_assert s (get_superblock image_a) = true :=
  diskinfo_counters_sum image_a (by decide)

/-- C8: for every image whose table holds `file_system_block_count` entries, the
free counter of `diskinfo` is the number of indices below
`file_system_block_count` whose big-endian entry is 0, the reserved counter the
number whose entry is 1, the allocated counter the number whose entry is
neither (0xFFFFFFFF included); an image with the same superblock and the same
entries below `file_system_block_count` gives the same report, whatever the
rest of the table holds. -/
theorem diskinfo_counters_def (img : Mem)
    (_htable : 4 * (get_superblock img).file_system_block_count
      ≤ fat_bytes (get_superblock img)) :
    ∃ s, diskinfo img = some (get_superblock img, s) ∧
      s.free_blocks = (List.range (get_superblock img).file_system_block_count).countP
        (fun i => fat_entry (load_fat img (get_superblock img)) i == 0) ∧
      s.reserved_blocks = (List.range (get_superblock img).file_system_block_count).countP
        (fun i => fat_entry (load_fat img (get_superblock img)) i == 1) ∧
      s.allocated_blocks = (List.range (get_superblock img).file_system_block_count).countP
        (fun i => fat_entry (load_fat img (get_superblock img)) i != 0
          && fat_entry (load_fat img (get_superblock img)) i != 1) ∧
      (∀ i, i < (get_superblock img).file_system_block_count →
        fat_entry (load_fat img (get_superblock img)) i = 4294967295 →
        fat_entry (load_fat img (get_superblock img)) i != 0
          && fat_entry (load_fat img (get_superblock img)) i != 1) ∧
      (∀ img2 : Mem, get_superblock img2 = get_superblock img →
        (∀ i, i < (get_superblock img).file_system_block_count →
          fat_entry (load_fat img2 (get_superblock img)) i
            = fat_entry (load_fat img (get_superblock img)) i) →
        diskinfo img2 = diskinfo img) := by
  have hn : (get_superblock img).file_system_block_count < 4294967296 := be32_lt _ _
  obtain ⟨h1, h2, h3, _⟩ := count_fat_spec (load_fat img (get_superblock img)) _ hn
  refine ⟨_, diskinfo_eq img, h1, h2, h3, ?_, ?_⟩
  · intro i _ he
    rw [he]; rfl
  · intro img2 hsb hsame
    rw [diskinfo_eq, diskinfo_eq, hsb, count_fat_congr _ _ _ hsame]

theorem diskinfo_counters_def_witness :
    ∃ s, diskinfo image_a = some (get_superblock image_a, s) ∧
      s.free_blocks = (List.range (get_superblock image_a).file_system_block_count).countP
        (fun i => fat_entry (load_fat image_a (get_superblock image_a)) i == 0) ∧
      s.reserved_blocks = (List.range (get_superblock image_a).file_system_block_count).countP
        (fun i => fat_entry (load_fat image_a (get_superblock image_a)) i == 1) ∧
      s.allocated_blocks = (List.range (get_superblock image_a).file_system_block_count).countP
        (fun i => fat_entry (load_fat image_a (get_superblock image_a)) i != 0
          && fat_entry (load_fat image_a (get_superblock image_a)) i != 1) ∧
      (∀ i, i < (get_superblock image_a).file_system_block_count →
        fat_entry (load_fat image_a (get_superblock image_a)) i = 4294967295 →
        fat_entry (load_fat image_a (get_superblock image_a)) i != 0
          && fat_entry (load_fat image_a (get_superblock image_a)) i != 1) ∧
      (∀ img2 : Mem, get_superblock img2 = get_superblock image_a →
        (∀ i, i < (get_superblock image_a).file_system_block_count →
          fat_entry (load_fat img2 (get_superblock image_a)) i
            = fat_entry (load_fat image_a (get_superblock image_a)) i) →
        diskinfo img2 = diskinfo image_a) :=
  diskinfo_counters_def image_a (by decide)

/-- C10: when the path is empty after the leading `./` or `/` is stripped, as
for `./`, `/` and the empty path, the directory that `disklist` lists, the one
`find_file` searches and the one `diskput` writes into is the root: start
block `root_dir_start_block` and block count `root_dir_block_count` of the
superblock. -/
theorem empty_path_is_root (heap : heap_after) (img : Mem) (uninit : dir_entry_t) (path : List Nat)
    (h : skip_lead path = []) :
    disklist_dir heap img uninit path
      = some ((get_superblock img).root_dir_start_block,
          (get_superblock img).root_dir_block_count) ∧
    file_target heap img uninit path
      = some ([], (get_superblock img).root_dir_start_block,
          (get_superblock img).root_dir_block_count) ∧
    put_target heap img uninit path
      = some ([], (get_superblock img).root_dir_start_block,
          (get_superblock img).root_dir_block_count) ∧
    skip_lead [46, 47] = [] ∧ skip_lead [47] = [] ∧ skip_lead [] = [] := by
  refine ⟨?_, ?_, ?_, rfl, rfl, rfl⟩
  · unfold disklist_dir
    rw [h]
    rfl
  · unfold file_target
    rw [h]
    rfl
  · unfold put_target
    rw [h]
    rfl

theorem empty_path_is_root_witness :
    disklist_dir heap_zero image_a entry_zero [46, 47] = some (2, 1) ∧
    file_target heap_zero image_a entry_zero [46, 47] = some ([], 2, 1) ∧
    put_target heap_zero image_a entry_zero [46, 47] = some ([], 2, 1) :=
  ⟨(empty_path_is_root heap_zero image_a entry_zero [46, 47] rfl).1,
    (empty_path_is_root heap_zero image_a entry_zero [46, 47] rfl).2.1,
    (empty_path_is_root heap_zero image_a entry_zero [46, 47] rfl).2.2.1⟩

set_option maxRecDepth 1000000 in
/-- C12, the code at a directory whose blocks are not consecutive: the
directory `d` of `image_e` has the blocks 4 and 6, linked in the table; block
4 is full and the first free slot along the chain is slot 0 of block 6, at
offset 768.  `diskput` to `d/n` runs to its end and writes the entry at offset
640, in block 5, which is the data block of the file `g`: the first byte of
that file changes from 0 to 3, the slot at 768 stays free, and `find_file`
does not find `d/n` afterwards.  This holds whatever follows the entry buffers
on the heap. -/
theorem diskput_scans_consecutive_blocks (heap heap2 : heap_after) :
    find_directory heap image_e entry_zero [100] = some (read_entry image_e 256) ∧
    (read_entry image_e 256).start_block = 4 ∧ (read_entry image_e 256).block_count = 2 ∧
    chain_block (load_fat image_e (get_superblock image_e)) 1 4 = 6 ∧
    (∀ i, i < slots (get_superblock image_e) →
      rd8 image_e (dir_slot (load_fat image_e (get_superblock image_e)) (get_superblock image_e)
        4 0 i) ≠ 0) ∧
    dir_slot (load_fat image_e (get_superblock image_e)) (get_superblock image_e) 4 1 0
      = 768 ∧
    rd8 image_e 768 = 0 ∧
    (diskput heap image_e entry_zero time_a (some [1, 2, 3]) path_d_n).status = put_status.done ∧
    (diskput heap image_e entry_zero time_a (some [1, 2, 3]) path_d_n).entry_address = 640 ∧
    640 = block_off (get_superblock image_e) 5 ∧
    (read_entry image_e 320).status = 3 ∧ (read_entry image_e 320).start_block = 5 ∧
    rd8 image_e 640 = 0 ∧
    rd8 (diskput heap image_e entry_zero time_a (some [1, 2, 3]) path_d_n).img 640 = 3 ∧
    rd8 (diskput heap image_e entry_zero time_a (some [1, 2, 3]) path_d_n).img 768 = 0 ∧
    find_file heap2 (diskput heap image_e entry_zero time_a (some [1, 2, 3]) path_d_n).img
        entry_zero
      path_d_n = none := by
  rw [find_directory_short heap heap_zero image_e entry_zero [100] (by decide),
    diskput_short heap heap_zero image_e entry_zero time_a (some [1, 2, 3]) path_d_n (by decide),
    find_file_short heap2 heap_zero _ entry_zero path_d_n (by decide)]
  decide

/-- C13: in a well-formed image, when the target directory of `diskput`
resolves to a directory region, a free slot is found in it and the table has a
free entry for every block needed (one at least), a put of n bytes runs to its
end and writes its entry into that slot, which was free; every byte of every
slot of the directory that was not free is unchanged, and so is every byte
outside the new slot of every block outside the FAT region that the table
marks as not free; the entry read back from the new slot has status 3, the
name as `strncpy` stores it (the name itself when shorter than 31 bytes, so
that `find_file` matches it) and size n.  When the directory is the root and
`disklist` reads its slots (one block, or blocks of a multiple of 64 bytes),
the listing of the root afterwards holds the entries listed before and the new
entry, and nothing else.  The put and the two listings each have their own
memory after the entry buffers. -/
theorem diskput_keeps_entries (heap : heap_after) (img : Mem) (uninit : dir_entry_t)
    (now : dir_entry_timedate_t)
    (data dest name : List Nat) (start count pos : Nat)
    (hwf : well_formed img)
    (ht : put_target heap img uninit dest = some (name, start, count))
    (hdir : dir_region img start count)
    (hs : scan_free img (get_superblock img) (scan_fuel start (last_block_of start count)) start
      = some pos)
    (hfree1 : 1 ≤ free_count (load_fat img (get_superblock img))
      (get_superblock img).file_system_block_count)
    (hfree : (data.length + (get_superblock img).block_size - 1) / (get_superblock img).block_size
      ≤ free_count (load_fat img (get_superblock img))
        (get_superblock img).file_system_block_count)
    (hchars : ∀ c ∈ name, c < 256) :
    (diskput heap img uninit now (some data) dest).status = put_status.done ∧
    (diskput heap img uninit now (some data) dest).entry_address = pos ∧
    rd8 img pos = 0 ∧
    (∃ j0 i0, j0 < count ∧ i0 < slots (get_superblock img) ∧
      pos = block_off (get_superblock img) (start + j0) + entry_size * i0) ∧
    get_superblock (diskput heap img uninit now (some data) dest).img = get_superblock img ∧
    (∀ j, j < count → ∀ i, i < slots (get_superblock img) →
      rd8 img (block_off (get_superblock img) (start + j) + entry_size * i) ≠ 0 →
      ∀ k, block_off (get_superblock img) (start + j) + entry_size * i ≤ k →
        k < block_off (get_superblock img) (start + j) + entry_size * i + entry_size →
        (diskput heap img uninit now (some data) dest).img k = img k) ∧
    (∀ Y, Y < (get_superblock img).file_system_block_count →
      (Y < (get_superblock img).fat_start_block ∨
        (get_superblock img).fat_start_block + (get_superblock img).fat_block_count ≤ Y) →
      fat_entry (load_fat img (get_superblock img)) Y ≠ 0 →
      ∀ k, block_off (get_superblock img) Y ≤ k →
        k < block_off (get_superblock img) Y + (get_superblock img).block_size →
        (k < pos ∨ pos + entry_size ≤ k) →
        (diskput heap img uninit now (some data) dest).img k = img k) ∧
    (read_entry (diskput heap img uninit now (some data) dest).img pos).status = 3 ∧
    (read_entry (diskput heap img uninit now (some data) dest).img pos).filename
      = strncpy31 name ∧
    (name.length < 31 → ∀ beyond : Mem,
      entry_matches beyond (diskput heap img uninit now (some data) dest).img 3 name pos = true) ∧
    (read_entry (diskput heap img uninit now (some data) dest).img pos).size = data.length ∧
    (start = (get_superblock img).root_dir_start_block →
      count = (get_superblock img).root_dir_block_count →
      (64 ∣ (get_superblock img).block_size ∨ count = 1) →
      ∀ (heap2 heap3 : heap_after) (uninit2 uninit3 : dir_entry_t) (subdir : List Nat),
      (skip_lead subdir).length = 0 →
      ∃ l l2, disklist heap2 img uninit2 subdir = some l ∧
        disklist heap3 (diskput heap img uninit now (some data) dest).img uninit3 subdir
          = some l2 ∧
        (∀ e ∈ l, e ∈ l2) ∧
        read_entry (diskput heap img uninit now (some data) dest).img pos ∈ l2 ∧
        ∀ e ∈ l2, e ∈ l ∨
          e = read_entry (diskput heap img uninit now (some data) dest).img pos) := by
  obtain ⟨b0, nb, j0, i0, hd, hj0, hi0, hpos, hz⟩ := diskput_dir_done img uninit now data dest
    name start count pos hwf ht hdir hs hfree1 hfree
  obtain ⟨hd1, hd2, hd3, hd4⟩ := hdir
  obtain ⟨hsb, hfat, hfr, ⟨M, hM⟩, haddr⟩ := put_done_frame img now data name pos b0 nb _ hwf hd
    (start + j0) i0 (by omega) (by omega) (by omega) hi0 hpos
  obtain ⟨hB, hoff, _, _, _, _⟩ := wf_basic img hwf
  have hsbeq : get_superblock (diskput heap img uninit now (some data) dest).img
      = get_superblock img := get_superblock_congr _ _ hsb
  have hn := put_size_lt img now data name pos b0 nb _ hwf hd
  have hN : (get_superblock img).file_system_block_count < 4294967296 := be32_lt _ _
  have hb32 : b0 < 4294967296 := by
    have := hd.first_free.1
    omega
  have hest : (diskput heap img uninit now (some data) dest).entry.status = 3 := by
    rw [hd.entry]; rfl
  have hefn : (diskput heap img uninit now (some data) dest).entry.filename = strncpy31 name := by
    rw [hd.entry]; rfl
  have heun : (diskput heap img uninit now (some data) dest).entry.unused.length = 6 := by
    rw [hd.entry]; exact rdBytes_length _ _ _
  have hesz : (diskput heap img uninit now (some data) dest).entry.size = data.length := by
    rw [hd.entry]; exact u32_of_lt _ hn
  have hebc : (diskput heap img uninit now (some data) dest).entry.block_count
      = u32 (1 + data.length) := by
    rw [hd.entry]; rfl
  have hesb : (diskput heap img uninit now (some data) dest).entry.start_block = b0 := by
    rw [hd.entry]; rfl
  have hecy : (diskput heap img uninit now (some data) dest).entry.create_time.year
      = now.year % 65536 := by
    rw [hd.entry]; rfl
  have hemy : (diskput heap img uninit now (some data) dest).entry.modify_time.year
      = now.year % 65536 := by
    rw [hd.entry]; rfl
  have hrst : rd8 (diskput heap img uninit now (some data) dest).img pos = 3 := by
    rw [hM]
    unfold rd8
    rw [(wrBytes_entry_head M pos _).1, hest]
  have hrd := read_entry_written M pos (diskput heap img uninit now (some data) dest).entry
    (by rw [hesb]; exact hb32) (by rw [hebc]; exact u32_lt _) (by rw [hesz]; exact hn)
    (by rw [hecy]; exact Nat.mod_lt _ (Nat.succ_pos _))
    (by rw [hemy]; exact Nat.mod_lt _ (Nat.succ_pos _))
  rw [← hM] at hrd
  have hrfn := read_entry_name M pos (diskput heap img uninit now (some data) dest).entry name
    hefn heun hchars
  rw [← hM] at hrfn
  have hfr2 : ∀ Y, Y < (get_superblock img).file_system_block_count →
      (Y < (get_superblock img).fat_start_block ∨
        (get_superblock img).fat_start_block + (get_superblock img).fat_block_count ≤ Y) →
      fat_entry (load_fat img (get_superblock img)) Y ≠ 0 →
      ∀ k, block_off (get_superblock img) Y ≤ k →
        k < block_off (get_superblock img) Y + (get_superblock img).block_size →
        (k < pos ∨ pos + entry_size ≤ k) →
        (diskput heap img uninit now (some data) dest).img k = img k := by
    intro Y hY1 hY2 hY3 k hk1 hk2 hk3
    rw [hoff Y hY1] at hk1 hk2
    exact hfr Y hY1 hY2 hY3 k hk1 hk2 hk3
  refine ⟨hd.status, haddr, hz, ⟨j0, i0, hj0, hi0, ?_⟩, hsbeq, ?_, hfr2, hrst, hrfn, ?_, ?_, ?_⟩
  · rw [hpos, hoff (start + j0) (by omega)]
    rfl
  · intro j hj i hi hused k hk1 hk2
    rw [hoff (start + j) (by omega)] at hused hk1 hk2
    unfold entry_size at hused hk1 hk2
    have hfit := slot_fits (get_superblock img) i hi
    have hfit0 := slot_fits (get_superblock img) i0 hi0
    apply hfr (start + j) (by omega) (by omega) (hd4 j hj) k (by omega) (by omega)
    rw [hpos]
    apply slot_apart _ _ _ _ _ hfit0 hfit _ k hk1 hk2
    intro he
    rw [he, ← hpos] at hused
    exact hused hz
  · intro hname beyond
    rw [hM]
    exact entry_matches_written M pos _ name hest hefn heun hname hchars
  · rw [hrd.2.2.1, hesz]
  · intro hstart hcount hseq heap2 heap3 uninit2 uninit3 subdir h0
    subst hstart
    subst hcount
    exact put_listing img _ pos j0 i0 hwf hseq hj0 hi0 hpos hz (by rw [hrst]; norm_num) hsbeq hfr
      uninit2 uninit3 subdir h0

set_option maxRecDepth 1000000 in
theorem diskput_keeps_entries_witness :
    (diskput heap_zero image_a entry_zero time_a (some data_600) name_new).status = put_status.done
        ∧
    (diskput heap_zero image_a entry_zero time_a (some data_600) name_new).entry_address = 1088 ∧
    rd8 image_a 1088 = 0 ∧
    rd8 image_a (block_off (get_superblock image_a) (2 + 0) + entry_size * 0) ≠ 0 ∧
    (diskput heap_zero image_a entry_zero time_a (some data_600) name_new).img 1036 = image_a 1036 ∧
    (read_entry (diskput heap_zero image_a entry_zero time_a (some data_600) name_new).img
        1088).status
      = 3 ∧
    (read_entry (diskput heap_zero image_a entry_zero time_a (some data_600) name_new).img
        1088).filename
      = strncpy31 name_new ∧
    entry_matches heap_zero.file_entry (diskput heap_zero image_a entry_zero time_a (some data_600)
        name_new).img 3 name_new
      1088 = true ∧
    (read_entry (diskput heap_zero image_a entry_zero time_a (some data_600) name_new).img
        1088).size
      = data_600.length ∧
    (∃ l l2, disklist heap_zero image_a entry_zero [] = some l ∧
      disklist heap_zero (diskput heap_zero image_a entry_zero time_a (some data_600) name_new).img
          entry_zero []
        = some l2 ∧
      (∀ e ∈ l, e ∈ l2) ∧
      read_entry (diskput heap_zero image_a entry_zero time_a (some data_600) name_new).img 1088 ∈
          l2 ∧
      ∀ e ∈ l2, e ∈ l ∨
        e = read_entry (diskput heap_zero image_a entry_zero time_a (some data_600) name_new).img
            1088) ∧
    disklist heap_zero image_a entry_zero [] = some [read_entry image_a 1024] ∧
    disklist heap_zero (diskput heap_zero image_a entry_zero time_a (some data_600) name_new).img
        entry_zero []
      = some [read_entry image_a 1024,
        read_entry (diskput heap_zero image_a entry_zero time_a (some data_600) name_new).img 1088]
            ∧
    (read_entry image_a 1024).size = 5 ∧
    (read_entry (diskput heap_zero image_a entry_zero time_a (some data_600) name_new).img
        1088).size
      = 600 :=
  have h := diskput_keeps_entries heap_zero image_a entry_zero time_a data_600 name_new name_new 2
      1 1088
    image_a_well_formed (by decide) (by decide) (by rfl) (by decide) (by decide) (by decide)
  ⟨h.1, h.2.1, h.2.2.1, by decide,
    h.2.2.2.2.2.1 0 (by decide) 0 (by decide) (by decide) 1036 (by decide) (by decide),
    h.2.2.2.2.2.2.2.1, h.2.2.2.2.2.2.2.2.1, h.2.2.2.2.2.2.2.2.2.1 (by decide) heap_zero.file_entry,
    h.2.2.2.2.2.2.2.2.2.2.1,
    h.2.2.2.2.2.2.2.2.2.2.2 (by decide) (by decide) (Or.inr (by decide)) heap_zero heap_zero
      entry_zero entry_zero []
      (by decide),
    by decide, by decide, by decide, by decide⟩

set_option maxRecDepth 1000000 in
/-- C14, the code at a name of 31 bytes: `diskput` runs to its end and the 31
bytes of the filename field it stores are the 31 bytes of the name, none of
them NUL, so the field is not terminated and holds 31 name bytes.  When the 6
unused bytes after the field are not NUL (0xFF here), `find_file` does not
find the file under the name it was stored with.  This holds whatever follows
the entry buffers on the heap. -/
theorem diskput_name_31_unterminated (heap heap2 : heap_after) :
    name_31.length = 31 ∧ (∀ c ∈ name_31, c ≠ 0 ∧ c ≠ 47) ∧
    strncpy31 name_31 = name_31 ∧
    (diskput heap image_a entry_zero time_a (some [1, 2, 3]) name_31).status = put_status.done ∧
    (read_entry (diskput heap image_a entry_zero time_a (some [1, 2, 3]) name_31).img
      (diskput heap image_a entry_zero time_a (some [1, 2, 3]) name_31).entry_address).filename
      = name_31 ∧
    (∀ c ∈ (read_entry (diskput heap image_a entry_zero time_a (some [1, 2, 3]) name_31).img
      (diskput heap image_a entry_zero time_a (some [1, 2, 3]) name_31).entry_address).filename,
      c ≠ 0) ∧
    (diskput heap image_a3 entry_zero time_a (some [1, 2, 3]) name_31).status = put_status.done ∧
    (read_entry (diskput heap image_a3 entry_zero time_a (some [1, 2, 3]) name_31).img
      (diskput heap image_a3 entry_zero time_a (some [1, 2, 3]) name_31).entry_address).status
      = 3 ∧
    find_file heap2 (diskput heap image_a3 entry_zero time_a (some [1, 2, 3]) name_31).img
        entry_zero
      name_31 = none := by
  rw [diskput_short heap heap_zero image_a entry_zero time_a (some [1, 2, 3]) name_31 (by decide),
    diskput_short heap heap_zero image_a3 entry_zero time_a (some [1, 2, 3]) name_31 (by decide),
    find_file_short heap2 heap_zero _ entry_zero name_31 (by decide)]
  decide

/-- C15: when `find_file` returns an entry and the walk along the table from its
start_block visits the k blocks of a list, each with its entry in the table
buffer, and then reaches 0xFFFFFFFF, `diskget` ends and what it writes is the
concatenation, in the order of the walk, of the block_size bytes of each of
these blocks, k * block_size bytes in all; the size field of the entry plays
no part. -/
theorem diskget_whole_blocks (heap : heap_after) (img : Mem) (uninit : dir_entry_t) (path : List
    Nat)
    (e : dir_entry_t) (blocks : List Nat)
    (hfind : find_file heap img uninit path = some e)
    (hwalk : walks (load_fat img (get_superblock img)) e.start_block blocks)
    (_htable : ∀ b ∈ blocks, 4 * b + 4 ≤ fat_bytes (get_superblock img)) :
    diskget heap img uninit path = get_result.written
      ((blocks.map (fun b => rdBytes img (block_off (get_superblock img) b)
        (get_superblock img).block_size)).flatten) ∧
    ((blocks.map (fun b => rdBytes img (block_off (get_superblock img) b)
        (get_superblock img).block_size)).flatten).length
      = blocks.length * (get_superblock img).block_size := by
  have hlen := walks_length _ _ _ (find_file_start_lt img uninit path e hfind) hwalk
  have hrd := read_chain_walks img (load_fat img (get_superblock img)) (get_superblock img)
    e.start_block blocks hwalk 4294967296 (by omega)
  refine ⟨?_, flatten_blocks_length img (get_superblock img) blocks⟩
  unfold diskget
  rw [hfind]
  simp only
  rw [hrd]

theorem diskget_whole_blocks_witness :
    find_file heap_zero image_e entry_zero [103] = some (read_entry image_e 320) ∧
    walks (load_fat image_e (get_superblock image_e)) (read_entry image_e 320).start_block [5] ∧
    (read_entry image_e 320).size = 4 ∧
    diskget heap_zero image_e entry_zero [103] = get_result.written
      (([5].map (fun b => rdBytes image_e (block_off (get_superblock image_e) b)
        (get_superblock image_e).block_size)).flatten) ∧
    (([5].map (fun b => rdBytes image_e (block_off (get_superblock image_e) b)
        (get_superblock image_e).block_size)).flatten).length
      = [5].length * (get_superblock image_e).block_size :=
  have h := diskget_whole_blocks heap_zero image_e entry_zero [103] (read_entry image_e 320) [5]
    (by decide) (by decide) (by decide)
  ⟨by decide, by decide, by decide, h.1, h.2⟩

/-- C16 (codec round trip): the bytes stored for a 32-bit or a 16-bit value in
big-endian order, as `diskput` stores its fields, decode to the same value the
way `get_superblock`, `find_directory`, `find_file`, `disklist` and `diskget`
decode them.  On a little-endian and on a big-endian host alike `htonl`,
`ntohl` and `htons` undo themselves, the object they yield lies in memory as the
big-endian bytes of the value, the object read from the file is turned by them
into the big-endian value of its bytes, and a value converted, stored, read
and converted again is the value itself.  The converted fields of an entry
(start_block, block_count, size and the two years) written as `diskput`
writes it are read back unchanged. -/
theorem codec_round_trip :
    (∀ (m : Mem) (k v : Nat), v < 4294967296 → be32 (wrBytes m k (enc32 v)) k = v) ∧
    (∀ (m : Mem) (k v : Nat), v < 65536 → be16 (wrBytes m k (enc16 v)) k = v) ∧
    (∀ (little : Bool) (v : Nat), v < 4294967296 →
      htonl little (htonl little v) = v ∧ ntohl little (htonl little v) = v ∧
      host32_bytes little (htonl little v) = enc32 v) ∧
    (∀ (little : Bool) (v : Nat), v < 65536 →
      htons little (htons little v) = v ∧ host16_bytes little (htons little v) = enc16 v) ∧
    (∀ (little : Bool) (m : Mem) (k : Nat),
      htonl little (host32 little m k) = be32 m k ∧
      htons little (host16 little m k) = be16 m k) ∧
    (∀ (little : Bool) (m : Mem) (k v : Nat), v < 4294967296 →
      htonl little (host32 little (wrBytes m k (host32_bytes little (htonl little v))) k) = v) ∧
    (∀ (little : Bool) (m : Mem) (k v : Nat), v < 65536 →
      htons little (host16 little (wrBytes m k (host16_bytes little (htons little v))) k) = v) ∧
    (∀ (m : Mem) (k : Nat) (e : dir_entry_t), e.start_block < 4294967296 →
      e.block_count < 4294967296 → e.size < 4294967296 → e.create_time.year < 65536 →
      e.modify_time.year < 65536 →
      (read_entry (wrBytes m k (encode_entry e)) k).start_block = e.start_block ∧
      (read_entry (wrBytes m k (encode_entry e)) k).block_count = e.block_count ∧
      (read_entry (wrBytes m k (encode_entry e)) k).size = e.size ∧
      (read_entry (wrBytes m k (encode_entry e)) k).create_time.year = e.create_time.year ∧
      (read_entry (wrBytes m k (encode_entry e)) k).modify_time.year
        = e.modify_time.year) := by
  refine ⟨be32_wrBytes_enc32, be16_wrBytes_enc16, ?_, ?_, ?_, ?_, ?_, read_entry_written⟩
  · intro little v hv
    exact ⟨htonl_htonl little v hv, htonl_htonl little v hv, host32_bytes_htonl little v hv⟩
  · intro little v hv
    exact ⟨htons_htons little v hv, host16_bytes_htons little v hv⟩
  · intro little m k
    exact ⟨htonl_host32 little m k, htons_host16 little m k⟩
  · intro little m k v hv
    have hlt : htonl little v < 4294967296 := by
      cases little
      · simp only [htonl, Bool.false_eq_true, if_false]
        exact Nat.mod_lt _ (Nat.succ_pos _)
      · simp only [htonl, if_true]
        exact bswap32_lt _
    rw [host32_wrBytes little m k _ hlt, htonl_htonl little v hv]
  · intro little m k v hv
    have hlt : htons little v < 65536 := by
      cases little
      · simp only [htons, Bool.false_eq_true, if_false]
        exact Nat.mod_lt _ (Nat.succ_pos _)
      · simp only [htons, if_true]
        exact bswap16_lt _
    rw [host16_wrBytes little m k _ hlt, htons_htons little v hv]

theorem codec_round_trip_witness :
    (600 < 4294967296 ∧ be32 (wrBytes image_a 1033 (enc32 600)) 1033 = 600) ∧
    (2024 < 65536 ∧ be16 (wrBytes image_a 1037 (enc16 2024)) 1037 = 2024) ∧
    (305419896 < 4294967296 ∧ htonl true (htonl true 305419896) = 305419896 ∧
      ntohl true (htonl true 305419896) = 305419896 ∧
      host32_bytes true (htonl true 305419896) = enc32 305419896) ∧
    (2024 < 65536 ∧ htons true (htons true 2024) = 2024 ∧
      host16_bytes true (htons true 2024) = enc16 2024) ∧
    (4294967295 < 4294967296 ∧
      htonl true (host32 true (wrBytes image_a 516 (host32_bytes true (htonl true 4294967295)))
        516) = 4294967295) ∧
    (65535 < 65536 ∧
      htons false (host16 false (wrBytes image_a 8 (host16_bytes false (htons false 65535))) 8)
        = 65535) :=
  ⟨⟨by decide, codec_round_trip.1 image_a 1033 600 (by decide)⟩,
    ⟨by decide, codec_round_trip.2.1 image_a 1037 2024 (by decide)⟩,
    ⟨by decide, codec_round_trip.2.2.1 true 305419896 (by decide)⟩,
    ⟨by decide, codec_round_trip.2.2.2.1 true 2024 (by decide)⟩,
    ⟨by decide, codec_round_trip.2.2.2.2.2.1 true image_a 516 4294967295 (by decide)⟩,
    ⟨by decide, codec_round_trip.2.2.2.2.2.2.1 false image_a 8 65535 (by decide)⟩⟩

/-- C17, counterexample: the record is not 24 bytes long.  Two images that are
equal in their first 24 bytes, and everywhere else but at offset 29, have
different superblock records: the last field, root_dir_block_count, is read
from the bytes 26 to 29. -/
theorem superblock_record_not_24 :
    super_block_size ≠ 24 ∧
    (∀ k, k < 24 → image_a2 k = image_a k) ∧
    get_superblock image_a2 ≠ get_superblock image_a ∧
    (get_superblock image_a).root_dir_block_count = 1 ∧
    (get_superblock image_a2).root_dir_block_count = 2 := by
  refine ⟨by decide, by decide, by decide, by decide, by decide⟩

/-- C17, amended: the superblock record read at offset 0 is exactly 30 bytes
long.  The packed record has 8 + 2 + 5 * 4 = 30 bytes, its last field
root_dir_block_count is decoded from the bytes 26 to 29, and two images yield
the same record exactly when their first 30 bytes are the same. -/
theorem superblock_record_30 :
    super_block_size = 30 ∧
    (∀ m : Mem, (get_superblock m).fs_id = rdBytes m 0 8 ∧
      (get_superblock m).block_size = be16 m 8 ∧
      (get_superblock m).file_system_block_count = be32 m 10 ∧
      (get_superblock m).fat_start_block = be32 m 14 ∧
      (get_superblock m).fat_block_count = be32 m 18 ∧
      (get_superblock m).root_dir_start_block = be32 m 22 ∧
      (get_superblock m).root_dir_block_count = be32 m 26) ∧
    (∀ m m2 : Mem, get_superblock m2 = get_superblock m ↔
      ∀ k, k < super_block_size → rd8 m2 k = rd8 m k) :=
  ⟨rfl, fun _ => ⟨rfl, rfl, rfl, rfl, rfl, rfl, rfl⟩, fun m m2 => get_superblock_bytes m m2⟩

theorem superblock_record_30_witness :
    (∀ k, k < super_block_size → rd8 (wrBytes image_a 30 [9]) k = rd8 image_a k) ∧
    get_superblock (wrBytes image_a 30 [9]) = get_superblock image_a :=
  ⟨by decide, (superblock_record_30.2.2 image_a (wrBytes image_a 30 [9])).2 (by decide)⟩

set_option maxRecDepth 1000000 in
/-- C18, counterexample: after the put of 600 bytes into `image_a` the entry
stored at `entry_address` has size 600 and block_count 601, not 600. -/
theorem diskput_block_count_601 :
    (diskput heap_zero image_a entry_zero time_a (some data_600) name_new).status = put_status.done
        ∧
    data_600.length = 600 ∧
    (read_entry (diskput heap_zero image_a entry_zero time_a (some data_600) name_new).img
      (diskput heap_zero image_a entry_zero time_a (some data_600) name_new).entry_address).size =
          600 ∧
    (read_entry (diskput heap_zero image_a entry_zero time_a (some data_600) name_new).img
      (diskput heap_zero image_a entry_zero time_a (some data_600)
          name_new).entry_address).block_count
      = 601 ∧
    (read_entry (diskput heap_zero image_a entry_zero time_a (some data_600) name_new).img
      (diskput heap_zero image_a entry_zero time_a (some data_600)
          name_new).entry_address).block_count
      ≠ data_600.length := by
  refine ⟨by decide, by decide, by decide, by decide, by decide⟩

/-- C18, amended: when the target directory of `diskput` resolves, a free slot
is found in it and the table has a free entry for every block needed (one at
least), a put of n < 2^32 bytes runs to its end and the entry it rewrites at
`entry_address` has a decoded size of n and a decoded block_count of
(1 + n) mod 2^32: the field starts at 1, and the bytes of every chunk are
added to it as they are to size. -/
theorem diskput_size_and_count (heap : heap_after) (img : Mem) (uninit : dir_entry_t) (now :
    dir_entry_timedate_t)
    (data dest name : List Nat) (start count pos : Nat)
    (ht : put_target heap img uninit dest = some (name, start, count))
    (hs : scan_free img (get_superblock img) (scan_fuel start (last_block_of start count)) start
      = some pos)
    (hfree1 : 1 ≤ free_count (load_fat img (get_superblock img))
      (get_superblock img).file_system_block_count)
    (hfree : (data.length + (get_superblock img).block_size - 1) / (get_superblock img).block_size
      ≤ free_count (load_fat img (get_superblock img))
        (get_superblock img).file_system_block_count)
    (hn : data.length < 4294967296) :
    (diskput heap img uninit now (some data) dest).status = put_status.done ∧
    (diskput heap img uninit now (some data) dest).entry.size = data.length ∧
    (diskput heap img uninit now (some data) dest).entry.block_count = u32 (1 + data.length) ∧
    (read_entry (diskput heap img uninit now (some data) dest).img
      (diskput heap img uninit now (some data) dest).entry_address).size = data.length ∧
    (read_entry (diskput heap img uninit now (some data) dest).img
      (diskput heap img uninit now (some data) dest).entry_address).block_count
      = u32 (1 + data.length) ∧
    (data.length < 4294967295 →
      (read_entry (diskput heap img uninit now (some data) dest).img
        (diskput heap img uninit now (some data) dest).entry_address).block_count
        = data.length + 1) := by
  obtain ⟨b0, nb, hd⟩ := diskput_runs img uninit now data dest name start count pos ht hs
    hfree1 hfree
  have hN : (get_superblock img).file_system_block_count < 4294967296 := be32_lt _ _
  have hb32 : b0 < 4294967296 := by
    have := hd.first_free.1
    omega
  have hsz : (diskput heap img uninit now (some data) dest).entry.size = data.length := by
    rw [hd.entry]
    exact u32_of_lt _ hn
  have hbc : (diskput heap img uninit now (some data) dest).entry.block_count
      = u32 (1 + data.length) := by
    rw [hd.entry]
    rfl
  have hst : (diskput heap img uninit now (some data) dest).entry.start_block = b0 := by
    rw [hd.entry]
    rfl
  have hcy : (diskput heap img uninit now (some data) dest).entry.create_time.year
      = now.year % 65536 := by
    rw [hd.entry]
    rfl
  have hmy : (diskput heap img uninit now (some data) dest).entry.modify_time.year
      = now.year % 65536 := by
    rw [hd.entry]
    rfl
  have hrd := read_entry_written
    (blit
      (write_all (get_superblock img)
        (wrBytes img pos (encode_entry (put_entry img now name pos b0 0 1)))
        ((b0 :: nb).zip (fread_chunks (get_superblock img).block_size data.length data)))
      (block_off (get_superblock img) (get_superblock img).fat_start_block)
      (diskput heap img uninit now (some data) dest).fat
      (fat_bytes (get_superblock img)))
    (u32 pos) (diskput heap img uninit now (some data) dest).entry
    (by rw [hst]; exact hb32) (by rw [hbc]; exact u32_lt _) (by rw [hsz]; exact hn)
    (by rw [hcy]; exact Nat.mod_lt _ (Nat.succ_pos _))
    (by rw [hmy]; exact Nat.mod_lt _ (Nat.succ_pos _))
  rw [← hd.image, ← hd.address] at hrd
  refine ⟨hd.status, hsz, hbc, ?_, ?_, ?_⟩
  · rw [hrd.2.2.1, hsz]
  · rw [hrd.2.1, hbc]
  · intro hlt
    rw [hrd.2.1, hbc]
    unfold u32
    omega

set_option maxRecDepth 1000000 in
theorem diskput_size_and_count_witness :
    data_600.length < 4294967296 ∧ data_600.length < 4294967295 ∧
    (diskput heap_zero image_a entry_zero time_a (some data_600) name_new).status = put_status.done
        ∧
    (diskput heap_zero image_a entry_zero time_a (some data_600) name_new).entry.size
      = data_600.length ∧
    (read_entry (diskput heap_zero image_a entry_zero time_a (some data_600) name_new).img
      (diskput heap_zero image_a entry_zero time_a (some data_600) name_new).entry_address).size
      = data_600.length ∧
    (read_entry (diskput heap_zero image_a entry_zero time_a (some data_600) name_new).img
      (diskput heap_zero image_a entry_zero time_a (some data_600)
          name_new).entry_address).block_count
      = u32 (1 + data_600.length) ∧
    (read_entry (diskput heap_zero image_a entry_zero time_a (some data_600) name_new).img
      (diskput heap_zero image_a entry_zero time_a (some data_600)
          name_new).entry_address).block_count
      = data_600.length + 1 :=
  have h := diskput_size_and_count heap_zero image_a entry_zero time_a data_600 name_new name_new 2
      1 1088
    (by decide) (by rfl) (by decide) (by decide) (by decide)
  ⟨by decide, by decide, h.1, h.2.1, h.2.2.2.1, h.2.2.2.2.1, h.2.2.2.2.2 (by decide)⟩

/-- C19: in a well-formed image, when the target directory of `diskput` resolves
to a directory region, a free slot is found in it and the table has a free
entry for every block needed (one at least), `diskput` runs to its end and for
the entry it stored at `entry_address` the walk of `diskget` along the table
of the new image, from the start_block of that entry, visits the blocks handed
out, no block twice and at most file_system_block_count blocks, and then
reaches 0xFFFFFFFF; the copy loop of `diskget` ends within
file_system_block_count + 1 tests of its condition, and `diskget` on a path
that `find_file` resolves to this entry ends with the file written, whatever
follows the entry buffers of that later call on the heap. -/
theorem diskput_chain_terminates (heap : heap_after) (img : Mem) (uninit : dir_entry_t)
    (now : dir_entry_timedate_t) (data dest name : List Nat) (start count pos : Nat)
    (hwf : well_formed img)
    (ht : put_target heap img uninit dest = some (name, start, count))
    (hdir : dir_region img start count)
    (hs : scan_free img (get_superblock img) (scan_fuel start (last_block_of start count)) start
      = some pos)
    (hfree1 : 1 ≤ free_count (load_fat img (get_superblock img))
      (get_superblock img).file_system_block_count)
    (hfree : (data.length + (get_superblock img).block_size - 1) / (get_superblock img).block_size
      ≤ free_count (load_fat img (get_superblock img))
        (get_superblock img).file_system_block_count) :
    (diskput heap img uninit now (some data) dest).status = put_status.done ∧
    walks (load_fat (diskput heap img uninit now (some data) dest).img
        (get_superblock (diskput heap img uninit now (some data) dest).img))
      (read_entry (diskput heap img uninit now (some data) dest).img
        (diskput heap img uninit now (some data) dest).entry_address).start_block
      (diskput heap img uninit now (some data) dest).allocated ∧
    (diskput heap img uninit now (some data) dest).allocated.Nodup ∧
    (diskput heap img uninit now (some data) dest).allocated.length
      ≤ (get_superblock (diskput heap img uninit now (some data) dest).img).file_system_block_count
          ∧
    (∃ out, read_chain (diskput heap img uninit now (some data) dest).img
      (load_fat (diskput heap img uninit now (some data) dest).img
        (get_superblock (diskput heap img uninit now (some data) dest).img))
      (get_superblock (diskput heap img uninit now (some data) dest).img)
      ((get_superblock (diskput heap img uninit now (some data) dest).img).file_system_block_count
          + 1)
      (read_entry (diskput heap img uninit now (some data) dest).img
        (diskput heap img uninit now (some data) dest).entry_address).start_block = some out) ∧
    (∀ (heap2 : heap_after) (uninit2 : dir_entry_t) (path : List Nat),
      find_file heap2 (diskput heap img uninit now (some data) dest).img uninit2 path
        = some (read_entry (diskput heap img uninit now (some data) dest).img
          (diskput heap img uninit now (some data) dest).entry_address) →
      ∃ out, diskget heap2 (diskput heap img uninit now (some data) dest).img uninit2 path
        = get_result.written out) := by
  obtain ⟨b0, nb, j0, i0, hd, hj0, hi0, hpos, _⟩ := diskput_dir_done img uninit now data dest
    name start count pos hwf ht hdir hs hfree1 hfree
  obtain ⟨hd1, hd2, hd3, hd4⟩ := hdir
  obtain ⟨hsb, hfat, _, ⟨M, hM⟩, haddr⟩ := put_done_frame img now data name pos b0 nb _ hwf hd
    (start + j0) i0 (by omega) (by omega) (by omega) hi0 hpos
  have hsbeq : get_superblock (diskput heap img uninit now (some data) dest).img
      = get_superblock img := get_superblock_congr _ _ hsb
  have hblk := put_done_blocks img now data name pos b0 nb _ hd
  have hN : (get_superblock img).file_system_block_count < 4294967296 := be32_lt _ _
  have hb32 : b0 < 4294967296 := by
    have := hd.first_free.1
    omega
  have hst : (read_entry (diskput heap img uninit now (some data) dest).img
      (diskput heap img uninit now (some data) dest).entry_address).start_block = b0 := by
    rw [haddr]
    show be32 _ (pos + 1) = b0
    rw [hM]
    have he : (diskput heap img uninit now (some data) dest).entry.start_block = b0 := by
      rw [hd.entry]; rfl
    rw [be32_wrBytes_entry_start _ _ _ (by rw [he]; exact hb32), he]
  have hwalk := walks_of_chain_to _ b0 nb hd.chain
    (fun b hb => by have := (hblk b hb).1; omega)
  have hlen := chain_length_lt b0 nb _ hd.increasing (fun b hb => (hblk b hb).1)
  have hrd : ∀ fuel, nb.length + 1 < fuel →
      read_chain (diskput heap img uninit now (some data) dest).img
        (diskput heap img uninit now (some data) dest).fat (get_superblock img) fuel b0
        = some (((b0 :: nb).map (fun b => rdBytes (diskput heap img uninit now (some data) dest).img
          (block_off (get_superblock img) b) (get_superblock img).block_size)).flatten) :=
    fun fuel hf => read_chain_walks _ _ _ b0 (b0 :: nb) hwalk fuel
      (by rw [List.length_cons]; exact hf)
  rw [hsbeq, hfat, hst, hd.blocks]
  refine ⟨hd.status, hwalk, chain_nodup b0 nb hd.increasing, ?_, ⟨_, hrd _ (by omega)⟩, ?_⟩
  · rw [List.length_cons]
    omega
  · intro heap2 uninit2 path hfind
    refine ⟨((b0 :: nb).map (fun b => rdBytes (diskput heap img uninit now (some data) dest).img
      (block_off (get_superblock img) b) (get_superblock img).block_size)).flatten, ?_⟩
    unfold diskget
    rw [hfind]
    simp only
    rw [hsbeq, hfat, hst, hrd 4294967296 (by omega)]

set_option maxRecDepth 1000000 in
theorem diskput_chain_terminates_witness :
    (diskput heap_zero image_a entry_zero time_a (some data_600) name_new).status = put_status.done
        ∧
    (diskput heap_zero image_a entry_zero time_a (some data_600) name_new).allocated = [3, 4] ∧
    walks (load_fat (diskput heap_zero image_a entry_zero time_a (some data_600) name_new).img
        (get_superblock (diskput heap_zero image_a entry_zero time_a (some data_600) name_new).img))
      (read_entry (diskput heap_zero image_a entry_zero time_a (some data_600) name_new).img
        (diskput heap_zero image_a entry_zero time_a (some data_600)
            name_new).entry_address).start_block
      (diskput heap_zero image_a entry_zero time_a (some data_600) name_new).allocated ∧
    (diskput heap_zero image_a entry_zero time_a (some data_600) name_new).allocated.Nodup ∧
    (diskput heap_zero image_a entry_zero time_a (some data_600) name_new).allocated.length
      ≤ (get_superblock
        (diskput heap_zero image_a entry_zero time_a (some data_600)
            name_new).img).file_system_block_count ∧
    (∃ out, read_chain (diskput heap_zero image_a entry_zero time_a (some data_600) name_new).img
      (load_fat (diskput heap_zero image_a entry_zero time_a (some data_600) name_new).img
        (get_superblock (diskput heap_zero image_a entry_zero time_a (some data_600) name_new).img))
      (get_superblock (diskput heap_zero image_a entry_zero time_a (some data_600) name_new).img)
      ((get_superblock
        (diskput heap_zero image_a entry_zero time_a (some data_600)
            name_new).img).file_system_block_count
          + 1)
      (read_entry (diskput heap_zero image_a entry_zero time_a (some data_600) name_new).img
        (diskput heap_zero image_a entry_zero time_a (some data_600)
            name_new).entry_address).start_block
        = some out) ∧
    find_file heap_zero (diskput heap_zero image_a entry_zero time_a (some data_600) name_new).img
        entry_zero
        name_new
      = some (read_entry (diskput heap_zero image_a entry_zero time_a (some data_600) name_new).img
        (diskput heap_zero image_a entry_zero time_a (some data_600) name_new).entry_address) ∧
    ∃ out, diskget heap_zero (diskput heap_zero image_a entry_zero time_a (some data_600)
        name_new).img entry_zero
      name_new = get_result.written out :=
  have h := diskput_chain_terminates heap_zero image_a entry_zero time_a data_600 name_new name_new
      2 1
    1088 image_a_well_formed (by decide) (by decide) (by rfl) (by decide) (by decide)
  ⟨h.1, by decide, h.2.1, h.2.2.1, h.2.2.2.1, h.2.2.2.2.1, by decide,
    h.2.2.2.2.2 heap_zero entry_zero name_new (by decide)⟩

/-- C21: whatever the image, the source and the way `diskput` ends, every entry
of the table buffer that was not 0 when the table was loaded has the same
value in the buffer `diskput` leaves (the one it writes back when it runs to
its end); an entry whose value differs was 0; and every chain of blocks that
ended in 0xFFFFFFFF before is still that chain.  In a well-formed image with
the target directory a directory region, the same holds for the table read
back from the image file afterwards, and the superblock is unchanged.  The
table buffer is taken to hold an entry for every block. -/
theorem diskput_fat_frame (heap : heap_after) (img : Mem) (uninit : dir_entry_t)
    (now : dir_entry_timedate_t)
    (src : Option (List Nat)) (dest : List Nat)
    (_htable : 4 * (get_superblock img).file_system_block_count
      ≤ fat_bytes (get_superblock img)) :
    (∀ i, fat_entry (load_fat img (get_superblock img)) i ≠ 0 →
      fat_entry (diskput heap img uninit now src dest).fat i
        = fat_entry (load_fat img (get_superblock img)) i) ∧
    (∀ i, fat_entry (diskput heap img uninit now src dest).fat i
        ≠ fat_entry (load_fat img (get_superblock img)) i →
      fat_entry (load_fat img (get_superblock img)) i = 0) ∧
    (∀ (b : Nat) (l : List Nat), (∀ x ∈ l, x ≠ 0) →
      chain_to (load_fat img (get_superblock img)) 4294967295 b l →
      chain_to (diskput heap img uninit now src dest).fat 4294967295 b l) ∧
    (well_formed img →
      (∀ name start count, put_target heap img uninit dest = some (name, start, count) →
        dir_region img start count) →
      get_superblock (diskput heap img uninit now src dest).img = get_superblock img ∧
      (∀ i, fat_entry (load_fat img (get_superblock img)) i ≠ 0 →
        fat_entry (load_fat (diskput heap img uninit now src dest).img
          (get_superblock (diskput heap img uninit now src dest).img)) i
          = fat_entry (load_fat img (get_superblock img)) i) ∧
      ∀ (b : Nat) (l : List Nat), (∀ x ∈ l, x ≠ 0) →
        chain_to (load_fat img (get_superblock img)) 4294967295 b l →
        chain_to (load_fat (diskput heap img uninit now src dest).img
          (get_superblock (diskput heap img uninit now src dest).img)) 4294967295 b l) := by
  have hA := (@diskput_frame_all heap img uninit now src dest (fun _ => False)
    (fun _ h => h.elim) (fun _ _ _ _ _ _ _ h => h.elim)).1
  refine ⟨hA, ?_, ?_, ?_⟩
  · intro i hne
    by_contra h0
    exact hne (hA i h0)
  · intro b l hl hch
    exact chain_to_frame _ _ _ b l (by norm_num) hl hA hch
  · intro hwf hdir
    obtain ⟨hsb, hdone, hfail⟩ := diskput_disk_table img uninit now src dest hwf hdir
    have hB : ∀ i, fat_entry (load_fat img (get_superblock img)) i ≠ 0 →
        fat_entry (load_fat (diskput heap img uninit now src dest).img
          (get_superblock (diskput heap img uninit now src dest).img)) i
          = fat_entry (load_fat img (get_superblock img)) i := by
      intro i hi
      by_cases hst : (diskput heap img uninit now src dest).status = put_status.done
      · rw [hdone hst]
        exact hA i hi
      · rw [hfail hst]
    exact ⟨hsb, hB, fun b l hl hch => chain_to_frame _ _ _ b l (by norm_num) hl hB hch⟩

theorem diskput_fat_frame_witness :
    4 * (get_superblock image_e).file_system_block_count ≤ fat_bytes (get_superblock image_e) ∧
    (diskput heap_zero image_e entry_zero time_a (some [1, 2, 3]) path_d_n).status =
        put_status.done ∧
    (diskput heap_zero image_e entry_zero time_a (some [1, 2, 3]) path_d_n).allocated = [3] ∧
    fat_entry (load_fat image_e (get_superblock image_e)) 4 ≠ 0 ∧
    fat_entry (diskput heap_zero image_e entry_zero time_a (some [1, 2, 3]) path_d_n).fat 4
      = fat_entry (load_fat image_e (get_superblock image_e)) 4 ∧
    chain_to (load_fat image_e (get_superblock image_e)) 4294967295 4 [6] ∧
    chain_to (diskput heap_zero image_e entry_zero time_a (some [1, 2, 3]) path_d_n).fat 4294967295
        4
      [6] ∧
    put_target heap_zero image_e entry_zero path_d_n = some ([110], 4, 2) ∧
    dir_region image_e 4 2 ∧
    get_superblock (diskput heap_zero image_e entry_zero time_a (some [1, 2, 3]) path_d_n).img
      = get_superblock image_e ∧
    fat_entry (load_fat (diskput heap_zero image_e entry_zero time_a (some [1, 2, 3]) path_d_n).img
      (get_superblock (diskput heap_zero image_e entry_zero time_a (some [1, 2, 3]) path_d_n).img))
          4
      = fat_entry (load_fat image_e (get_superblock image_e)) 4 ∧
    chain_to (load_fat (diskput heap_zero image_e entry_zero time_a (some [1, 2, 3]) path_d_n).img
      (get_superblock (diskput heap_zero image_e entry_zero time_a (some [1, 2, 3]) path_d_n).img))
      4294967295 4 [6] ∧
    (diskput heap_zero image_b entry_zero time_a (some [1, 2, 3]) name_new).status
      = put_status.no_free_blocks ∧
    fat_entry (diskput heap_zero image_b entry_zero time_a (some [1, 2, 3]) name_new).fat 2
      = fat_entry (load_fat image_b (get_superblock image_b)) 2 :=
  have h := diskput_fat_frame heap_zero image_e entry_zero time_a (some [1, 2, 3]) path_d_n (by
      decide)
  have hd := h.2.2.2 image_e_well_formed (fun name start count ht => by
    rw [show put_target heap_zero image_e entry_zero path_d_n = some ([110], 4, 2) by decide] at ht
    simp only [Option.some.injEq, Prod.mk.injEq] at ht
    obtain ⟨_, rfl, rfl⟩ := ht
    decide)
  ⟨by decide, by decide, by decide, by decide, h.1 4 (by decide), by decide,
    h.2.2.1 4 [6] (by decide) (by decide), by decide, by decide, hd.1,
    hd.2.1 4 (by decide), hd.2.2 4 [6] (by decide) (by decide), by decide,
    (diskput_fat_frame heap_zero image_b entry_zero time_a (some [1, 2, 3]) name_new (by decide)).1
        2
      (by decide)⟩

/-- C22: when the table entries 0 and 1 are not 0 and `diskput` runs to its end
having been handed k blocks by `get_free_block`, these k blocks are distinct,
were free before, and in the table `diskput` writes back none of them holds 0
or 1: each holds 0xFFFFFFFF or the index, at least 2, of another of them.
Counted as `diskinfo` counts, over file_system_block_count entries, the
reserved entries of that table are as many as before, the free entries k
fewer and the allocated entries k more.  In a well-formed image with the
target directory a directory region this table is the one `diskinfo` reads
from the new image, so the three counters `diskinfo` reports change in this
way.  The table buffer is taken to hold an entry for every block. -/
theorem diskput_summary_counts (heap : heap_after) (img : Mem) (uninit : dir_entry_t)
    (now : dir_entry_timedate_t) (data dest : List Nat)
    (hst : (diskput heap img uninit now (some data) dest).status = put_status.done)
    (h0 : fat_entry (load_fat img (get_superblock img)) 0 ≠ 0)
    (h1 : fat_entry (load_fat img (get_superblock img)) 1 ≠ 0)
    (_htable : 4 * (get_superblock img).file_system_block_count
      ≤ fat_bytes (get_superblock img)) :
    (diskput heap img uninit now (some data) dest).allocated.Nodup ∧
    (∀ b ∈ (diskput heap img uninit now (some data) dest).allocated,
      b < (get_superblock img).file_system_block_count ∧
      fat_entry (load_fat img (get_superblock img)) b = 0 ∧
      fat_entry (diskput heap img uninit now (some data) dest).fat b ≠ 0 ∧
      fat_entry (diskput heap img uninit now (some data) dest).fat b ≠ 1 ∧
      (fat_entry (diskput heap img uninit now (some data) dest).fat b = 4294967295 ∨
        (2 ≤ fat_entry (diskput heap img uninit now (some data) dest).fat b ∧
          fat_entry (diskput heap img uninit now (some data) dest).fat b
            ∈ (diskput heap img uninit now (some data) dest).allocated))) ∧
    (count_fat (diskput heap img uninit now (some data) dest).fat
        (get_superblock img).file_system_block_count).reserved_blocks
      = (count_fat (load_fat img (get_superblock img))
        (get_superblock img).file_system_block_count).reserved_blocks ∧
    (count_fat (diskput heap img uninit now (some data) dest).fat
        (get_superblock img).file_system_block_count).free_blocks
        + (diskput heap img uninit now (some data) dest).allocated.length
      = (count_fat (load_fat img (get_superblock img))
        (get_superblock img).file_system_block_count).free_blocks ∧
    (count_fat (diskput heap img uninit now (some data) dest).fat
        (get_superblock img).file_system_block_count).allocated_blocks
      = (count_fat (load_fat img (get_superblock img))
        (get_superblock img).file_system_block_count).allocated_blocks
        + (diskput heap img uninit now (some data) dest).allocated.length ∧
    (well_formed img →
      (∀ name start count, put_target heap img uninit dest = some (name, start, count) →
        dir_region img start count) →
      ∃ s s2, diskinfo img = some (get_superblock img, s) ∧
        diskinfo (diskput heap img uninit now (some data) dest).img
          = some (get_superblock img, s2) ∧
        s2.reserved_blocks = s.reserved_blocks ∧
        s2.free_blocks + (diskput heap img uninit now (some data) dest).allocated.length
          = s.free_blocks ∧
        s2.allocated_blocks
          = s.allocated_blocks + (diskput heap img uninit now (some data) dest).allocated.length)
              := by
  obtain ⟨name, start, count, pos, b0, nb, ht, hs, hd⟩ :=
    diskput_done img uninit now data dest hst
  obtain ⟨hnew, hres, hfree, halloc⟩ := put_done_counts img now data name pos b0 nb _ hd h0 h1
  have hblk := put_done_blocks img now data name pos b0 nb _ hd
  rw [hd.blocks]
  refine ⟨chain_nodup b0 nb hd.increasing, ?_, hres, hfree, halloc, ?_⟩
  · intro b hb
    exact ⟨(hblk b hb).1, (hblk b hb).2, hnew b hb⟩
  · intro hwf hdir
    obtain ⟨hsb, hfat⟩ := put_done_dir_frame img now data name start count pos b0 nb _ hwf
      (hdir name start count ht) hs hd
    refine ⟨_, _, diskinfo_eq img, ?_, hres, hfree, halloc⟩
    rw [diskinfo_eq, hsb, hfat]

set_option maxRecDepth 1000000 in
theorem diskput_summary_counts_witness :
    (diskput heap_zero image_a entry_zero time_a (some data_600) name_new).status = put_status.done
        ∧
    fat_entry (load_fat image_a (get_superblock image_a)) 0 ≠ 0 ∧
    fat_entry (load_fat image_a (get_superblock image_a)) 1 ≠ 0 ∧
    (diskput heap_zero image_a entry_zero time_a (some data_600) name_new).allocated = [3, 4] ∧
    fat_entry (diskput heap_zero image_a entry_zero time_a (some data_600) name_new).fat 3 = 4 ∧
    fat_entry (diskput heap_zero image_a entry_zero time_a (some data_600) name_new).fat 4
      = 4294967295 ∧
    diskinfo image_a = some (get_superblock image_a, ⟨5, 2, 1⟩) ∧
    diskinfo (diskput heap_zero image_a entry_zero time_a (some data_600) name_new).img
      = some (get_superblock image_a, ⟨3, 2, 3⟩) ∧
    (diskput heap_zero image_a entry_zero time_a (some data_600) name_new).allocated.Nodup ∧
    (count_fat (diskput heap_zero image_a entry_zero time_a (some data_600) name_new).fat
        (get_superblock image_a).file_system_block_count).reserved_blocks
      = (count_fat (load_fat image_a (get_superblock image_a))
        (get_superblock image_a).file_system_block_count).reserved_blocks ∧
    (count_fat (diskput heap_zero image_a entry_zero time_a (some data_600) name_new).fat
        (get_superblock image_a).file_system_block_count).free_blocks
        + (diskput heap_zero image_a entry_zero time_a (some data_600) name_new).allocated.length
      = (count_fat (load_fat image_a (get_superblock image_a))
        (get_superblock image_a).file_system_block_count).free_blocks ∧
    (count_fat (diskput heap_zero image_a entry_zero time_a (some data_600) name_new).fat
        (get_superblock image_a).file_system_block_count).allocated_blocks
      = (count_fat (load_fat image_a (get_superblock image_a))
        (get_superblock image_a).file_system_block_count).allocated_blocks
        + (diskput heap_zero image_a entry_zero time_a (some data_600) name_new).allocated.length ∧
    ∃ s s2, diskinfo image_a = some (get_superblock image_a, s) ∧
      diskinfo (diskput heap_zero image_a entry_zero time_a (some data_600) name_new).img
        = some (get_superblock image_a, s2) ∧
      s2.reserved_blocks = s.reserved_blocks ∧
      s2.free_blocks
          + (diskput heap_zero image_a entry_zero time_a (some data_600) name_new).allocated.length
        = s.free_blocks ∧
      s2.allocated_blocks = s.allocated_blocks
        + (diskput heap_zero image_a entry_zero time_a (some data_600) name_new).allocated.length :=
  have h := diskput_summary_counts heap_zero image_a entry_zero time_a data_600 name_new (by decide)
    (by decide) (by decide) (by decide)
  ⟨by decide, by decide, by decide, by decide, by decide, by decide, by decide, by decide,
    h.1, h.2.2.1, h.2.2.2.1, h.2.2.2.2.1,
    h.2.2.2.2.2 image_a_well_formed (fun name start count ht => by
      rw [show put_target heap_zero image_a entry_zero name_new = some (name_new, 2, 1) by decide]
          at ht
      simp only [Option.some.injEq, Prod.mk.injEq] at ht
      obtain ⟨_, rfl, rfl⟩ := ht
      decide)⟩

end FatFs
